import Mathlib

/-!
# The RocksDB storage backend of the broker data store

A shallow embedding of `src/store/rocksdb_backend.cc`.

* The storage engine (RocksDB) is an external collaborator.  It is modelled as an
  ordered association list from byte strings to byte strings; every engine call takes
  an explicit argument saying how the engine answers (an I/O failure, the answer of the
  `KeyMayExist` probe, the key-count estimate), so that theorems can quantify over the
  engine's behaviour.
* The binary serializer (CAF) is a parameter: a `Codec` record of encode and decode
  functions.  Round-trip properties are hypotheses of the theorems that need them, and
  `codec0` is a concrete codec for which they are proved.
* The backend object (`pimpl`) is the record `impl`, passed explicitly: every operation
  returns its result together with the new `impl`.
-/

namespace broker

/-! ## Domain values -/

/-- Byte strings (`std::string`, `rocksdb::Slice`). -/
abbrev Bytes := List Char

/-- Modelled from the spec: the structured domain value `broker::data`, a closed tagged
union over scalar and collection variants ("scalar types, set, vector, ...").  The type
itself lives in `broker/data.hh`, which is not part of the sources at hand.  A set is
kept as a duplicate-free list of its elements. -/
inductive data where
  | boolean (b : Bool)
  | count (n : Nat)
  | integer (i : Int)
  | string (s : List Char)
  | set (xs : List data)
  | vector (xs : List data)

/-- Modelled from the spec: the variant tag of a value, reported by `which(d)`. -/
def which : data → Nat
  | .boolean _ => 0
  | .count _ => 1
  | .integer _ => 2
  | .string _ => 3
  | .set _ => 4
  | .vector _ => 5

mutual
/-- Structural equality test on `data`. -/
def data.beq : data → data → Bool
  | .boolean a, .boolean b => a == b
  | .count a, .count b => a == b
  | .integer a, .integer b => a == b
  | .string a, .string b => a == b
  | .set a, .set b => data.beqList a b
  | .vector a, .vector b => data.beqList a b
  | _, _ => false
/-- Structural equality test on lists of `data`. -/
def data.beqList : List data → List data → Bool
  | [], [] => true
  | x :: xs, y :: ys => data.beq x y && data.beqList xs ys
  | _, _ => false
end

mutual
theorem data.beq_self : ∀ a : data, data.beq a a = true
  | .boolean _ => by simp [data.beq]
  | .count _ => by simp [data.beq]
  | .integer _ => by simp [data.beq]
  | .string _ => by simp [data.beq]
  | .set xs => by simp [data.beq, data.beqList_self xs]
  | .vector xs => by simp [data.beq, data.beqList_self xs]
theorem data.beqList_self : ∀ xs : List data, data.beqList xs xs = true
  | [] => by simp [data.beqList]
  | x :: xs => by simp [data.beqList, data.beq_self x, data.beqList_self xs]
end

mutual
theorem data.eq_of_beq : ∀ a b : data, data.beq a b = true → a = b
  | .boolean a, b => by cases b <;> simp [data.beq]
  | .count a, b => by cases b <;> simp [data.beq]
  | .integer a, b => by cases b <;> simp [data.beq]
  | .string a, b => by cases b <;> simp [data.beq]
  | .set xs, b => by
    cases b <;> simp [data.beq]
    exact data.eq_of_beqList xs _
  | .vector xs, b => by
    cases b <;> simp [data.beq]
    exact data.eq_of_beqList xs _
theorem data.eq_of_beqList : ∀ xs ys : List data, data.beqList xs ys = true → xs = ys
  | [], ys => by cases ys <;> simp [data.beqList]
  | x :: xs, ys => by
    cases ys with
    | nil => simp [data.beqList]
    | cons y ys =>
      simp only [data.beqList, Bool.and_eq_true, List.cons.injEq]
      exact fun h => ⟨data.eq_of_beq x y h.1, data.eq_of_beqList xs ys h.2⟩
end

instance : DecidableEq data := fun a b =>
  decidable_of_iff (data.beq a b = true)
    ⟨data.eq_of_beq a b, fun h => h ▸ data.beq_self a⟩

/-- The default-constructed `data`: the first variant of the union. -/
instance : Inhabited data := ⟨data.boolean false⟩

mutual
/-- Modelled from the spec: the total order of domain values (the comparison behind
`operator<` of `broker::data`): first by variant index, then by content; collections
compare lexicographically. -/
def data.cmp : data → data → Ordering
  | .boolean a, .boolean b => compare a b
  | .count a, .count b => compare a b
  | .integer a, .integer b => compare a b
  | .string a, .string b => compare (a.map Char.toNat) (b.map Char.toNat)
  | .set a, .set b => data.cmpList a b
  | .vector a, .vector b => data.cmpList a b
  | a, b => compare (which a) (which b)
/-- Lexicographic comparison of lists of domain values. -/
def data.cmpList : List data → List data → Ordering
  | [], [] => Ordering.eq
  | [], _ :: _ => Ordering.lt
  | _ :: _, [] => Ordering.gt
  | x :: xs, y :: ys => (data.cmp x y).then (data.cmpList xs ys)
end

/-- The relation `a < b` on domain values. -/
def data.lt (a b : data) : Bool :=
  data.cmp a b == Ordering.lt

/-- The container `broker::set` (`std::set<data>`): a duplicate-free list in ascending
order.  `emplace` adds the element at its place in the order unless an equal element is
already there. -/
def set_emplace (s : List data) (x : data) : List data :=
  if x ∈ s then s else s.orderedInsert (fun a b => data.lt a b = true) x

/-- The call `s->erase(element)`: removes the element if it is there. -/
def set_erase (s : List data) (x : data) : List data :=
  s.erase x

/-- Modelled from the spec: "an optional timestamp attached to a Key"
(`broker::store::expiration_time`, declared outside the sources at hand). -/
structure expiration_time where
  time : Nat
  deriving DecidableEq

/-- Modelled from the spec: the stored item `broker::store::value`, "the pairing
{domain value, optional expiration time}". -/
structure value where
  item : data
  expiry : Option expiration_time
  deriving DecidableEq

/-- Modelled from the spec: the sequence number is "a monotonically increasing,
totally-ordered generation counter" and `++` "increments the sequence number by one"
(`broker::store::sequence_num`, declared outside the sources at hand). -/
structure sequence_num where
  n : Nat
  deriving DecidableEq

/-- The operator `++` of `sequence_num`. -/
def sequence_num.incr (s : sequence_num) : sequence_num := ⟨s.n + 1⟩

/-- Modelled from the spec: the pair `broker::store::expirable`, "{Key, expiration
time}". -/
structure expirable where
  key : data
  expiry : expiration_time
  deriving DecidableEq

/-- Modelled from the spec: the record `broker::store::snapshot`, "{sequence number,
mapping from Key to Stored item}".  `datastore` is a `std::unordered_map<data, value>`,
kept as an association list in which no key occurs twice; the order of the list is the
(unspecified) iteration order of the map. -/
structure snapshot where
  sn : sequence_num
  datastore : List (data × value)
  deriving DecidableEq

/-- Lookup in an `unordered_map` (`find`). -/
def umap_find (m : List (data × value)) (k : data) : Option value :=
  match m with
  | [] => none
  | (k', v) :: rest => if k' = k then some v else umap_find rest k

/-- The call `m.emplace(k, v)`: adds the pair unless the key is already present. -/
def umap_emplace (m : List (data × value)) (k : data) (v : value) : List (data × value) :=
  match m with
  | [] => [(k, v)]
  | (k', v') :: rest => if k' = k then (k', v') :: rest else (k', v') :: umap_emplace rest k v

/-- The statement `m[k].expiry = e`: `operator[]` creates a default-constructed value
when the key is absent, then the expiry of the entry is assigned. -/
def umap_set_expiry (m : List (data × value)) (k : data) (e : expiration_time) :
    List (data × value) :=
  match m with
  | [] => [(k, { item := default, expiry := some e })]
  | (k', v') :: rest =>
    if k' = k then (k', { v' with expiry := some e }) :: rest
    else (k', v') :: umap_set_expiry rest k e

/-- The call `s.emplace(k)` on a `std::unordered_set<data>`. -/
def uset_emplace (s : List data) (k : data) : List data :=
  if k ∈ s then s else s ++ [k]

/-! ## The codec -/

/-- The binary serializer and the build constants, which the backend takes from outside:
`ser_data`/`de_data` are `bs << obj` and `deserialize` at type `data`,
`ser_time`/`de_time` the same at type `expiration_time`, and `ver_major`, `ver_minor`,
`ver_patch` stand for the macros `BROKER_VERSION_MAJOR`, `_MINOR`, `_PATCH`. -/
structure Codec where
  ser_data : data → Bytes
  de_data : Bytes → data
  ser_time : expiration_time → Bytes
  de_time : Bytes → expiration_time
  ver_major : Nat
  ver_minor : Nat
  ver_patch : Nat

/-- The function `version_string`: "%d.%d.%d" of the three version macros. -/
def version_string (cd : Codec) : Bytes :=
  (toString cd.ver_major ++ "." ++ toString cd.ver_minor ++ "." ++ toString cd.ver_patch).toList

/-- The overload `to_serial(obj)` at type `data`. -/
def to_serial (cd : Codec) (obj : data) : Bytes :=
  [] ++ cd.ser_data obj

/-- The overload `to_serial(obj)` at type `expiration_time`. -/
def to_serial_time (cd : Codec) (obj : expiration_time) : Bytes :=
  [] ++ cd.ser_time obj

/-- The overload `to_serial(obj, keyspace)`: the keyspace byte followed by the encoding. -/
def to_serial_key (cd : Codec) (obj : data) (keyspace : Char) : Bytes :=
  [keyspace] ++ cd.ser_data obj

/-- The function `from_serial<data>`. -/
def from_serial (cd : Codec) (bytes : Bytes) : data :=
  cd.de_data bytes

/-- The function `from_serial<expiration_time>`. -/
def from_serial_time (cd : Codec) (bytes : Bytes) : expiration_time :=
  cd.de_time bytes

/-! ## The storage engine -/

/-- Bytewise order of engine keys (the engine's default comparator). -/
def bytes_lt : Bytes → Bytes → Bool
  | _, [] => false
  | [], _ :: _ => true
  | a :: as, b :: bs =>
    if a.toNat < b.toNat then true
    else if b.toNat < a.toNat then false
    else bytes_lt as bs

/-- The test `key.starts_with(p)`. -/
def starts_with (key p : Bytes) : Bool :=
  p.isPrefixOf key

/-- Value stored under a key, if any. -/
def kv_get : List (Bytes × Bytes) → Bytes → Option Bytes
  | [], _ => none
  | (k', v') :: rest, k => if k' = k then some v' else kv_get rest k

/-- Store a value under a key, at the key's place in the order, replacing an older value. -/
def kv_put : List (Bytes × Bytes) → Bytes → Bytes → List (Bytes × Bytes)
  | [], k, v => [(k, v)]
  | (k', v') :: rest, k, v =>
    if bytes_lt k k' then (k, v) :: (k', v') :: rest
    else if k' = k then (k, v) :: rest
    else (k', v') :: kv_put rest k v

/-- Remove a key. -/
def kv_delete (es : List (Bytes × Bytes)) (k : Bytes) : List (Bytes × Bytes) :=
  es.filter (fun e => e.1 ≠ k)

/-- An open engine handle (`rocksdb::DB*`): the path it was opened at and the content of
the keyspace, in key order. -/
structure DB where
  name : String
  entries : List (Bytes × Bytes)
  deriving DecidableEq

/-- The keys of the keyspace are strictly ascending, as in every engine keyspace. -/
def DB.ordered (db : DB) : Prop :=
  db.entries.Pairwise (fun a b => bytes_lt a.1 b.1 = true)

/-- The engine's `rocksdb::Status`, reduced to what the backend asks of it. -/
inductive Status where
  | OK
  | NotFound
  | Failure (msg : String)
  deriving DecidableEq

/-- The test `status.ok()`. -/
def Status.ok : Status → Bool
  | .OK => true
  | _ => false

/-- The test `status.IsNotFound()`. -/
def Status.IsNotFound : Status → Bool
  | .NotFound => true
  | _ => false

/-- The text `status.ToString()`. -/
def Status.ToString : Status → String
  | .OK => "OK"
  | .NotFound => "NotFound: "
  | .Failure msg => msg

/-- The options record `rocksdb::Options`, reduced to the one field the backend sets. -/
structure Options where
  create_if_missing : Bool
  deriving DecidableEq

/-- The call `db->Put(key, value)`.  `fault` is `some msg` when the engine reports a
failure, in which case nothing is written. -/
def DB.Put (db : DB) (fault : Option String) (k v : Bytes) : Status × DB :=
  match fault with
  | some msg => (Status.Failure msg, db)
  | none => (Status.OK, { db with entries := kv_put db.entries k v })

/-- The call `db->Delete(key)`; deleting an absent key is not an error. -/
def DB.Delete (db : DB) (fault : Option String) (k : Bytes) : Status × DB :=
  match fault with
  | some msg => (Status.Failure msg, db)
  | none => (Status.OK, { db with entries := kv_delete db.entries k })

/-- The call `db->Write(batch)` for a batch of `Put` records: all are applied, in order,
or none is. -/
def DB.Write (db : DB) (fault : Option String) (batch : List (Bytes × Bytes)) : Status × DB :=
  match fault with
  | some msg => (Status.Failure msg, db)
  | none => (Status.OK, { db with entries := batch.foldl (fun es r => kv_put es r.1 r.2) db.entries })

/-- The call `db->Get(key, &value)`: the status and the content of `value` afterwards. -/
def DB.Get (db : DB) (fault : Option String) (k : Bytes) (vserial : Bytes) : Status × Bytes :=
  match fault with
  | some msg => (Status.Failure msg, vserial)
  | none =>
    match kv_get db.entries k with
    | some v => (Status.OK, v)
    | none => (Status.NotFound, vserial)

/-- What the membership probe `db->KeyMayExist(key, &value, &value_found)` answers. -/
inductive Probe where
  | absent
  | may_exist
  | found (v : Bytes)
  deriving DecidableEq

/-- The return value of `KeyMayExist`. -/
def Probe.may : Probe → Bool
  | .absent => false
  | _ => true

/-- The flag `value_found` after `KeyMayExist`. -/
def Probe.value_found : Probe → Bool
  | .found _ => true
  | _ => false

/-- The content of `value` after `KeyMayExist`. -/
def Probe.value (p : Probe) (vserial : Bytes) : Bytes :=
  match p with
  | .found v => v
  | _ => vserial

/-- The contract of `KeyMayExist`: it answers "no" only for a key that is not stored, and
a value it reports as found is the stored one. -/
def Probe.within_contract (es : List (Bytes × Bytes)) (k : Bytes) : Probe → Prop
  | .absent => kv_get es k = none
  | .may_exist => True
  | .found v => kv_get es k = some v

instance (es : List (Bytes × Bytes)) (k : Bytes) (p : Probe) :
    Decidable (p.within_contract es k) := by
  cases p <;> simp only [Probe.within_contract] <;> infer_instance

/-- The iterator after `it->Seek(target)`: the entries from the first key that is not
below `target`. -/
def DB.Seek (db : DB) (target : Bytes) : List (Bytes × Bytes) :=
  db.entries.dropWhile (fun e => bytes_lt e.1 target)

/-- The loop `for ( it->Seek(p); it->Valid() && it->key().starts_with(p); it->Next() )`:
the entries it visits, in order. -/
def DB.scan (db : DB) (p : Bytes) : List (Bytes × Bytes) :=
  (db.Seek p).takeWhile (fun e => starts_with e.1 p)

/-- The call `rocksdb::DB::Open(options, path, &db)`.  `disk` is the keyspace stored at
the path, if there is one; a missing store is created only with `create_if_missing`. -/
def DB.Open (options : Options) (db_path : String) (disk : Option (List (Bytes × Bytes)))
    (fault : Option String) : Status × Option DB :=
  match fault with
  | some msg => (Status.Failure msg, none)
  | none =>
    match disk with
    | some es => (Status.OK, some { name := db_path, entries := es })
    | none =>
      if options.create_if_missing then (Status.OK, some { name := db_path, entries := [] })
      else (Status.Failure "Invalid argument: does not exist (create_if_missing is false)", none)

/-- The call `rocksdb::DestroyDB(path, options)`: the status, and what is left at the path. -/
def DestroyDB (disk : Option (List (Bytes × Bytes))) (fault : Option String) :
    Status × Option (List (Bytes × Bytes)) :=
  match fault with
  | some msg => (Status.Failure msg, disk)
  | none => (Status.OK, none)

/-! ## The backend state -/

/-- Modelled from the spec: the private state `rocksdb_backend::impl` of the backend
(declared in `rocksdb_backend_impl.hh`, outside the sources at hand): the sequence
number, the engine handle (absent when the backend is closed), the last error, the
open options and the exact-size threshold. -/
structure impl where
  sn : sequence_num
  db : Option DB
  last_error : String
  options : Options
  exact_size_threshold : Nat
  deriving DecidableEq

/-- Modelled from the spec: `impl::require_db`, the check that makes every operation
"fail fast with a distinguishable no-database condition" when the backend is closed. -/
def require_db (st : impl) : Bool × impl :=
  match st.db with
  | some _ => (true, st)
  | none => (false, { st with last_error := "db not open" })

/-- Modelled from the spec: `impl::require_ok`, the "single status-translation choke
point that records the last error and reduces every engine outcome to
success/failure". -/
def require_ok (st : impl) (s : Status) : Bool × impl :=
  if s.ok then (true, st) else (false, { st with last_error := s.ToString })

/-- The constructor `rocksdb_backend(exact_size_threshold)`: a closed backend. -/
def rocksdb_backend (exact_size_threshold : Nat) : impl :=
  { sn := ⟨0⟩, db := none, last_error := "", options := ⟨false⟩,
    exact_size_threshold := exact_size_threshold }

/-- The status `it->status()` of an iterator; `fault` is `some msg` when the iteration
failed. -/
def iter_status (fault : Option String) : Status :=
  match fault with
  | some msg => Status.Failure msg
  | none => Status.OK

/-- How the engine answers while one key is read: the answer of the `KeyMayExist` probe
and whether the `Get` that may follow it fails. -/
structure ReadEnv where
  probe : Probe
  get_fault : Option String

/-- How the engine answers during `lookup_with_expiry`: the read of the `'a'` entry and
the read of the `'e'` entry. -/
structure LookupEnv where
  a : ReadEnv
  e : ReadEnv

/-- How the engine answers during `do_clear`: the failures, if any, of `DestroyDB`, of
`DB::Open` and of the `Put` of the metadata record. -/
structure ClearEnv where
  destroy_fault : Option String
  open_fault : Option String
  put_fault : Option String

/-! ## The operations -/

/-- The key of the metadata record. -/
def metadata_key : Bytes := "mbroker_version".toList

/-- The static function `insert(db, k, v, e)`. -/
def insert (cd : Codec) (db : DB) (fault : Option String) (k v : data)
    (e : Option expiration_time) : Status × DB :=
  let kserial := to_serial_key cd k 'a'
  let vserial := to_serial cd v
  match e with
  | none => db.Put fault kserial vserial
  | some t =>
    let evserial := to_serial_time cd t
    let batch := [(kserial, vserial)]
    let kserial := kserial.set 0 'e'
    let batch := batch ++ [(kserial, evserial)]
    db.Write fault batch

/-- The method `rocksdb_backend::open(db_path, options)`.  `disk` is the keyspace found
at the path. -/
def rocksdb_backend_open (cd : Codec) (st : impl) (db_path : String) (options : Options)
    (disk : Option (List (Bytes × Bytes))) (open_fault put_fault : Option String) :
    Status × impl :=
  let o := DB.Open options db_path disk open_fault
  let rval := o.1
  let st := { st with db := o.2 }
  let options := { options with create_if_missing := true }
  let st := { st with options := options }
  if rval.ok then
    match st.db with
    | some db =>
      let ver := version_string cd
      let w := db.Put put_fault metadata_key ver
      (w.1, { st with db := some w.2 })
    | none => (rval, st)
  else (rval, st)

/-- The method `do_increase_sequence`. -/
def do_increase_sequence (st : impl) : impl :=
  { st with sn := st.sn.incr }

/-- The method `do_last_error`. -/
def do_last_error (st : impl) : String :=
  st.last_error

/-- The method `do_sequence`. -/
def do_sequence (st : impl) : sequence_num :=
  st.sn

/-- The method `do_insert`. -/
def do_insert (cd : Codec) (st : impl) (fault : Option String) (k v : data)
    (e : Option expiration_time) : Bool × impl :=
  match st.db with
  | none => (false, (require_db st).2)
  | some db =>
    let w := insert cd db fault k v e
    require_ok { st with db := some w.2 } w.1

/-- The method `do_erase`; `fault_a` and `fault_e` are the failures of the two deletes. -/
def do_erase (cd : Codec) (st : impl) (fault_a fault_e : Option String) (k : data) :
    Bool × impl :=
  match st.db with
  | none => (false, (require_db st).2)
  | some db =>
    let kserial := to_serial_key cd k 'a'
    let d := db.Delete fault_a kserial
    let r := require_ok { st with db := some d.2 } d.1
    if ¬ r.1 then (false, r.2)
    else
      let kserial := kserial.set 0 'e'
      let d2 := d.2.Delete fault_e kserial
      require_ok { r.2 with db := some d2.2 } d2.1

/-- The method `do_clear`. -/
def do_clear (cd : Codec) (st : impl) (env : ClearEnv) : Bool × impl :=
  match st.db with
  | none => (false, (require_db st).2)
  | some db =>
    let db_path := db.name
    let st := { st with db := none }
    let d := DestroyDB (some db.entries) env.destroy_fault
    let r := require_ok st d.1
    if ¬ r.1 then (false, r.2)
    else
      let o := rocksdb_backend_open cd r.2 db_path r.2.options d.2 env.open_fault env.put_fault
      require_ok o.2 o.1

/-- The write batch built by the loop of `do_init`, for the entries of the snapshot in
iteration order. -/
def init_batch (cd : Codec) : List (data × value) → List (Bytes × Bytes)
  | [] => []
  | kv :: rest =>
    let kserial := to_serial_key cd kv.1 'a'
    let vserial := to_serial cd kv.2.item
    match kv.2.expiry with
    | some t => (kserial, vserial) :: (kserial.set 0 'e', to_serial_time cd t) :: init_batch cd rest
    | none => (kserial, vserial) :: init_batch cd rest

/-- The method `do_init`. -/
def do_init (cd : Codec) (st : impl) (sss : snapshot) (env : ClearEnv)
    (write_fault : Option String) : Bool × impl :=
  let c := do_clear cd st env
  if ¬ c.1 then (false, c.2)
  else
    let batch := init_batch cd sss.datastore
    let st := { c.2 with sn := sss.sn }
    match st.db with
    | none => (false, st)
    | some db =>
      let w := db.Write write_fault batch
      require_ok { st with db := some w.2 } w.1

/-- The method `do_lookup`. -/
def do_lookup (cd : Codec) (st : impl) (env : ReadEnv) (k : data) :
    Option (Option data) × impl :=
  match st.db with
  | none => (none, (require_db st).2)
  | some db =>
    let kserial := to_serial_key cd k 'a'
    let vserial : Bytes := []
    if ¬ env.probe.may then (some none, st)
    else
      let vserial := env.probe.value vserial
      if env.probe.value_found then (some (some (from_serial cd vserial)), st)
      else
        let g := db.Get env.get_fault kserial vserial
        if g.1.IsNotFound then (some none, st)
        else
          let r := require_ok st g.1
          if ¬ r.1 then (none, r.2)
          else (some (some (from_serial cd g.2)), r.2)

/-- The method `do_exists`. -/
def do_exists (cd : Codec) (st : impl) (env : ReadEnv) (k : data) : Option Bool × impl :=
  match st.db with
  | none => (none, (require_db st).2)
  | some db =>
    let kserial := to_serial_key cd k 'a'
    let vserial : Bytes := []
    if ¬ env.probe.may then (some false, st)
    else
      let g := db.Get env.get_fault kserial (env.probe.value vserial)
      if g.1.IsNotFound then (some false, st)
      else
        let r := require_ok st g.1
        if ¬ r.1 then (none, r.2)
        else (some true, r.2)

/-- The method `lookup_with_expiry`.  Each block `if ( ! value_found )` around a `Get` is
rendered by the pair `g`: the outcome of `Get` when the block runs, and status OK with
the bytes of the probe when it is skipped. -/
def lookup_with_expiry (cd : Codec) (st : impl) (env : LookupEnv) (k : data) :
    Option (Option value) × impl :=
  match st.db with
  | none => (none, (require_db st).2)
  | some db =>
    let kserial := to_serial_key cd k 'a'
    let vserial : Bytes := []
    if ¬ env.a.probe.may then (some none, st)
    else
      let vserial := env.a.probe.value vserial
      let g := if ¬ env.a.probe.value_found then db.Get env.a.get_fault kserial vserial
               else (Status.OK, vserial)
      if g.1.IsNotFound then (some none, st)
      else
        let r := require_ok st g.1
        if ¬ r.1 then (none, r.2)
        else
          let st := r.2
          let vserial := g.2
          let kserial := kserial.set 0 'e'
          let rval : value := { item := from_serial cd vserial, expiry := none }
          if ¬ env.e.probe.may then (some (some rval), st)
          else
            let vserial := env.e.probe.value vserial
            let g := if ¬ env.e.probe.value_found then db.Get env.e.get_fault kserial vserial
                     else (Status.OK, vserial)
            if g.1.IsNotFound then (some (some rval), st)
            else
              let r := require_ok st g.1
              if ¬ r.1 then (none, r.2)
              else
                (some (some { rval with expiry := some (from_serial_time cd g.2) }), r.2)

/-- Two's-complement wrap of an integer to the range of `int64_t`. -/
def wrap_int64 (x : Int) : Int :=
  (x + 2 ^ 63) % 2 ^ 64 - 2 ^ 63

/-- Wrap of an integer to the range of `uint64_t`. -/
def wrap_uint64 (x : Int) : Nat :=
  (x % 2 ^ 64).toNat

/-- Modelled from the spec: `detail::increment_visitor{by}` applied to a value (declared
outside the sources at hand): the required variant is "integral", the mutation is an
"arithmetic add" in place, and the visitor answers whether the value was integral. -/
def increment_visitor (amount : Int) : data → Bool × data
  | .count n => (true, .count (wrap_uint64 (n + amount)))
  | .integer i => (true, .integer (wrap_int64 (i + amount)))
  | d => (false, d)

/-- The method `do_increment`. -/
def do_increment (cd : Codec) (st : impl) (env : LookupEnv) (write_fault : Option String)
    (k : data) (amount : Int) : Int × impl :=
  let r := lookup_with_expiry cd st env k
  match r.1 with
  | none => (-1, r.2)
  | some none =>
    match r.2.db with
    | none => (-1, r.2)
    | some db =>
      let w := insert cd db write_fault k (data.integer amount) none
      let q := require_ok { r.2 with db := some w.2 } w.1
      if q.1 then (0, q.2) else (-1, q.2)
  | some (some val) =>
    let vis := increment_visitor amount val.item
    if ¬ vis.1 then
      (1, { r.2 with last_error :=
              "attempt to increment non-integral tag " ++ toString (which val.item) })
    else
      match r.2.db with
      | none => (-1, r.2)
      | some db =>
        let w := insert cd db write_fault k vis.2 val.expiry
        let q := require_ok { r.2 with db := some w.2 } w.1
        if q.1 then (0, q.2) else (-1, q.2)

/-- The method `do_add_to_set`. -/
def do_add_to_set (cd : Codec) (st : impl) (env : LookupEnv) (write_fault : Option String)
    (k : data) (element : data) : Int × impl :=
  let r := lookup_with_expiry cd st env k
  match r.1 with
  | none => (-1, r.2)
  | some none =>
    match r.2.db with
    | none => (-1, r.2)
    | some db =>
      let w := insert cd db write_fault k (data.set [element]) none
      let q := require_ok { r.2 with db := some w.2 } w.1
      if q.1 then (0, q.2) else (-1, q.2)
  | some (some val) =>
    match val.item with
    | data.set s =>
      match r.2.db with
      | none => (-1, r.2)
      | some db =>
        let w := insert cd db write_fault k (data.set (set_emplace s element)) val.expiry
        let q := require_ok { r.2 with db := some w.2 } w.1
        if q.1 then (0, q.2) else (-1, q.2)
    | item =>
      (1, { r.2 with last_error := "attempt to add to non-set tag " ++ toString (which item) })

/-- The method `do_remove_from_set`. -/
def do_remove_from_set (cd : Codec) (st : impl) (env : LookupEnv)
    (write_fault : Option String) (k : data) (element : data) : Int × impl :=
  let r := lookup_with_expiry cd st env k
  match r.1 with
  | none => (-1, r.2)
  | some none =>
    match r.2.db with
    | none => (-1, r.2)
    | some db =>
      let w := insert cd db write_fault k (data.set []) none
      let q := require_ok { r.2 with db := some w.2 } w.1
      if q.1 then (0, q.2) else (-1, q.2)
  | some (some val) =>
    match val.item with
    | data.set s =>
      match r.2.db with
      | none => (-1, r.2)
      | some db =>
        let w := insert cd db write_fault k (data.set (set_erase s element)) val.expiry
        let q := require_ok { r.2 with db := some w.2 } w.1
        if q.1 then (0, q.2) else (-1, q.2)
    | item =>
      (1, { r.2 with last_error :=
              "attempt to remove from non-set tag " ++ toString (which item) })

/-- The key part of an entry, `ks.remove_prefix(1)` (a `rocksdb::Slice`). -/
def remove_first (ks : Bytes) : Bytes :=
  ks.drop 1

/-- The loop of `do_keys` over the visited entries. -/
def keys_loop (cd : Codec) (visited : List (Bytes × Bytes)) (rval : List data) : List data :=
  visited.foldl (fun acc e => uset_emplace acc (from_serial cd (remove_first e.1))) rval

/-- The method `do_keys`. -/
def do_keys (cd : Codec) (st : impl) (iter_fault : Option String) :
    Option (List data) × impl :=
  match st.db with
  | none => (none, (require_db st).2)
  | some db =>
    let rval := keys_loop cd (db.scan ['a']) []
    let r := require_ok st (iter_status iter_fault)
    if ¬ r.1 then (none, r.2) else (some rval, r.2)

/-- The method `do_size`.  `estimate` is what `GetIntProperty("rocksdb.estimate-num-keys")`
yields: `none` when the call returns false. -/
def do_size (st : impl) (estimate : Option Nat) (iter_fault : Option String) :
    Option Nat × impl :=
  match st.db with
  | none => (none, (require_db st).2)
  | some db =>
    if (match estimate with
        | some rval => decide (rval > st.exact_size_threshold)
        | none => false) then (estimate, st)
    else
      let rval := (db.scan ['a']).foldl (fun n _ => n + 1) 0
      let r := require_ok st (iter_status iter_fault)
      if r.1 then (some rval, r.2) else (none, r.2)

/-- The first loop of `do_snap`: the value side of the visited `'a'` entries. -/
def snap_items (cd : Codec) (visited : List (Bytes × Bytes)) (m : List (data × value)) :
    List (data × value) :=
  visited.foldl
    (fun acc e => umap_emplace acc (from_serial cd (remove_first e.1))
      { item := from_serial cd e.2, expiry := none }) m

/-- The second loop of `do_snap`: the expirations of the visited `'e'` entries. -/
def snap_expiries (cd : Codec) (visited : List (Bytes × Bytes)) (m : List (data × value)) :
    List (data × value) :=
  visited.foldl
    (fun acc e => umap_set_expiry acc (from_serial cd (remove_first e.1))
      (from_serial_time cd e.2)) m

/-- The method `do_snap`; the two faults are the failures of the two iterations. -/
def do_snap (cd : Codec) (st : impl) (fault_a fault_e : Option String) :
    Option snapshot × impl :=
  match st.db with
  | none => (none, (require_db st).2)
  | some db =>
    let rval : snapshot := { sn := st.sn, datastore := [] }
    let rval := { rval with datastore := snap_items cd (db.scan ['a']) rval.datastore }
    let r := require_ok st (iter_status fault_a)
    if ¬ r.1 then (none, r.2)
    else
      let rval := { rval with datastore := snap_expiries cd (db.scan ['e']) rval.datastore }
      let r2 := require_ok r.2 (iter_status fault_e)
      if ¬ r2.1 then (none, r2.2) else (some rval, r2.2)

/-- The method `do_expiries`. -/
def do_expiries (cd : Codec) (st : impl) (iter_fault : Option String) :
    Option (List expirable) × impl :=
  match st.db with
  | none => (none, (require_db st).2)
  | some db =>
    let rval := (db.scan ['e']).map
      (fun e => expirable.mk (from_serial cd (remove_first e.1)) (from_serial_time cd e.2))
    let r := require_ok st (iter_status iter_fault)
    if ¬ r.1 then (none, r.2) else (some rval, r.2)

/-! ## A concrete codec

A small self-delimiting binary encoding of domain values, used to instantiate the
`Codec` parameter: a tag byte, then the payload; numbers in unary, collections with
their length first. -/

/-- Unary encoding of a natural number. -/
def ser_nat (n : Nat) : Bytes :=
  List.replicate n '1' ++ ['0']

/-- Decoder of `ser_nat`: the number and the rest of the input. -/
def parse_nat : Bytes → Option (Nat × Bytes)
  | [] => none
  | c :: r =>
    if c = '1' then (parse_nat r).map (fun p => (p.1 + 1, p.2))
    else if c = '0' then some (0, r)
    else none

mutual
/-- Encoding of a domain value. -/
def ser0 : data → Bytes
  | .boolean b => ['B', if b then '1' else '0']
  | .count n => 'C' :: ser_nat n
  | .integer (Int.ofNat n) => 'I' :: ser_nat n
  | .integer (Int.negSucc n) => 'J' :: ser_nat n
  | .string s => 'S' :: (ser_nat s.length ++ s)
  | .set xs => 'T' :: (ser_nat xs.length ++ ser0_list xs)
  | .vector xs => 'V' :: (ser_nat xs.length ++ ser0_list xs)
/-- Encoding of the elements of a collection, one after the other. -/
def ser0_list : List data → Bytes
  | [] => []
  | x :: xs => ser0 x ++ ser0_list xs
end

mutual
/-- Decoder of `ser0` with a recursion budget: the value and the rest of the input. -/
def parse0 : Nat → Bytes → Option (data × Bytes)
  | 0, _ => none
  | _ + 1, [] => none
  | f + 1, c :: r =>
    if c = 'B' then
      match r with
      | [] => none
      | b :: r' =>
        if b = '1' then some (data.boolean true, r')
        else if b = '0' then some (data.boolean false, r')
        else none
    else if c = 'C' then (parse_nat r).map (fun p => (data.count p.1, p.2))
    else if c = 'I' then (parse_nat r).map (fun p => (data.integer (Int.ofNat p.1), p.2))
    else if c = 'J' then (parse_nat r).map (fun p => (data.integer (Int.negSucc p.1), p.2))
    else if c = 'S' then
      (parse_nat r).bind (fun p =>
        if p.1 ≤ p.2.length then some (data.string (p.2.take p.1), p.2.drop p.1) else none)
    else if c = 'T' then
      (parse_nat r).bind (fun p => (parse0_list f p.1 p.2).map (fun q => (data.set q.1, q.2)))
    else if c = 'V' then
      (parse_nat r).bind (fun p =>
        (parse0_list f p.1 p.2).map (fun q => (data.vector q.1, q.2)))
    else none
/-- Decoder of a given number of values. -/
def parse0_list : Nat → Nat → Bytes → Option (List data × Bytes)
  | _, 0, b => some ([], b)
  | 0, _ + 1, _ => none
  | f + 1, n + 1, b =>
    (parse0 f b).bind (fun p => (parse0_list f n p.2).map (fun q => (p.1 :: q.1, q.2)))
end

/-- Decoding of a domain value; input that is no encoding decodes to the default value. -/
def de0 (b : Bytes) : data :=
  match parse0 b.length b with
  | some p => p.1
  | none => default

/-- Encoding of an expiration time. -/
def ser0_time (t : expiration_time) : Bytes :=
  ser_nat t.time

/-- Decoding of an expiration time. -/
def de0_time (b : Bytes) : expiration_time :=
  match parse_nat b with
  | some p => ⟨p.1⟩
  | none => ⟨0⟩

/-- The concrete codec. -/
def codec0 : Codec :=
  { ser_data := ser0, de_data := de0, ser_time := ser0_time, de_time := de0_time,
    ver_major := 0, ver_minor := 4, ver_patch := 0 }

/-- The codec decodes every encoding back to the value encoded. -/
def Codec.round_trips (cd : Codec) : Prop :=
  (∀ v : data, cd.de_data (cd.ser_data v) = v) ∧
  (∀ t : expiration_time, cd.de_time (cd.ser_time t) = t)

mutual
/-- Recursion budget that suffices to decode the encoding of a value. -/
def data.weight : data → Nat
  | .set xs => 1 + data.weight_list xs
  | .vector xs => 1 + data.weight_list xs
  | _ => 1
/-- Recursion budget that suffices to decode the elements of a collection. -/
def data.weight_list : List data → Nat
  | [] => 0
  | x :: xs => 1 + max (data.weight x) (data.weight_list xs)
end

/-! ## Well-formed keyspaces -/

/-- An engine key of the `'a'` or `'e'` category is canonical when the bytes after the
category byte are the encoding of the key they decode to. -/
def key_canonical (cd : Codec) (key : Bytes) : Bool :=
  match key with
  | [] => true
  | c :: b => if c = 'a' ∨ c = 'e' then decide (cd.ser_data (cd.de_data b) = b) else true

/-- Every `'a'` and `'e'` key of the keyspace is canonical: the keyspace was written
through `to_serial` with a codec that round-trips. -/
def DB.canonical (cd : Codec) (db : DB) : Prop :=
  ∀ e ∈ db.entries, key_canonical cd e.1 = true

/-- Every expiration entry has a value entry with the same key suffix. -/
def DB.no_orphan (db : DB) : Prop :=
  ∀ e ∈ db.entries, starts_with e.1 ['e'] = true →
    (kv_get db.entries ('a' :: remove_first e.1)).isSome = true

/-- The keyspace of the backend, if it is open, has canonical keys. -/
def impl.canonical (cd : Codec) (st : impl) : Prop :=
  match st.db with
  | some db => db.canonical cd
  | none => True

/-- The keyspace of the backend, if it is open, is in key order. -/
def impl.ordered (st : impl) : Prop :=
  match st.db with
  | some db => db.ordered
  | none => True

/-- The keyspace of the backend, if it is open, has no expiration without a value. -/
def impl.no_orphan (st : impl) : Prop :=
  match st.db with
  | some db => db.no_orphan
  | none => True

/-- The answer of a probe for an engine key is within the contract of `KeyMayExist` in
the given state. -/
def impl.probe_ok (st : impl) (key : Bytes) (p : Probe) : Prop :=
  match st.db with
  | some db => p.within_contract db.entries key
  | none => True

/-- The engine serves the read of an engine key: the probe answers within its contract
and `Get` reports no failure. -/
def impl.read_ok (st : impl) (key : Bytes) (r : ReadEnv) : Prop :=
  st.probe_ok key r.probe ∧ r.get_fault = none

/-- The engine serves both reads of `lookup_with_expiry(k)`. -/
def impl.reads_ok (cd : Codec) (st : impl) (k : data) (env : LookupEnv) : Prop :=
  st.read_ok (to_serial_key cd k 'a') env.a ∧ st.read_ok (to_serial_key cd k 'e') env.e

instance (cd : Codec) (db : DB) : Decidable (db.canonical cd) := by
  unfold DB.canonical; infer_instance

instance (db : DB) : Decidable db.ordered := by
  unfold DB.ordered; infer_instance

instance (db : DB) : Decidable db.no_orphan := by
  unfold DB.no_orphan; infer_instance

instance (cd : Codec) (st : impl) : Decidable (st.canonical cd) := by
  unfold impl.canonical; cases st.db <;> infer_instance

instance (st : impl) : Decidable st.ordered := by
  unfold impl.ordered; cases st.db <;> infer_instance

instance (st : impl) : Decidable st.no_orphan := by
  unfold impl.no_orphan; cases st.db <;> infer_instance

instance (st : impl) (key : Bytes) (p : Probe) : Decidable (st.probe_ok key p) := by
  unfold impl.probe_ok; cases st.db <;> infer_instance

instance (st : impl) (key : Bytes) (r : ReadEnv) : Decidable (st.read_ok key r) := by
  unfold impl.read_ok; infer_instance

instance (cd : Codec) (st : impl) (k : data) (env : LookupEnv) :
    Decidable (st.reads_ok cd k env) := by
  unfold impl.reads_ok; infer_instance

/-- The keyspace after a successful engine write of `insert`. -/
def insert_entries (cd : Codec) (es : List (Bytes × Bytes)) (k v : data)
    (e : Option expiration_time) : List (Bytes × Bytes) :=
  match e with
  | none => kv_put es (to_serial_key cd k 'a') (cd.ser_data v)
  | some t =>
    kv_put (kv_put es (to_serial_key cd k 'a') (cd.ser_data v)) (to_serial_key cd k 'e')
      (cd.ser_time t)

/-- The value the keyspace holds for a key: the decoded `'a'` entry, if the backend is
open and has one. -/
def impl.stored (cd : Codec) (st : impl) (k : data) : Option data :=
  match st.db with
  | some db => (kv_get db.entries (to_serial_key cd k 'a')).map (from_serial cd)
  | none => none

/-- The expiration the keyspace holds for a key: the decoded `'e'` entry, if the backend
is open and has one. -/
def impl.stored_expiry (cd : Codec) (st : impl) (k : data) : Option expiration_time :=
  match st.db with
  | some db => (kv_get db.entries (to_serial_key cd k 'e')).map (from_serial_time cd)
  | none => none

/-- The state after a successful engine write of `insert(k, v, e)`. -/
def impl.written (cd : Codec) (st : impl) (k v : data) (e : Option expiration_time) : impl :=
  match st.db with
  | some db => { st with db := some { db with entries := insert_entries cd db.entries k v e } }
  | none => st

/-- The value is of an integral variant. -/
def data.is_integral : data → Bool
  | .count _ => true
  | .integer _ => true
  | _ => false

/-- The value is of the set variant. -/
def data.is_set : data → Bool
  | .set _ => true
  | _ => false

/-- The expiration of `k` is the same in `st` and `st2`, as seen by `lookup_with_expiry`
(under every engine behaviour that serves the reads), by `expiries` and by `snap`. -/
def expiry_kept (cd : Codec) (st st2 : impl) (k : data) : Prop :=
  ∃ (e : Option expiration_time) (d d2 : data),
    (∀ env, st.reads_ok cd k env →
      (lookup_with_expiry cd st env k).1 = some (some { item := d, expiry := e })) ∧
    (∀ env, st2.reads_ok cd k env →
      (lookup_with_expiry cd st2 env k).1 = some (some { item := d2, expiry := e })) ∧
    (∃ xs, (do_expiries cd st none).1 = some xs ∧ (do_expiries cd st2 none).1 = some xs) ∧
    (∃ s s2, (do_snap cd st none none).1 = some s ∧ (do_snap cd st2 none none).1 = some s2 ∧
      (umap_find s.datastore k).map value.expiry = some e ∧
      (umap_find s2.datastore k).map value.expiry = some e)

/-- The keyspace right after a successful `clear`: the metadata record alone. -/
def cleared_entries (cd : Codec) : List (Bytes × Bytes) :=
  kv_put [] metadata_key (version_string cd)

/-- The keyspace after a successful `init(sss)`: the batch of the snapshot written over
the cleared keyspace. -/
def init_entries (cd : Codec) (sss : snapshot) : List (Bytes × Bytes) :=
  (init_batch cd sss.datastore).foldl (fun es r => kv_put es r.1 r.2) (cleared_entries cd)

/-- No key occurs twice in the map. -/
def umap_nodup (m : List (data × value)) : Prop :=
  m.Pairwise (fun a b => a.1 ≠ b.1)

instance (m : List (data × value)) : Decidable (umap_nodup m) := by
  unfold umap_nodup; infer_instance

/-- The keyspace invariants of the backend: the keyspace is in key order, its `'a'` and
`'e'` keys are canonical, and every expiration entry has a value entry. -/
def impl.well_formed (cd : Codec) (st : impl) : Prop :=
  st.ordered ∧ st.canonical cd ∧ st.no_orphan

instance (cd : Codec) (st : impl) : Decidable (st.well_formed cd) := by
  unfold impl.well_formed; infer_instance

/-- The states the backend reaches from a store opened on an empty path by its
operations when every engine call succeeds. -/
inductive Reachable (cd : Codec) : impl → Prop
  | opened (threshold : Nat) (db_path : String) (options : Options) :
      Reachable cd
        (rocksdb_backend_open cd (rocksdb_backend threshold) db_path options none none none).2
  | increase_sequence (st : impl) : Reachable cd st → Reachable cd (do_increase_sequence st)
  | insert (st : impl) (k v : data) (e : Option expiration_time) :
      Reachable cd st → Reachable cd (do_insert cd st none k v e).2
  | erase (st : impl) (k : data) :
      Reachable cd st → Reachable cd (do_erase cd st none none k).2
  | clear (st : impl) :
      Reachable cd st → Reachable cd (do_clear cd st ⟨none, none, none⟩).2
  | init (st : impl) (sss : snapshot) :
      Reachable cd st → umap_nodup sss.datastore →
      Reachable cd (do_init cd st sss ⟨none, none, none⟩ none).2
  | increment (st : impl) (env : LookupEnv) (k : data) (amount : Int) :
      Reachable cd st → st.reads_ok cd k env →
      Reachable cd (do_increment cd st env none k amount).2
  | add_to_set (st : impl) (env : LookupEnv) (k x : data) :
      Reachable cd st → st.reads_ok cd k env →
      Reachable cd (do_add_to_set cd st env none k x).2
  | remove_from_set (st : impl) (env : LookupEnv) (k x : data) :
      Reachable cd st → st.reads_ok cd k env →
      Reachable cd (do_remove_from_set cd st env none k x).2

/-- The number of entries the scan of the `'a'` category visits: the exact size. -/
def impl.exact_count (st : impl) : Nat :=
  match st.db with
  | some db => (db.scan ['a']).length
  | none => 0

/-- The number of entries of the keyspace whose key starts with `'a'`. -/
def impl.a_entries (st : impl) : Nat :=
  match st.db with
  | some db => (db.entries.filter (fun e => starts_with e.1 ['a'])).length
  | none => 0

/-- The bytes the keyspace of the backend holds under an engine key, if the backend is
open and has the key. -/
def impl.raw (st : impl) (key : Bytes) : Option Bytes :=
  match st.db with
  | some db => kv_get db.entries key
  | none => none

/-- The layout of a keyspace: every expiration entry has a value entry with the same key
suffix, every entry is of the `'a'` or the `'e'` category or is the metadata record, and
the metadata record is there. -/
def DB.layout (cd : Codec) (db : DB) : Prop :=
  db.no_orphan ∧
  (∀ e ∈ db.entries, starts_with e.1 ['a'] = true ∨ starts_with e.1 ['e'] = true ∨
    e = (metadata_key, version_string cd)) ∧
  (metadata_key, version_string cd) ∈ db.entries

/-- The keyspace of the backend, if it is open, has the layout `DB.layout`. -/
def impl.layout (cd : Codec) (st : impl) : Prop :=
  match st.db with
  | some db => db.layout cd
  | none => True

instance (cd : Codec) (db : DB) : Decidable (db.layout cd) := by
  unfold DB.layout; infer_instance

instance (cd : Codec) (st : impl) : Decidable (st.layout cd) := by
  unfold impl.layout; cases st.db <;> infer_instance

/-- Every engine key other than the `'a'` key and the `'e'` key of `k` holds in `st2` what
it holds in `st`. -/
def same_but (cd : Codec) (st st2 : impl) (k : data) : Prop :=
  ∀ key, key ≠ to_serial_key cd k 'a' → key ≠ to_serial_key cd k 'e' →
    st2.raw key = st.raw key

/-- From `st` to `st2` only the entries of `k` may have changed: the value and the
expiration of the other key `k2` and the metadata record are the same. -/
def frame_kept (cd : Codec) (st st2 : impl) (k k2 : data) : Prop :=
  same_but cd st st2 k ∧
  st2.stored cd k2 = st.stored cd k2 ∧
  st2.stored_expiry cd k2 = st.stored_expiry cd k2 ∧
  st2.raw metadata_key = st.raw metadata_key

/-! ## Example states -/

/-- A backend opened on a path that holds no store yet. -/
def fresh_store : impl :=
  (rocksdb_backend_open codec0 (rocksdb_backend 0) "store" ⟨true⟩ none none none).2

/-- The key `"x"`. -/
def key_x : data := data.string ['x']

/-- The key `"y"`. -/
def key_y : data := data.string ['y']

/-- The engine answers of a read in which the probe cannot decide and `Get` works. -/
def plain_read : ReadEnv := ⟨Probe.may_exist, none⟩

/-- The engine answers of a `lookup_with_expiry` in which both probes cannot decide and
both `Get` calls work. -/
def plain_lookup : LookupEnv := ⟨plain_read, plain_read⟩

/-- The engine answers of a `clear` in which every call works. -/
def plain_clear : ClearEnv := ⟨none, none, none⟩

/-- The fresh store after `insert("x", 42, Some(7))`. -/
def store_x : impl :=
  (do_insert codec0 fresh_store none key_x (data.integer 42) (some ⟨7⟩)).2

/-- The fresh store after `insert("x", 42, None)`. -/
def store_42 : impl :=
  (do_insert codec0 fresh_store none key_x (data.integer 42) none).2

/-- The fresh store after `insert("x", {1}, None)`. -/
def store_set : impl :=
  (do_insert codec0 fresh_store none key_x (data.set [data.integer 1]) none).2

/-- The snapshot of `store_x`: sequence number 0, `"x"` mapped to 42 with expiration 7. -/
def snap_x : snapshot :=
  { sn := ⟨0⟩, datastore := [(key_x, { item := data.integer 42, expiry := some ⟨7⟩ })] }

/-- A snapshot with two keys and sequence number 5. -/
def snap_two : snapshot :=
  { sn := ⟨5⟩,
    datastore := [(key_y, { item := data.set [data.integer 1], expiry := none }),
                  (key_x, { item := data.integer 42, expiry := some ⟨7⟩ })] }

/-- The store `store_x` after one `increase_sequence`: sequence number 1. -/
def store_x_seq1 : impl := do_increase_sequence store_x

/-- A store with exact-size threshold 5 that holds the one key `"x"`. -/
def store_thr5 : impl :=
  (do_insert codec0
    (rocksdb_backend_open codec0 (rocksdb_backend 5) "store" ⟨true⟩ none none none).2
    none key_x (data.integer 42) none).2

/-- The engine answers of a read of `"x"` in `store_42` in which the probe finds the
stored value in memory and a `Get` would fail. -/
def found_get_fails : ReadEnv :=
  ⟨Probe.found (ser0 (data.integer 42)), some "IO error"⟩

/-- The store `store_x` after an `erase("x")` whose second delete failed: the `'e'` entry
of `"x"` is left without its `'a'` entry. -/
def orphan_store : impl :=
  (do_erase codec0 store_x none (some "IO error") key_x).2

/-- The engine answers of a read of `"x"` in which the probe finds the set `{1, 2}` in
memory. -/
def found_set_12 : ReadEnv :=
  ⟨Probe.found (ser0 (data.set [data.integer 1, data.integer 2])), none⟩

/-- The snapshot `snap()` returns on `orphan_store`: the key `"x"` with a
default-constructed item and the expiration 7. -/
def orphan_snap : snapshot :=
  { sn := ⟨0⟩, datastore := [(key_x, { item := default, expiry := some ⟨7⟩ })] }

/-! # Facts about the engine model -/

theorem kv_get_put_same (es : List (Bytes × Bytes)) (k v : Bytes) :
    kv_get (kv_put es k v) k = some v := by
  induction es with
  | nil => simp [kv_put, kv_get]
  | cons e es ih =>
    obtain ⟨k', v'⟩ := e
    simp only [kv_put]
    split
    · simp [kv_get]
    · split
      · simp [kv_get]
      · rename_i h1 h2
        simp [kv_get, h2, ih]

theorem kv_get_put_other (es : List (Bytes × Bytes)) (k v k2 : Bytes) (h : k2 ≠ k) :
    kv_get (kv_put es k v) k2 = kv_get es k2 := by
  induction es with
  | nil => simp [kv_put, kv_get, Ne.symm h]
  | cons e es ih =>
    obtain ⟨k', v'⟩ := e
    simp only [kv_put]
    split
    · simp [kv_get, Ne.symm h]
    · split
      · rename_i h1 h2
        subst h2
        simp [kv_get, Ne.symm h]
      · simp [kv_get, ih]

theorem kv_get_delete_same (es : List (Bytes × Bytes)) (k : Bytes) :
    kv_get (kv_delete es k) k = none := by
  induction es with
  | nil => simp [kv_delete, kv_get]
  | cons e es ih =>
    obtain ⟨k', v'⟩ := e
    by_cases h : k' = k
    · simpa [kv_delete, h] using ih
    · simpa [kv_delete, h, kv_get] using ih

theorem kv_get_delete_other (es : List (Bytes × Bytes)) (k k2 : Bytes) (h : k2 ≠ k) :
    kv_get (kv_delete es k) k2 = kv_get es k2 := by
  induction es with
  | nil => simp [kv_delete, kv_get]
  | cons e es ih =>
    obtain ⟨k', v'⟩ := e
    unfold kv_delete at ih ⊢
    by_cases h1 : k' = k
    · subst h1
      have h2 : ¬ k' = k2 := fun h3 => h h3.symm
      simp only [List.filter_cons, ne_eq, not_true_eq_false, decide_False, kv_get, h2]
      simpa using ih
    · by_cases h2 : k' = k2
      · subst h2
        simp [List.filter_cons, h1, kv_get]
      · simp only [List.filter_cons, ne_eq, h1, not_false_eq_true, decide_True, kv_get, h2]
        simpa using ih

theorem mem_kv_delete (es : List (Bytes × Bytes)) (k : Bytes) (e : Bytes × Bytes) :
    e ∈ kv_delete es k ↔ e ∈ es ∧ e.1 ≠ k := by
  simp [kv_delete, List.mem_filter]

theorem mem_scan_imp (db : DB) (p : Bytes) (e : Bytes × Bytes) (h : e ∈ db.scan p) :
    e ∈ db.entries ∧ starts_with e.1 p = true := by
  unfold DB.scan DB.Seek at h
  refine ⟨?_, ?_⟩
  · exact (List.dropWhile_sublist _).subset ((List.takeWhile_sublist _).subset h)
  · exact @List.mem_takeWhile_imp _ (fun e : Bytes × Bytes => starts_with e.1 p) _ _ h

theorem starts_with_single (key : Bytes) (c : Char) :
    starts_with key [c] = true ↔ ∃ b, key = c :: b := by
  cases key with
  | nil => simp [starts_with, List.isPrefixOf]
  | cons d b =>
    simp only [starts_with, List.isPrefixOf, Bool.and_true, beq_iff_eq, List.cons.injEq]
    constructor
    · intro h; exact ⟨b, h.symm, rfl⟩
    · rintro ⟨b', h1, _⟩; exact h1.symm

theorem set_zero_to_serial_key (cd : Codec) (k : data) (c d : Char) :
    (to_serial_key cd k c).set 0 d = to_serial_key cd k d := by
  simp [to_serial_key]

theorem to_serial_key_eq (cd : Codec) (k : data) (c : Char) :
    to_serial_key cd k c = c :: cd.ser_data k := by
  simp [to_serial_key]

theorem mem_uset_emplace (s : List data) (k x : data) :
    x ∈ uset_emplace s k ↔ x ∈ s ∨ x = k := by
  unfold uset_emplace
  split
  · rename_i h
    constructor
    · exact Or.inl
    · rintro (h1 | h1)
      · exact h1
      · exact h1 ▸ h
  · simp

theorem mem_keys_loop (cd : Codec) (visited : List (Bytes × Bytes)) (acc : List data)
    (x : data) :
    x ∈ keys_loop cd visited acc ↔
      x ∈ acc ∨ ∃ e ∈ visited, from_serial cd (remove_first e.1) = x := by
  induction visited generalizing acc with
  | nil => simp [keys_loop]
  | cons e rest ih =>
    have h : keys_loop cd (e :: rest) acc =
        keys_loop cd rest (uset_emplace acc (from_serial cd (remove_first e.1))) := by
      simp [keys_loop]
    rw [h, ih, mem_uset_emplace]
    simp only [List.mem_cons, exists_eq_or_imp]
    constructor
    · rintro ((h1 | h1) | h1)
      · exact Or.inl h1
      · exact Or.inr (Or.inl h1.symm)
      · exact Or.inr (Or.inr h1)
    · rintro (h1 | h1 | h1)
      · exact Or.inl (Or.inl h1)
      · exact Or.inl (Or.inr h1.symm)
      · exact Or.inr h1

/-- A canonical engine key of category `c` whose suffix decodes to `k` is the engine key
of `k`. -/
theorem canonical_key_eq (cd : Codec) (c : Char) (b : Bytes) (k : data)
    (hc : c = 'a' ∨ c = 'e') (hcan : key_canonical cd (c :: b) = true)
    (hk : cd.de_data b = k) : c :: b = to_serial_key cd k c := by
  simp only [key_canonical, hc, if_true, decide_eq_true_eq] at hcan
  rw [to_serial_key_eq, ← hk, hcan]

/-! ## The key order -/

theorem char_toNat_inj (a b : Char) (h : a.toNat = b.toNat) : a = b := by
  apply Char.ext
  cases a with | mk va ha => cases b with | mk vb hb =>
  simp only [Char.toNat] at h
  simp only
  cases va with | mk fa => cases vb with | mk fb =>
  simp only [UInt32.toNat] at h
  congr
  exact BitVec.eq_of_toNat_eq h

theorem bytes_lt_irrefl (a : Bytes) : bytes_lt a a = false := by
  induction a with
  | nil => simp [bytes_lt]
  | cons c r ih => simp [bytes_lt, ih]

theorem bytes_lt_trans : ∀ (a b c : Bytes), bytes_lt a b = true → bytes_lt b c = true →
    bytes_lt a c = true
  | _, [], _, h1, _ => by simp [bytes_lt] at h1
  | _, _ :: _, [], _, h2 => by simp [bytes_lt] at h2
  | [], _ :: _, _ :: _, _, _ => by simp [bytes_lt]
  | x :: xs, y :: ys, z :: zs, h1, h2 => by
    simp only [bytes_lt] at h1 h2 ⊢
    by_cases hxy : x.toNat < y.toNat
    · by_cases hyz : y.toNat < z.toNat
      · have : x.toNat < z.toNat := by omega
        simp [this]
      · simp only [hyz, if_false] at h2
        by_cases hzy : z.toNat < y.toNat
        · simp [hzy] at h2
        · have : x.toNat < z.toNat := by omega
          simp [this]
    · simp only [hxy, if_false] at h1
      by_cases hyx : y.toNat < x.toNat
      · simp [hyx] at h1
      · simp only [hyx, if_false] at h1
        by_cases hyz : y.toNat < z.toNat
        · have : x.toNat < z.toNat := by omega
          simp [this]
        · simp only [hyz, if_false] at h2
          by_cases hzy : z.toNat < y.toNat
          · simp [hzy] at h2
          · simp only [hzy, if_false] at h2
            have h3 : ¬ x.toNat < z.toNat := by omega
            have h4 : ¬ z.toNat < x.toNat := by omega
            simp only [h3, h4, if_false]
            exact bytes_lt_trans xs ys zs h1 h2

theorem bytes_lt_total : ∀ (a b : Bytes), bytes_lt a b = false → a ≠ b → bytes_lt b a = true
  | [], [], _, h2 => by simp at h2
  | [], _ :: _, h1, _ => by simp [bytes_lt] at h1
  | _ :: _, [], _, _ => by simp [bytes_lt]
  | x :: xs, y :: ys, h1, h2 => by
    simp only [bytes_lt] at h1 ⊢
    by_cases hxy : x.toNat < y.toNat
    · simp [hxy] at h1
    · simp only [hxy, if_false] at h1
      by_cases hyx : y.toNat < x.toNat
      · simp [hyx]
      · simp only [hyx, if_false] at h1 ⊢
        have hxe : x = y := char_toNat_inj x y (by omega)
        subst hxe
        simp only [Nat.lt_irrefl, if_false]
        exact bytes_lt_total xs ys h1 (fun h => h2 (by rw [h]))

theorem mem_kv_put (es : List (Bytes × Bytes)) (k v : Bytes) (e : Bytes × Bytes)
    (h : e ∈ kv_put es k v) : e = (k, v) ∨ e ∈ es := by
  induction es with
  | nil => simpa [kv_put] using h
  | cons e0 es ih =>
    obtain ⟨k', v'⟩ := e0
    simp only [kv_put] at h
    split at h
    · simpa using h
    · split at h
      · simp only [List.mem_cons] at h ⊢
        rcases h with h | h
        · exact Or.inl h
        · exact Or.inr (Or.inr h)
      · simp only [List.mem_cons] at h ⊢
        rcases h with h | h
        · exact Or.inr (Or.inl h)
        · rcases ih h with h | h
          · exact Or.inl h
          · exact Or.inr (Or.inr h)

theorem kv_put_ordered (es : List (Bytes × Bytes)) (k v : Bytes)
    (h : es.Pairwise (fun a b => bytes_lt a.1 b.1 = true)) :
    (kv_put es k v).Pairwise (fun a b => bytes_lt a.1 b.1 = true) := by
  induction es with
  | nil => simp [kv_put]
  | cons e0 es ih =>
    obtain ⟨k', v'⟩ := e0
    rw [List.pairwise_cons] at h
    simp only [kv_put]
    split
    · rename_i hlt
      rw [List.pairwise_cons]
      refine ⟨?_, List.pairwise_cons.2 h⟩
      intro b hb
      rcases List.mem_cons.1 hb with hb | hb
      · subst hb; exact hlt
      · exact bytes_lt_trans _ _ _ hlt (h.1 b hb)
    · split
      · rename_i hlt heq
        subst heq
        exact List.pairwise_cons.2 ⟨h.1, h.2⟩
      · rename_i hlt hne
        rw [List.pairwise_cons]
        refine ⟨?_, ih h.2⟩
        intro b hb
        rcases mem_kv_put es k v b hb with hb | hb
        · subst hb
          exact bytes_lt_total k k' (by simpa using hlt) (fun h => hne h.symm)
        · exact h.1 b hb

theorem kv_delete_ordered (es : List (Bytes × Bytes)) (k : Bytes)
    (h : es.Pairwise (fun a b => bytes_lt a.1 b.1 = true)) :
    (kv_delete es k).Pairwise (fun a b => bytes_lt a.1 b.1 = true) :=
  h.filter _

theorem kv_write_ordered (batch es : List (Bytes × Bytes))
    (h : es.Pairwise (fun a b => bytes_lt a.1 b.1 = true)) :
    (batch.foldl (fun es r => kv_put es r.1 r.2) es).Pairwise
      (fun a b => bytes_lt a.1 b.1 = true) := by
  induction batch generalizing es with
  | nil => simpa using h
  | cons r rest ih => exact ih _ (kv_put_ordered es r.1 r.2 h)

/-- In an ordered keyspace the stored value of a key is the value of its one entry. -/
theorem kv_get_eq_some_iff (es : List (Bytes × Bytes)) (k v : Bytes)
    (h : es.Pairwise (fun a b => bytes_lt a.1 b.1 = true)) :
    kv_get es k = some v ↔ (k, v) ∈ es := by
  induction es with
  | nil => simp [kv_get]
  | cons e0 es ih =>
    obtain ⟨k', v'⟩ := e0
    rw [List.pairwise_cons] at h
    simp only [kv_get]
    split
    · rename_i heq
      subst heq
      constructor
      · intro hv
        simp only [Option.some.injEq] at hv
        subst hv
        exact List.mem_cons_self _ _
      · intro hm
        rcases List.mem_cons.1 hm with hm | hm
        · simp only [Prod.mk.injEq, true_and] at hm
          rw [hm]
        · have := h.1 _ hm
          simp [bytes_lt_irrefl] at this
    · rename_i hne
      rw [ih h.2]
      constructor
      · exact fun hm => List.mem_cons_of_mem _ hm
      · intro hm
        rcases List.mem_cons.1 hm with hm | hm
        · simp only [Prod.mk.injEq] at hm
          exact absurd hm.1.symm hne
        · exact hm

theorem kv_get_mem (es : List (Bytes × Bytes)) (k v : Bytes) (h : kv_get es k = some v) :
    (k, v) ∈ es := by
  induction es with
  | nil => simp [kv_get] at h
  | cons e0 es ih =>
    obtain ⟨k', v'⟩ := e0
    simp only [kv_get] at h
    split at h
    · rename_i heq
      simp only [Option.some.injEq] at h
      subst heq h
      exact List.mem_cons_self _ _
    · exact List.mem_cons_of_mem _ (ih h)

/-! ## Scans of an ordered keyspace -/

theorem starts_with_cons (d : Char) (r : Bytes) (c : Char) :
    starts_with (d :: r) [c] = decide (d = c) := by
  by_cases h : d = c
  · simp [starts_with, List.isPrefixOf, h]
  · have h2 : ¬ c = d := fun h3 => h h3.symm
    simp [starts_with, List.isPrefixOf, h, h2]

theorem below_not_start (k : Bytes) (c : Char) (h : bytes_lt k [c] = true) :
    starts_with k [c] = false := by
  cases k with
  | nil => simp [starts_with, List.isPrefixOf]
  | cons d r =>
    rw [starts_with_cons]
    simp only [decide_eq_false_iff_not]
    intro hdc
    subst hdc
    simp [bytes_lt] at h

theorem past_mono (a b : Bytes) (c : Char) (hab : bytes_lt a b = true)
    (h1 : bytes_lt a [c] = false) (h2 : starts_with a [c] = false) :
    starts_with b [c] = false := by
  cases a with
  | nil => simp [bytes_lt] at h1
  | cons d r =>
    cases b with
    | nil => simp [bytes_lt] at hab
    | cons d' r' =>
      rw [starts_with_cons] at h2 ⊢
      simp only [decide_eq_false_iff_not] at h2 ⊢
      have hdc : ¬ d.toNat < c.toNat := by
        intro h; simp [bytes_lt, h] at h1
      have hne : d.toNat ≠ c.toNat := fun h => h2 (char_toNat_inj d c h)
      have hdd : ¬ d'.toNat < d.toNat := by
        intro h
        have h3 : ¬ d.toNat < d'.toNat := by omega
        simp [bytes_lt, h, h3] at hab
      intro h
      subst h
      omega

theorem takeWhile_eq_filter_past (c : Char) (l : List (Bytes × Bytes))
    (hord : l.Pairwise (fun a b => bytes_lt a.1 b.1 = true))
    (hpast : ∀ e ∈ l, bytes_lt e.1 [c] = false) :
    l.takeWhile (fun e => starts_with e.1 [c]) = l.filter (fun e => starts_with e.1 [c]) := by
  induction l with
  | nil => rfl
  | cons e l ih =>
    rw [List.pairwise_cons] at hord
    have ih' := ih hord.2 (fun x hx => hpast x (List.mem_cons_of_mem _ hx))
    by_cases hq : starts_with e.1 [c] = true
    · simp [List.takeWhile_cons, List.filter_cons, hq, ih']
    · have hq' : starts_with e.1 [c] = false := by simpa using hq
      have hnone : l.filter (fun e => starts_with e.1 [c]) = [] := by
        rw [List.filter_eq_nil_iff]
        intro x hx
        have := past_mono e.1 x.1 c (hord.1 x hx) (hpast e (List.mem_cons_self _ _)) hq'
        simp [this]
      simp [List.takeWhile_cons, List.filter_cons, hq', hnone]

/-- In an ordered keyspace the loop from `Seek(c)` over the keys that start with `c`
visits exactly the entries whose key starts with `c`. -/
theorem scan_eq_filter (db : DB) (c : Char) (hord : db.ordered) :
    db.scan [c] = db.entries.filter (fun e => starts_with e.1 [c]) := by
  unfold DB.scan DB.Seek
  unfold DB.ordered at hord
  generalize db.entries = l at hord
  induction l with
  | nil => rfl
  | cons e l ih =>
    rw [List.pairwise_cons] at hord
    by_cases hp : bytes_lt e.1 [c] = true
    · have hq := below_not_start e.1 c hp
      simp only [List.dropWhile_cons, hp, if_true, List.filter_cons, hq, Bool.false_eq_true,
        if_false]
      exact ih hord.2
    · have hp' : bytes_lt e.1 [c] = false := by simpa using hp
      simp only [List.dropWhile_cons, hp', Bool.false_eq_true, if_false]
      apply takeWhile_eq_filter_past c (e :: l) (List.pairwise_cons.2 hord)
      intro x hx
      rcases List.mem_cons.1 hx with hx | hx
      · rw [hx]; exact hp'
      · cases hxb : bytes_lt x.1 [c] with
        | false => rfl
        | true =>
          have := bytes_lt_trans _ _ _ (hord.1 x hx) hxb
          rw [hp'] at this
          exact absurd this (by simp)

theorem mem_scan_iff (db : DB) (c : Char) (hord : db.ordered) (e : Bytes × Bytes) :
    e ∈ db.scan [c] ↔ e ∈ db.entries ∧ starts_with e.1 [c] = true := by
  rw [scan_eq_filter db c hord, List.mem_filter]

theorem ordered_nodup (l : List (Bytes × Bytes))
    (h : l.Pairwise (fun a b => bytes_lt a.1 b.1 = true)) : l.Nodup := by
  refine h.imp ?_
  intro a b hab heq
  subst heq
  simp [bytes_lt_irrefl] at hab

/-- Two ordered lists of entries with the same members are the same list. -/
theorem ordered_ext : ∀ (l1 l2 : List (Bytes × Bytes)),
    l1.Pairwise (fun a b => bytes_lt a.1 b.1 = true) →
    l2.Pairwise (fun a b => bytes_lt a.1 b.1 = true) →
    (∀ e, e ∈ l1 ↔ e ∈ l2) → l1 = l2
  | [], [], _, _, _ => rfl
  | [], b :: l2, _, _, h => by
    have := (h b).2 (List.mem_cons_self _ _)
    simp at this
  | a :: l1, [], _, _, h => by
    have := (h a).1 (List.mem_cons_self _ _)
    simp at this
  | a :: l1, b :: l2, h1, h2, h => by
    rw [List.pairwise_cons] at h1 h2
    have hab : a = b := by
      have ha := (h a).1 (List.mem_cons_self _ _)
      have hb := (h b).2 (List.mem_cons_self _ _)
      rcases List.mem_cons.1 ha with ha | ha
      · exact ha
      · rcases List.mem_cons.1 hb with hb | hb
        · exact hb.symm
        · have c1 := h2.1 a ha
          have c2 := h1.1 b hb
          have := bytes_lt_trans _ _ _ c1 c2
          simp [bytes_lt_irrefl] at this
    subst hab
    have hrest : ∀ e, e ∈ l1 ↔ e ∈ l2 := by
      intro e
      constructor
      · intro he
        rcases List.mem_cons.1 ((h e).1 (List.mem_cons_of_mem _ he)) with h3 | h3
        · subst h3
          have := h1.1 e he
          simp [bytes_lt_irrefl] at this
        · exact h3
      · intro he
        rcases List.mem_cons.1 ((h e).2 (List.mem_cons_of_mem _ he)) with h3 | h3
        · subst h3
          have := h2.1 e he
          simp [bytes_lt_irrefl] at this
        · exact h3
    rw [ordered_ext l1 l2 h1.2 h2.2 hrest]

/-- When, on the keys of category `c`, the second keyspace stores the image under `f` of
what the first stores, the scan of the second is the image of the scan of the first. -/
theorem scan_ext (d1 d2 : DB) (c : Char) (f : Bytes → Bytes → Bytes)
    (h1 : d1.ordered) (h2 : d2.ordered)
    (h : ∀ key, starts_with key [c] = true →
      kv_get d2.entries key = (kv_get d1.entries key).map (f key)) :
    d2.scan [c] = (d1.scan [c]).map (fun e => (e.1, f e.1 e.2)) := by
  rw [scan_eq_filter d2 c h2, scan_eq_filter d1 c h1]
  apply ordered_ext
  · exact List.Pairwise.filter _ h2
  · rw [List.pairwise_map]
    exact List.Pairwise.filter _ h1
  · intro e
    obtain ⟨key, v⟩ := e
    simp only [List.mem_filter, List.mem_map, Prod.mk.injEq, Prod.exists]
    constructor
    · rintro ⟨hmem, hq⟩
      have hg := (kv_get_eq_some_iff _ _ _ h2).2 hmem
      rw [h key hq] at hg
      cases hg1 : kv_get d1.entries key with
      | none => simp [hg1] at hg
      | some v1 =>
        simp only [hg1, Option.map_some', Option.some.injEq] at hg
        exact ⟨key, v1, ⟨kv_get_mem _ _ _ hg1, hq⟩, rfl, hg⟩
    · rintro ⟨key1, v1, ⟨hmem, hq⟩, hk, hv⟩
      subst hk
      have hg1 := (kv_get_eq_some_iff _ _ _ h1).2 hmem
      refine ⟨?_, hq⟩
      apply kv_get_mem
      rw [h key1 hq, hg1, Option.map_some', hv]

/-! # The concrete codec round-trips -/

theorem parse_nat_ser_nat (n : Nat) (rest : Bytes) :
    parse_nat (ser_nat n ++ rest) = some (n, rest) := by
  induction n with
  | zero => simp [ser_nat, parse_nat]
  | succ n ih =>
    have h : ser_nat (n + 1) ++ rest = '1' :: (ser_nat n ++ rest) := by
      simp [ser_nat, List.replicate_succ]
    rw [h]
    simp [parse_nat, ih]

mutual
theorem parse0_ser0 : ∀ (v : data) (f : Nat) (rest : Bytes), data.weight v ≤ f →
    parse0 f (ser0 v ++ rest) = some (v, rest)
  | .boolean b, f, rest, h => by
    obtain ⟨f, rfl⟩ : ∃ g, f = g + 1 := ⟨f - 1, by simp [data.weight] at h; omega⟩
    cases b <;> simp [ser0, parse0]
  | .count n, f, rest, h => by
    obtain ⟨f, rfl⟩ : ∃ g, f = g + 1 := ⟨f - 1, by simp [data.weight] at h; omega⟩
    simp [ser0, parse0, parse_nat_ser_nat]
  | .integer (Int.ofNat n), f, rest, h => by
    obtain ⟨f, rfl⟩ : ∃ g, f = g + 1 := ⟨f - 1, by simp [data.weight] at h; omega⟩
    simp [ser0, parse0, parse_nat_ser_nat]
  | .integer (Int.negSucc n), f, rest, h => by
    obtain ⟨f, rfl⟩ : ∃ g, f = g + 1 := ⟨f - 1, by simp [data.weight] at h; omega⟩
    simp [ser0, parse0, parse_nat_ser_nat]
  | .string s, f, rest, h => by
    obtain ⟨f, rfl⟩ : ∃ g, f = g + 1 := ⟨f - 1, by simp [data.weight] at h; omega⟩
    simp [ser0, parse0, parse_nat_ser_nat, List.append_assoc]
  | .set xs, f, rest, h => by
    obtain ⟨f, rfl⟩ : ∃ g, f = g + 1 := ⟨f - 1, by simp [data.weight] at h; omega⟩
    have hl := parse0_list_ser0 xs f rest (by simp [data.weight] at h; omega)
    simp [ser0, parse0, parse_nat_ser_nat, List.append_assoc, hl]
  | .vector xs, f, rest, h => by
    obtain ⟨f, rfl⟩ : ∃ g, f = g + 1 := ⟨f - 1, by simp [data.weight] at h; omega⟩
    have hl := parse0_list_ser0 xs f rest (by simp [data.weight] at h; omega)
    simp [ser0, parse0, parse_nat_ser_nat, List.append_assoc, hl]
theorem parse0_list_ser0 : ∀ (xs : List data) (f : Nat) (rest : Bytes),
    data.weight_list xs ≤ f →
    parse0_list f xs.length (ser0_list xs ++ rest) = some (xs, rest)
  | [], f, rest, _ => by simp [ser0_list, parse0_list]
  | x :: xs, f, rest, h => by
    obtain ⟨f, rfl⟩ : ∃ g, f = g + 1 := ⟨f - 1, by simp [data.weight_list] at h; omega⟩
    have h1 := parse0_ser0 x f (ser0_list xs ++ rest) (by simp [data.weight_list] at h; omega)
    have h2 := parse0_list_ser0 xs f rest (by simp [data.weight_list] at h; omega)
    simp [ser0_list, parse0_list, List.append_assoc, h1, h2]
end

mutual
theorem weight_lt_length : ∀ v : data, data.weight v < (ser0 v).length
  | .boolean b => by simp [data.weight, ser0]
  | .count n => by simp [data.weight, ser0, ser_nat]
  | .integer (Int.ofNat n) => by simp [data.weight, ser0, ser_nat]
  | .integer (Int.negSucc n) => by simp [data.weight, ser0, ser_nat]
  | .string s => by simp [data.weight, ser0, ser_nat]
  | .set xs => by
    have := weight_list_le_length xs
    simp [data.weight, ser0, ser_nat]; omega
  | .vector xs => by
    have := weight_list_le_length xs
    simp [data.weight, ser0, ser_nat]; omega
theorem weight_list_le_length : ∀ xs : List data, data.weight_list xs ≤ (ser0_list xs).length
  | [] => by simp [data.weight_list]
  | x :: xs => by
    have h1 := weight_lt_length x
    have h2 := weight_list_le_length xs
    simp [data.weight_list, ser0_list]; omega
end

theorem de0_ser0 (v : data) : de0 (ser0 v) = v := by
  have h := parse0_ser0 v (ser0 v).length [] (Nat.le_of_lt (weight_lt_length v))
  simp only [List.append_nil] at h
  simp [de0, h]

theorem de0_time_ser0_time (t : expiration_time) : de0_time (ser0_time t) = t := by
  have h := parse_nat_ser_nat t.time []
  simp only [List.append_nil] at h
  simp [de0_time, ser0_time, h]

theorem codec0_round_trips : codec0.round_trips :=
  ⟨de0_ser0, de0_time_ser0_time⟩

theorem codec0_injective : Function.Injective codec0.ser_data := by
  intro a b h
  have ha := codec0_round_trips.1 a
  have hb := codec0_round_trips.1 b
  rw [← ha, ← hb, h]

/-! # Facts about the operations -/

/-- With a probe that answers within its contract and a `Get` that does not fail, a read
of an engine key yields what is stored under it. -/
theorem do_lookup_eq (cd : Codec) (st : impl) (db : DB) (env : ReadEnv) (k : data)
    (hdb : st.db = some db)
    (hp : env.probe.within_contract db.entries (to_serial_key cd k 'a'))
    (hg : env.get_fault = none) :
    do_lookup cd st env k =
      (some ((kv_get db.entries (to_serial_key cd k 'a')).map (from_serial cd)), st) := by
  obtain ⟨probe, gf⟩ := env
  simp only at hg hp
  subst hg
  unfold do_lookup
  simp only [hdb]
  cases probe with
  | absent =>
    simp only [Probe.within_contract] at hp
    simp [Probe.may, hp]
  | may_exist =>
    cases hget : kv_get db.entries (to_serial_key cd k 'a') <;>
      simp [Probe.may, Probe.value_found, Probe.value, DB.Get, hget, Status.IsNotFound,
        require_ok, Status.ok]
  | found w =>
    simp only [Probe.within_contract] at hp
    simp [Probe.may, Probe.value_found, Probe.value, hp]

theorem do_exists_eq (cd : Codec) (st : impl) (db : DB) (env : ReadEnv) (k : data)
    (hdb : st.db = some db)
    (hp : env.probe.within_contract db.entries (to_serial_key cd k 'a'))
    (hg : env.get_fault = none) :
    do_exists cd st env k =
      (some (kv_get db.entries (to_serial_key cd k 'a')).isSome, st) := by
  obtain ⟨probe, gf⟩ := env
  simp only at hg hp
  subst hg
  unfold do_exists
  simp only [hdb]
  cases probe with
  | absent =>
    simp only [Probe.within_contract] at hp
    simp [Probe.may, hp]
  | may_exist =>
    cases hget : kv_get db.entries (to_serial_key cd k 'a') <;>
      simp [Probe.may, Probe.value, DB.Get, hget, Status.IsNotFound, require_ok, Status.ok]
  | found w =>
    simp only [Probe.within_contract] at hp
    simp [Probe.may, Probe.value, DB.Get, hp, Status.IsNotFound, require_ok, Status.ok]

/-- What one of the two reads of `lookup_with_expiry` leaves in `vserial`, given the
probe's answer: the stored bytes if there are any. -/
theorem read_step (es : List (Bytes × Bytes)) (db : DB) (hes : db.entries = es)
    (key : Bytes) (r : ReadEnv) (vserial : Bytes)
    (hp : r.probe.within_contract es key) (hg : r.get_fault = none)
    (hmay : r.probe.may = true) :
    (if ¬ r.probe.value_found = true then db.Get r.get_fault key (r.probe.value vserial)
     else (Status.OK, r.probe.value vserial)) =
      match kv_get es key with
      | some v => (Status.OK, v)
      | none => (Status.NotFound, vserial) := by
  obtain ⟨probe, gf⟩ := r
  simp only at hg hp hmay
  subst hg hes
  cases probe with
  | absent => simp [Probe.may] at hmay
  | may_exist =>
    cases hget : kv_get db.entries key <;>
      simp [Probe.value_found, Probe.value, DB.Get, hget]
  | found w =>
    simp only [Probe.within_contract] at hp
    simp [Probe.value_found, Probe.value, hp]

theorem not_may_imp (es : List (Bytes × Bytes)) (key : Bytes) (p : Probe)
    (hp : p.within_contract es key) (hmay : ¬ p.may = true) : kv_get es key = none := by
  cases p with
  | absent => exact hp
  | may_exist => simp [Probe.may] at hmay
  | found w => simp [Probe.may] at hmay

theorem lookup_with_expiry_eq (cd : Codec) (st : impl) (db : DB) (env : LookupEnv) (k : data)
    (hdb : st.db = some db)
    (hpa : env.a.probe.within_contract db.entries (to_serial_key cd k 'a'))
    (hpe : env.e.probe.within_contract db.entries (to_serial_key cd k 'e'))
    (hga : env.a.get_fault = none) (hge : env.e.get_fault = none) :
    lookup_with_expiry cd st env k =
      (some ((kv_get db.entries (to_serial_key cd k 'a')).map (fun vb =>
        { item := from_serial cd vb,
          expiry := (kv_get db.entries (to_serial_key cd k 'e')).map (from_serial_time cd) })),
       st) := by
  unfold lookup_with_expiry
  simp only [hdb, set_zero_to_serial_key]
  by_cases hma : env.a.probe.may = true
  · simp only [hma, not_true_eq_false, if_false]
    rw [read_step db.entries db rfl _ env.a [] hpa hga hma]
    cases hgeta : kv_get db.entries (to_serial_key cd k 'a') with
    | none => simp [Status.IsNotFound]
    | some vb =>
      simp only [Status.IsNotFound, Bool.false_eq_true, if_false, require_ok, Status.ok,
        if_true, not_true_eq_false, Option.map_some']
      by_cases hme : env.e.probe.may = true
      · simp only [hme, not_true_eq_false, if_false]
        rw [read_step db.entries db rfl _ env.e vb hpe hge hme]
        cases hgete : kv_get db.entries (to_serial_key cd k 'e') with
        | none => simp [Status.IsNotFound]
        | some eb => simp [Status.IsNotFound]
      · simp [hme, not_may_imp _ _ _ hpe hme]
  · simp [hma, not_may_imp _ _ _ hpa hma]

/-- A successful `erase` ran both deletes on an open backend. -/
theorem do_erase_ok (cd : Codec) (st : impl) (fault_a fault_e : Option String) (k : data)
    (hok : (do_erase cd st fault_a fault_e k).1 = true) :
    ∃ db, st.db = some db ∧
      (do_erase cd st fault_a fault_e k).2 =
        { st with db := some { db with entries :=
            (kv_delete (kv_delete db.entries (to_serial_key cd k 'a'))
              (to_serial_key cd k 'e')) } } := by
  unfold do_erase at hok ⊢
  cases hdb : st.db with
  | none => simp [hdb] at hok
  | some db =>
    refine ⟨db, rfl, ?_⟩
    cases fault_a with
    | some m => simp [hdb, DB.Delete, require_ok, Status.ok] at hok
    | none =>
      cases fault_e with
      | some m => simp [hdb, DB.Delete, require_ok, Status.ok] at hok
      | none => simp [DB.Delete, require_ok, Status.ok, set_zero_to_serial_key]

theorem do_erase_open (cd : Codec) (st : impl) (k : data) (h : st.db.isSome = true) :
    (do_erase cd st none none k).1 = true := by
  unfold do_erase
  cases hdb : st.db with
  | none => simp [hdb] at h
  | some db => simp [DB.Delete, require_ok, Status.ok]

theorem to_serial_key_ne (cd : Codec) (k k2 : data) (c d : Char) (h : c ≠ d) :
    to_serial_key cd k c ≠ to_serial_key cd k2 d := by
  simp [to_serial_key, h]

theorem do_keys_eq (cd : Codec) (st : impl) (db : DB) (hdb : st.db = some db) :
    do_keys cd st none = (some (keys_loop cd (db.scan ['a']) []), st) := by
  simp [do_keys, hdb, require_ok, iter_status, Status.ok]

theorem do_expiries_eq (cd : Codec) (st : impl) (db : DB) (hdb : st.db = some db) :
    do_expiries cd st none =
      (some ((db.scan ['e']).map (fun e =>
        expirable.mk (from_serial cd (remove_first e.1)) (from_serial_time cd e.2))), st) := by
  simp [do_expiries, hdb, require_ok, iter_status, Status.ok]

theorem do_snap_eq (cd : Codec) (st : impl) (db : DB) (hdb : st.db = some db) :
    do_snap cd st none none =
      (some { sn := st.sn,
              datastore := snap_expiries cd (db.scan ['e']) (snap_items cd (db.scan ['a']) []) },
       st) := by
  simp [do_snap, hdb, require_ok, iter_status, Status.ok]

theorem insert_ok (cd : Codec) (db : DB) (k v : data) (e : Option expiration_time) :
    insert cd db none k v e = (Status.OK, { db with entries := insert_entries cd db.entries k v e }) := by
  cases e <;>
    simp [insert, insert_entries, DB.Put, DB.Write, to_serial, to_serial_time,
      set_zero_to_serial_key]

theorem insert_fail (cd : Codec) (db : DB) (msg : String) (k v : data)
    (e : Option expiration_time) :
    insert cd db (some msg) k v e = (Status.Failure msg, db) := by
  cases e <;> simp [insert, DB.Put, DB.Write]

/-- A successful `insert` wrote its entries to the keyspace of an open backend. -/
theorem do_insert_ok (cd : Codec) (st : impl) (fault : Option String) (k v : data)
    (e : Option expiration_time) (hok : (do_insert cd st fault k v e).1 = true) :
    ∃ db, st.db = some db ∧
      (do_insert cd st fault k v e).2 =
        { st with db := some { db with entries := insert_entries cd db.entries k v e } } := by
  unfold do_insert at hok ⊢
  cases hdb : st.db with
  | none => simp [hdb] at hok
  | some db =>
    refine ⟨db, rfl, ?_⟩
    cases fault with
    | some m => simp [hdb, insert_fail, require_ok, Status.ok] at hok
    | none => simp [insert_ok, require_ok, Status.ok]

theorem insert_entries_ordered (cd : Codec) (es : List (Bytes × Bytes)) (k v : data)
    (e : Option expiration_time) (h : es.Pairwise (fun a b => bytes_lt a.1 b.1 = true)) :
    (insert_entries cd es k v e).Pairwise (fun a b => bytes_lt a.1 b.1 = true) := by
  cases e with
  | none => exact kv_put_ordered _ _ _ h
  | some t => exact kv_put_ordered _ _ _ (kv_put_ordered _ _ _ h)

theorem key_canonical_to_serial_key (cd : Codec) (k : data) (c : Char)
    (hrt : cd.de_data (cd.ser_data k) = k) : key_canonical cd (to_serial_key cd k c) = true := by
  simp [key_canonical, to_serial_key, hrt]

theorem insert_entries_canonical (cd : Codec) (es : List (Bytes × Bytes)) (k v : data)
    (e : Option expiration_time) (hrt : cd.de_data (cd.ser_data k) = k)
    (h : ∀ x ∈ es, key_canonical cd x.1 = true) :
    ∀ x ∈ insert_entries cd es k v e, key_canonical cd x.1 = true := by
  intro x hx
  cases e with
  | none =>
    rcases mem_kv_put _ _ _ _ hx with hx | hx
    · rw [hx]; exact key_canonical_to_serial_key cd k 'a' hrt
    · exact h x hx
  | some t =>
    rcases mem_kv_put _ _ _ _ hx with hx | hx
    · rw [hx]; exact key_canonical_to_serial_key cd k 'e' hrt
    · rcases mem_kv_put _ _ _ _ hx with hx | hx
      · rw [hx]; exact key_canonical_to_serial_key cd k 'a' hrt
      · exact h x hx

theorem insert_entries_get_a (cd : Codec) (es : List (Bytes × Bytes)) (k v : data)
    (e : Option expiration_time) :
    kv_get (insert_entries cd es k v e) (to_serial_key cd k 'a') = some (cd.ser_data v) := by
  cases e with
  | none => exact kv_get_put_same _ _ _
  | some t =>
    simp only [insert_entries]
    rw [kv_get_put_other _ _ _ _ (to_serial_key_ne cd k k 'a' 'e' (by decide)),
      kv_get_put_same]

theorem insert_entries_get_e (cd : Codec) (es : List (Bytes × Bytes)) (k v : data)
    (e : Option expiration_time) :
    kv_get (insert_entries cd es k v e) (to_serial_key cd k 'e') =
      match e with
      | some t => some (cd.ser_time t)
      | none => kv_get es (to_serial_key cd k 'e') := by
  cases e with
  | none =>
    simp only [insert_entries]
    rw [kv_get_put_other _ _ _ _ (to_serial_key_ne cd k k 'e' 'a' (by decide))]
  | some t => exact kv_get_put_same _ _ _

theorem lookup_with_expiry_stored (cd : Codec) (st : impl) (env : LookupEnv) (k : data)
    (hopen : st.db.isSome = true) (hreads : st.reads_ok cd k env) :
    lookup_with_expiry cd st env k =
      (some ((st.stored cd k).map (fun d =>
        { item := d, expiry := st.stored_expiry cd k })), st) := by
  cases hdb : st.db with
  | none => simp [hdb] at hopen
  | some db =>
    simp only [impl.reads_ok, impl.read_ok, impl.probe_ok, hdb] at hreads
    rw [lookup_with_expiry_eq cd st db env k hdb hreads.1.1 hreads.2.1 hreads.1.2 hreads.2.2]
    simp only [impl.stored, impl.stored_expiry, hdb, Option.map_map]
    rfl

theorem do_lookup_stored (cd : Codec) (st : impl) (env : ReadEnv) (k : data)
    (hopen : st.db.isSome = true) (hread : st.read_ok (to_serial_key cd k 'a') env) :
    do_lookup cd st env k = (some (st.stored cd k), st) := by
  cases hdb : st.db with
  | none => simp [hdb] at hopen
  | some db =>
    simp only [impl.read_ok, impl.probe_ok, hdb] at hread
    rw [do_lookup_eq cd st db env k hdb hread.1 hread.2]
    simp only [impl.stored, hdb]

/-- The write step shared by the three read-modify-write operations. -/
theorem write_step (cd : Codec) (st : impl) (k v : data) (e : Option expiration_time)
    (hopen : st.db.isSome = true) :
    (match st.db with
     | none => ((-1 : Int), st)
     | some db =>
       if (require_ok { st with db := some (insert cd db none k v e).2 }
            (insert cd db none k v e).1).1 = true
       then (0, (require_ok { st with db := some (insert cd db none k v e).2 }
            (insert cd db none k v e).1).2)
       else (-1, (require_ok { st with db := some (insert cd db none k v e).2 }
            (insert cd db none k v e).1).2)) = (0, st.written cd k v e) := by
  cases hdb : st.db with
  | none => simp [hdb] at hopen
  | some db => simp [insert_ok, require_ok, Status.ok, impl.written, hdb]

theorem do_increment_eq (cd : Codec) (st : impl) (env : LookupEnv) (k : data) (amount : Int)
    (hopen : st.db.isSome = true) (hreads : st.reads_ok cd k env) :
    do_increment cd st env none k amount =
      match st.stored cd k with
      | none => (0, st.written cd k (data.integer amount) none)
      | some d =>
        if (increment_visitor amount d).1 = true then
          (0, st.written cd k (increment_visitor amount d).2 (st.stored_expiry cd k))
        else
          (1, { st with last_error :=
                  "attempt to increment non-integral tag " ++ toString (which d) }) := by
  unfold do_increment
  simp only [lookup_with_expiry_stored cd st env k hopen hreads]
  cases hs : st.stored cd k with
  | none =>
    simp only [Option.map_none']
    exact write_step cd st k _ _ hopen
  | some d =>
    simp only [Option.map_some']
    by_cases hv : (increment_visitor amount d).1 = true
    · simp only [hv, not_true_eq_false, if_false, if_true]
      exact write_step cd st k _ _ hopen
    · simp [hv]

theorem do_add_to_set_eq (cd : Codec) (st : impl) (env : LookupEnv) (k element : data)
    (hopen : st.db.isSome = true) (hreads : st.reads_ok cd k env) :
    do_add_to_set cd st env none k element =
      match st.stored cd k with
      | none => (0, st.written cd k (data.set [element]) none)
      | some (data.set s) =>
        (0, st.written cd k (data.set (set_emplace s element)) (st.stored_expiry cd k))
      | some d =>
        (1, { st with last_error := "attempt to add to non-set tag " ++ toString (which d) }) := by
  unfold do_add_to_set
  simp only [lookup_with_expiry_stored cd st env k hopen hreads]
  cases hs : st.stored cd k with
  | none =>
    simp only [Option.map_none']
    exact write_step cd st k _ _ hopen
  | some d =>
    simp only [Option.map_some']
    cases d with
    | set s => exact write_step cd st k _ _ hopen
    | _ => rfl

theorem do_remove_from_set_eq (cd : Codec) (st : impl) (env : LookupEnv) (k element : data)
    (hopen : st.db.isSome = true) (hreads : st.reads_ok cd k env) :
    do_remove_from_set cd st env none k element =
      match st.stored cd k with
      | none => (0, st.written cd k (data.set []) none)
      | some (data.set s) =>
        (0, st.written cd k (data.set (set_erase s element)) (st.stored_expiry cd k))
      | some d =>
        (1, { st with last_error :=
                "attempt to remove from non-set tag " ++ toString (which d) }) := by
  unfold do_remove_from_set
  simp only [lookup_with_expiry_stored cd st env k hopen hreads]
  cases hs : st.stored cd k with
  | none =>
    simp only [Option.map_none']
    exact write_step cd st k _ _ hopen
  | some d =>
    simp only [Option.map_some']
    cases d with
    | set s => exact write_step cd st k _ _ hopen
    | _ => rfl

theorem written_open (cd : Codec) (st : impl) (k v : data) (e : Option expiration_time)
    (hopen : st.db.isSome = true) : (st.written cd k v e).db.isSome = true := by
  cases hdb : st.db with
  | none => simp [hdb] at hopen
  | some db => simp [impl.written, hdb]

theorem written_stored (cd : Codec) (st : impl) (k v : data) (e : Option expiration_time)
    (hopen : st.db.isSome = true) :
    (st.written cd k v e).stored cd k = some (cd.de_data (cd.ser_data v)) := by
  cases hdb : st.db with
  | none => simp [hdb] at hopen
  | some db => simp [impl.written, impl.stored, hdb, insert_entries_get_a, from_serial]

theorem written_stored_expiry (cd : Codec) (st : impl) (k v : data)
    (e : Option expiration_time) (hopen : st.db.isSome = true) :
    (st.written cd k v e).stored_expiry cd k =
      match e with
      | some t => some (cd.de_time (cd.ser_time t))
      | none => st.stored_expiry cd k := by
  cases hdb : st.db with
  | none => simp [hdb] at hopen
  | some db =>
    cases e <;>
      simp [impl.written, impl.stored_expiry, hdb, insert_entries_get_e, from_serial_time]

theorem wrap_int64_of_range (x : Int) (h1 : -2 ^ 63 ≤ x) (h2 : x < 2 ^ 63) :
    wrap_int64 x = x := by
  unfold wrap_int64
  have e1 : (2 : Int) ^ 63 = 9223372036854775808 := by norm_num
  have e2 : (2 : Int) ^ 64 = 18446744073709551616 := by norm_num
  rw [e1] at h1 h2 ⊢
  rw [e2]
  omega

theorem mem_set_emplace (s : List data) (x y : data) :
    y ∈ set_emplace s x ↔ y ∈ s ∨ y = x := by
  unfold set_emplace
  split
  · rename_i h
    constructor
    · exact Or.inl
    · rintro (h1 | h1)
      · exact h1
      · exact h1 ▸ h
  · rw [List.mem_orderedInsert]
    exact or_comm

theorem set_erase_absent (s : List data) (x : data) (h : x ∉ s) : set_erase s x = s :=
  List.erase_of_not_mem h

theorem mem_set_erase (s : List data) (x y : data) (hs : s.Nodup) :
    y ∈ set_erase s x ↔ y ∈ s ∧ y ≠ x := by
  unfold set_erase
  rw [hs.mem_erase_iff]
  exact and_comm

theorem increment_visitor_fst (amount : Int) (d : data) :
    (increment_visitor amount d).1 = d.is_integral := by
  cases d <;> rfl

theorem do_increment_mismatch (cd : Codec) (st : impl) (env : LookupEnv)
    (wf : Option String) (k : data) (amount : Int) (d : data)
    (hopen : st.db.isSome = true) (hreads : st.reads_ok cd k env)
    (hs : st.stored cd k = some d) (hd : d.is_integral = false) :
    do_increment cd st env wf k amount =
      (1, { st with last_error :=
              "attempt to increment non-integral tag " ++ toString (which d) }) := by
  unfold do_increment
  simp only [lookup_with_expiry_stored cd st env k hopen hreads, hs, Option.map_some',
    increment_visitor_fst, hd]
  simp

theorem do_add_to_set_mismatch (cd : Codec) (st : impl) (env : LookupEnv)
    (wf : Option String) (k x : data) (d : data)
    (hopen : st.db.isSome = true) (hreads : st.reads_ok cd k env)
    (hs : st.stored cd k = some d) (hd : d.is_set = false) :
    do_add_to_set cd st env wf k x =
      (1, { st with last_error := "attempt to add to non-set tag " ++ toString (which d) }) := by
  unfold do_add_to_set
  simp only [lookup_with_expiry_stored cd st env k hopen hreads, hs, Option.map_some']
  cases d with
  | set s => simp [data.is_set] at hd
  | _ => rfl

theorem do_remove_from_set_mismatch (cd : Codec) (st : impl) (env : LookupEnv)
    (wf : Option String) (k x : data) (d : data)
    (hopen : st.db.isSome = true) (hreads : st.reads_ok cd k env)
    (hs : st.stored cd k = some d) (hd : d.is_set = false) :
    do_remove_from_set cd st env wf k x =
      (1, { st with last_error :=
              "attempt to remove from non-set tag " ++ toString (which d) }) := by
  unfold do_remove_from_set
  simp only [lookup_with_expiry_stored cd st env k hopen hreads, hs, Option.map_some']
  cases d with
  | set s => simp [data.is_set] at hd
  | _ => rfl

/-! # Facts about snapshots -/

theorem umap_find_emplace (m : List (data × value)) (k' k : data) (v : value) :
    umap_find (umap_emplace m k' v) k =
      match umap_find m k with
      | some x => some x
      | none => if k' = k then some v else none := by
  induction m with
  | nil => simp [umap_emplace, umap_find]
  | cons e m ih =>
    obtain ⟨k0, v0⟩ := e
    simp only [umap_emplace]
    by_cases h0 : k0 = k'
    · subst h0
      by_cases h1 : k0 = k
      · simp [umap_find, h1]
      · simp only [if_true, umap_find, h1, if_false]
        cases umap_find m k <;> simp
    · by_cases h1 : k0 = k
      · subst h1
        simp [umap_find, h0]
      · simp only [h0, if_false, umap_find, h1]
        exact ih

theorem umap_find_set_expiry (m : List (data × value)) (k' k : data) (t : expiration_time) :
    umap_find (umap_set_expiry m k' t) k =
      if k' = k then
        some { item := ((umap_find m k).map value.item).getD default, expiry := some t }
      else umap_find m k := by
  induction m with
  | nil =>
    by_cases h : k' = k <;> simp [umap_set_expiry, umap_find, h]
  | cons e m ih =>
    obtain ⟨k0, v0⟩ := e
    simp only [umap_set_expiry]
    by_cases h0 : k0 = k'
    · subst h0
      by_cases h1 : k0 = k
      · simp [umap_find, h1]
      · simp [umap_find, h1]
    · by_cases h1 : k0 = k
      · subst h1
        have h2 : ¬ k' = k0 := fun h => h0 h.symm
        simp [umap_find, h0, h2]
      · simp only [h0, if_false, umap_find, h1]
        exact ih

theorem snap_items_cons (cd : Codec) (e : Bytes × Bytes) (rest : List (Bytes × Bytes))
    (m : List (data × value)) :
    snap_items cd (e :: rest) m =
      snap_items cd rest (umap_emplace m (from_serial cd (remove_first e.1))
        { item := from_serial cd e.2, expiry := none }) := by
  simp [snap_items]

theorem snap_expiries_cons (cd : Codec) (e : Bytes × Bytes) (rest : List (Bytes × Bytes))
    (m : List (data × value)) :
    snap_expiries cd (e :: rest) m =
      snap_expiries cd rest (umap_set_expiry m (from_serial cd (remove_first e.1))
        (from_serial_time cd e.2)) := by
  simp [snap_expiries]

/-- The first loop of `snap` keeps what the map already holds for a key. -/
theorem snap_items_find_keep (cd : Codec) (visited : List (Bytes × Bytes))
    (m : List (data × value)) (k : data) (x : value) (h : umap_find m k = some x) :
    umap_find (snap_items cd visited m) k = some x := by
  induction visited generalizing m with
  | nil => simpa [snap_items] using h
  | cons e rest ih =>
    rw [snap_items_cons]
    apply ih
    rw [umap_find_emplace, h]

theorem snap_items_find_none (cd : Codec) (visited : List (Bytes × Bytes))
    (m : List (data × value)) (k : data) (h : umap_find m k = none)
    (hno : ∀ e ∈ visited, from_serial cd (remove_first e.1) ≠ k) :
    umap_find (snap_items cd visited m) k = none := by
  induction visited generalizing m with
  | nil => simpa [snap_items] using h
  | cons e rest ih =>
    rw [snap_items_cons]
    apply ih _ _ (fun x hx => hno x (List.mem_cons_of_mem _ hx))
    rw [umap_find_emplace, h]
    simp [hno e (List.mem_cons_self _ _)]

theorem snap_items_find_some (cd : Codec) (visited : List (Bytes × Bytes))
    (m : List (data × value)) (k : data) (e : Bytes × Bytes) (h : umap_find m k = none)
    (he : e ∈ visited) (hk : from_serial cd (remove_first e.1) = k)
    (huniq : ∀ x ∈ visited, from_serial cd (remove_first x.1) = k → x.2 = e.2) :
    umap_find (snap_items cd visited m) k =
      some { item := from_serial cd e.2, expiry := none } := by
  induction visited generalizing m with
  | nil => simp at he
  | cons e0 rest ih =>
    rw [snap_items_cons]
    by_cases h0 : from_serial cd (remove_first e0.1) = k
    · apply snap_items_find_keep
      rw [umap_find_emplace, h]
      simp [h0, huniq e0 (List.mem_cons_self _ _) h0]
    · have he' : e ∈ rest := by
        rcases List.mem_cons.1 he with he | he
        · rw [he] at hk; exact absurd hk h0
        · exact he
      apply ih _ _ he' (fun x hx => huniq x (List.mem_cons_of_mem _ hx))
      rw [umap_find_emplace, h]
      simp [h0]

theorem snap_expiries_find_none (cd : Codec) (visited : List (Bytes × Bytes))
    (m : List (data × value)) (k : data)
    (hno : ∀ e ∈ visited, from_serial cd (remove_first e.1) ≠ k) :
    umap_find (snap_expiries cd visited m) k = umap_find m k := by
  induction visited generalizing m with
  | nil => simp [snap_expiries]
  | cons e rest ih =>
    rw [snap_expiries_cons, ih _ (fun x hx => hno x (List.mem_cons_of_mem _ hx)),
      umap_find_set_expiry]
    simp [hno e (List.mem_cons_self _ _)]

theorem snap_expiries_find_some (cd : Codec) (visited : List (Bytes × Bytes))
    (m : List (data × value)) (k : data) (e : Bytes × Bytes)
    (he : e ∈ visited) (hk : from_serial cd (remove_first e.1) = k)
    (huniq : ∀ x ∈ visited, from_serial cd (remove_first x.1) = k → x.2 = e.2) :
    umap_find (snap_expiries cd visited m) k =
      some { item := ((umap_find m k).map value.item).getD default,
             expiry := some (from_serial_time cd e.2) } := by
  induction visited generalizing m e with
  | nil => simp at he
  | cons e0 rest ih =>
    rw [snap_expiries_cons]
    by_cases hex : ∃ x ∈ rest, from_serial cd (remove_first x.1) = k
    · obtain ⟨x, hx, hxk⟩ := hex
      have hx2 := huniq x (List.mem_cons_of_mem _ hx) hxk
      rw [ih _ x hx hxk (fun y hy hyk => by
        rw [huniq y (List.mem_cons_of_mem _ hy) hyk, hx2]), umap_find_set_expiry, hx2]
      by_cases h0 : from_serial cd (remove_first e0.1) = k
      · simp [h0]
      · simp [h0]
    · have hno : ∀ x ∈ rest, from_serial cd (remove_first x.1) ≠ k :=
        fun x hx hxk => hex ⟨x, hx, hxk⟩
      have he0 : e = e0 := by
        rcases List.mem_cons.1 he with he | he
        · exact he
        · exact absurd hk (hno e he)
      subst he0
      rw [snap_expiries_find_none cd rest _ k hno, umap_find_set_expiry]
      simp [hk]

/-- In an ordered keyspace with canonical keys, the entries of category `c` whose key
decodes to `k` are the one entry stored under the engine key of `k`. -/
theorem scan_decode (cd : Codec) (db : DB) (c : Char) (k : data) (hc : c = 'a' ∨ c = 'e')
    (hord : db.ordered) (hcan : db.canonical cd) (hrt : cd.de_data (cd.ser_data k) = k)
    (e : Bytes × Bytes) :
    (e ∈ db.scan [c] ∧ from_serial cd (remove_first e.1) = k) ↔
      (e.1 = to_serial_key cd k c ∧
        kv_get db.entries (to_serial_key cd k c) = some e.2) := by
  rw [mem_scan_iff db c hord]
  constructor
  · rintro ⟨⟨hmem, hsw⟩, hk⟩
    obtain ⟨b, hb⟩ := (starts_with_single e.1 c).1 hsw
    have hcanon := hcan e hmem
    rw [hb] at hcanon
    have hkey := canonical_key_eq cd c b k hc hcanon
      (by simpa [hb, remove_first, from_serial] using hk)
    rw [← hb] at hkey
    refine ⟨hkey, ?_⟩
    rw [kv_get_eq_some_iff _ _ _ hord, ← hkey]
    exact hmem
  · rintro ⟨hkey, hget⟩
    have hmem := kv_get_mem _ _ _ hget
    rw [← hkey] at hmem
    refine ⟨⟨hmem, ?_⟩, ?_⟩
    · rw [hkey, to_serial_key_eq, starts_with_cons]
      simp
    · rw [hkey, to_serial_key_eq]
      simp [remove_first, from_serial, hrt]

/-- What `snap` holds for a key, read off the keyspace. -/
theorem snap_find (cd : Codec) (db : DB) (k : data)
    (hord : db.ordered) (hcan : db.canonical cd) (hrt : cd.de_data (cd.ser_data k) = k) :
    umap_find (snap_expiries cd (db.scan ['e']) (snap_items cd (db.scan ['a']) [])) k =
      match kv_get db.entries (to_serial_key cd k 'a'),
            kv_get db.entries (to_serial_key cd k 'e') with
      | some vb, eb =>
        some { item := from_serial cd vb, expiry := eb.map (from_serial_time cd) }
      | none, some eb => some { item := default, expiry := some (from_serial_time cd eb) }
      | none, none => none := by
  have hA := scan_decode cd db 'a' k (Or.inl rfl) hord hcan hrt
  have hE := scan_decode cd db 'e' k (Or.inr rfl) hord hcan hrt
  have hitems : umap_find (snap_items cd (db.scan ['a']) []) k =
      (kv_get db.entries (to_serial_key cd k 'a')).map
        (fun vb => { item := from_serial cd vb, expiry := none }) := by
    cases hga : kv_get db.entries (to_serial_key cd k 'a') with
    | none =>
      apply snap_items_find_none cd _ [] k (by simp [umap_find])
      intro e he hk
      have := (hA e).1 ⟨he, hk⟩
      rw [hga] at this
      exact absurd this.2 (by simp)
    | some vb =>
      have h1 := (hA (to_serial_key cd k 'a', vb)).2 ⟨rfl, hga⟩
      rw [snap_items_find_some cd _ [] k _ (by simp [umap_find]) h1.1 h1.2]
      · rfl
      · intro x hx hxk
        have := (hA x).1 ⟨hx, hxk⟩
        rw [hga] at this
        simpa using this.2.symm
  cases hge : kv_get db.entries (to_serial_key cd k 'e') with
  | none =>
    rw [snap_expiries_find_none, hitems]
    · cases kv_get db.entries (to_serial_key cd k 'a') <;> simp
    · intro e he hk
      have := (hE e).1 ⟨he, hk⟩
      rw [hge] at this
      exact absurd this.2 (by simp)
  | some eb =>
    have h1 := (hE (to_serial_key cd k 'e', eb)).2 ⟨rfl, hge⟩
    rw [snap_expiries_find_some cd _ _ k _ h1.1 h1.2, hitems]
    · cases kv_get db.entries (to_serial_key cd k 'a') <;> simp
    · intro x hx hxk
      have := (hE x).1 ⟨hx, hxk⟩
      rw [hge] at this
      simpa using this.2.symm

theorem written_ordered (cd : Codec) (st : impl) (k v : data) (e : Option expiration_time)
    (h : st.ordered) : (st.written cd k v e).ordered := by
  unfold impl.ordered impl.written at *
  cases hdb : st.db with
  | none => simp [hdb]
  | some db =>
    simp only [hdb] at h ⊢
    exact insert_entries_ordered cd db.entries k v e h

theorem written_canonical (cd : Codec) (st : impl) (k v : data) (e : Option expiration_time)
    (hrt : cd.de_data (cd.ser_data k) = k) (h : st.canonical cd) :
    (st.written cd k v e).canonical cd := by
  unfold impl.canonical impl.written at *
  cases hdb : st.db with
  | none => simp [hdb]
  | some db =>
    simp only [hdb] at h ⊢
    exact insert_entries_canonical cd db.entries k v e hrt h

/-- Rewriting a key with the expiration it already has leaves the list of expirations as
it was. -/
theorem written_expiries (cd : Codec) (st : impl) (k v : data)
    (hord : st.ordered) (hrt : ∀ t, cd.de_time (cd.ser_time t) = t) :
    (do_expiries cd (st.written cd k v (st.stored_expiry cd k)) none).1 =
      (do_expiries cd st none).1 := by
  cases hdb : st.db with
  | none => simp [impl.written, hdb]
  | some db =>
    have hord1 : db.ordered := by simpa [impl.ordered, hdb] using hord
    have hord2 := written_ordered cd st k v (st.stored_expiry cd k) hord
    simp only [impl.written, hdb, impl.ordered] at hord2 ⊢
    rw [do_expiries_eq cd _ _ rfl, do_expiries_eq cd st db hdb]
    simp only [Option.some.injEq]
    rw [scan_ext db _ 'e'
      (fun key old => if key = to_serial_key cd k 'e' then
        cd.ser_time (cd.de_time old) else old) hord1 hord2]
    · rw [List.map_map]
      apply List.map_congr_left
      intro e _
      by_cases hk : e.1 = to_serial_key cd k 'e'
      · simp [hk, from_serial_time, hrt]
      · simp [hk]
    · intro key hq
      simp only
      have hne : key ≠ to_serial_key cd k 'a' := by
        intro h
        rw [h, to_serial_key_eq, starts_with_cons] at hq
        simp at hq
      by_cases hk : key = to_serial_key cd k 'e'
      · subst hk
        rw [insert_entries_get_e]
        simp only [impl.stored_expiry, hdb]
        cases hg : kv_get db.entries (to_serial_key cd k 'e') with
        | none => simp
        | some eb => simp [from_serial_time]
      · simp only [hk, if_false, Option.map_id']
        simp only [impl.stored_expiry, hdb]
        cases hg : kv_get db.entries (to_serial_key cd k 'e') with
        | none =>
          simp only [Option.map_none', insert_entries]
          rw [kv_get_put_other _ _ _ _ hne]
        | some eb =>
          simp only [Option.map_some', insert_entries]
          rw [kv_get_put_other _ _ _ _ hk, kv_get_put_other _ _ _ _ hne]

/-- What `snap` holds for a key, in terms of the stored value and expiration. -/
theorem snap_find_stored (cd : Codec) (st : impl) (k : data)
    (hopen : st.db.isSome = true) (hord : st.ordered) (hcan : st.canonical cd)
    (hrk : cd.de_data (cd.ser_data k) = k) :
    ∃ s, (do_snap cd st none none).1 = some s ∧ s.sn = st.sn ∧
      umap_find s.datastore k =
        match st.stored cd k, st.stored_expiry cd k with
        | some d, e => some { item := d, expiry := e }
        | none, some t => some { item := default, expiry := some t }
        | none, none => none := by
  cases hdb : st.db with
  | none => simp [hdb] at hopen
  | some db =>
    simp only [impl.ordered, impl.canonical, hdb] at hord hcan
    rw [do_snap_eq cd st db hdb]
    refine ⟨_, rfl, rfl, ?_⟩
    simp only
    rw [snap_find cd db k hord hcan hrk]
    simp only [impl.stored, impl.stored_expiry, hdb]
    cases kv_get db.entries (to_serial_key cd k 'a') <;>
      cases kv_get db.entries (to_serial_key cd k 'e') <;> simp

/-- Rewriting the value of a key together with the expiration it already has keeps the
expiration of the key. -/
theorem written_expiry_kept (cd : Codec) (st : impl) (k v d : data)
    (hopen : st.db.isSome = true) (hord : st.ordered) (hcan : st.canonical cd)
    (hrk : cd.de_data (cd.ser_data k) = k) (hrt : ∀ t, cd.de_time (cd.ser_time t) = t)
    (hs : st.stored cd k = some d) :
    expiry_kept cd st (st.written cd k v (st.stored_expiry cd k)) k := by
  have hopen2 := written_open cd st k v (st.stored_expiry cd k) hopen
  have hse : (st.written cd k v (st.stored_expiry cd k)).stored_expiry cd k =
      st.stored_expiry cd k := by
    rw [written_stored_expiry cd st k v _ hopen]
    cases h : st.stored_expiry cd k with
    | none => simp [h]
    | some t => simp [hrt]
  have hsv := written_stored cd st k v (st.stored_expiry cd k) hopen
  refine ⟨st.stored_expiry cd k, d, cd.de_data (cd.ser_data v), ?_, ?_, ?_, ?_⟩
  · intro env henv
    rw [lookup_with_expiry_stored cd st env k hopen henv, hs]
    rfl
  · intro env henv
    rw [lookup_with_expiry_stored cd _ env k hopen2 henv, hsv, hse]
    rfl
  · have h1 := written_expiries cd st k v hord hrt
    cases hdb : st.db with
    | none => simp [hdb] at hopen
    | some db =>
      rw [h1, do_expiries_eq cd st db hdb]
      exact ⟨_, rfl, rfl⟩
  · obtain ⟨s, hs1, _, hs3⟩ := snap_find_stored cd st k hopen hord hcan hrk
    obtain ⟨s2, hs21, _, hs23⟩ := snap_find_stored cd _ k hopen2
      (written_ordered cd st k v _ hord) (written_canonical cd st k v _ hrk hcan) hrk
    refine ⟨s, s2, hs1, hs21, ?_, ?_⟩
    · rw [hs3, hs]
      rfl
    · rw [hs23, hsv, hse]
      rfl

theorem mem_umap_emplace (m : List (data × value)) (k : data) (v : value) (x : data × value)
    (h : x ∈ umap_emplace m k v) : x ∈ m ∨ (x = (k, v) ∧ ∀ y ∈ m, y.1 ≠ k) := by
  induction m with
  | nil =>
    simp only [umap_emplace, List.mem_singleton] at h
    exact Or.inr ⟨h, by simp⟩
  | cons e m ih =>
    obtain ⟨k0, v0⟩ := e
    simp only [umap_emplace] at h
    split at h
    · exact Or.inl h
    · rename_i hne
      rcases List.mem_cons.1 h with h | h
      · exact Or.inl (h ▸ List.mem_cons_self _ _)
      · rcases ih h with h1 | ⟨h1, h2⟩
        · exact Or.inl (List.mem_cons_of_mem _ h1)
        · refine Or.inr ⟨h1, ?_⟩
          intro y hy
          rcases List.mem_cons.1 hy with hy | hy
          · rw [hy]; exact hne
          · exact h2 y hy

theorem umap_emplace_nodup (m : List (data × value)) (k : data) (v : value)
    (h : umap_nodup m) : umap_nodup (umap_emplace m k v) := by
  unfold umap_nodup at *
  induction m with
  | nil => simp [umap_emplace]
  | cons e m ih =>
    obtain ⟨k0, v0⟩ := e
    rw [List.pairwise_cons] at h
    simp only [umap_emplace]
    split
    · exact List.pairwise_cons.2 h
    · rename_i hne
      rw [List.pairwise_cons]
      refine ⟨?_, ih h.2⟩
      intro x hx
      rcases mem_umap_emplace m k v x hx with h1 | ⟨h1, _⟩
      · exact h.1 x h1
      · rw [h1]; exact hne

theorem mem_umap_set_expiry_fst (m : List (data × value)) (k : data) (t : expiration_time)
    (x : data × value) (h : x ∈ umap_set_expiry m k t) : (∃ y ∈ m, y.1 = x.1) ∨ x.1 = k := by
  induction m with
  | nil =>
    simp only [umap_set_expiry, List.mem_singleton] at h
    exact Or.inr (by rw [h])
  | cons e m ih =>
    obtain ⟨k0, v0⟩ := e
    simp only [umap_set_expiry] at h
    split at h
    · rcases List.mem_cons.1 h with h | h
      · exact Or.inl ⟨(k0, v0), List.mem_cons_self _ _, by rw [h]⟩
      · exact Or.inl ⟨x, List.mem_cons_of_mem _ h, rfl⟩
    · rcases List.mem_cons.1 h with h | h
      · exact Or.inl ⟨(k0, v0), List.mem_cons_self _ _, by rw [h]⟩
      · rcases ih h with ⟨y, hy, hyx⟩ | h1
        · exact Or.inl ⟨y, List.mem_cons_of_mem _ hy, hyx⟩
        · exact Or.inr h1

theorem umap_set_expiry_nodup (m : List (data × value)) (k : data) (t : expiration_time)
    (h : umap_nodup m) : umap_nodup (umap_set_expiry m k t) := by
  unfold umap_nodup at *
  induction m with
  | nil => simp [umap_set_expiry]
  | cons e m ih =>
    obtain ⟨k0, v0⟩ := e
    rw [List.pairwise_cons] at h
    simp only [umap_set_expiry]
    split
    · exact List.pairwise_cons.2 ⟨h.1, h.2⟩
    · rename_i hne
      rw [List.pairwise_cons]
      refine ⟨?_, ih h.2⟩
      intro x hx
      rcases mem_umap_set_expiry_fst m k t x hx with ⟨y, hy, hyx⟩ | h1
      · rw [← hyx]; exact h.1 y hy
      · rw [h1]; exact hne

theorem snap_items_nodup (cd : Codec) (visited : List (Bytes × Bytes))
    (m : List (data × value)) (h : umap_nodup m) : umap_nodup (snap_items cd visited m) := by
  induction visited generalizing m with
  | nil => simpa [snap_items] using h
  | cons e rest ih =>
    rw [snap_items_cons]
    exact ih _ (umap_emplace_nodup _ _ _ h)

theorem snap_expiries_nodup (cd : Codec) (visited : List (Bytes × Bytes))
    (m : List (data × value)) (h : umap_nodup m) :
    umap_nodup (snap_expiries cd visited m) := by
  induction visited generalizing m with
  | nil => simpa [snap_expiries] using h
  | cons e rest ih =>
    rw [snap_expiries_cons]
    exact ih _ (umap_set_expiry_nodup _ _ _ h)

/-- The map that `snap` returns has no key twice. -/
theorem do_snap_nodup (cd : Codec) (st : impl) (fa fe : Option String) (s : snapshot)
    (h : (do_snap cd st fa fe).1 = some s) : umap_nodup s.datastore := by
  unfold do_snap at h
  cases hdb : st.db with
  | none => simp [hdb] at h
  | some db =>
    simp only [hdb] at h
    split at h
    · simp at h
    · split at h
      · simp at h
      · simp only [Option.some.injEq] at h
        rw [← h]
        exact snap_expiries_nodup cd _ _ (snap_items_nodup cd _ _ List.Pairwise.nil)

theorem umap_find_isSome_iff (m : List (data × value)) (k : data) :
    (umap_find m k).isSome = true ↔ k ∈ m.map Prod.fst := by
  induction m with
  | nil => simp [umap_find]
  | cons e m ih =>
    obtain ⟨k0, v0⟩ := e
    by_cases h : k0 = k
    · simp [umap_find, h]
    · have h2 : ¬ k = k0 := fun h3 => h h3.symm
      simp [umap_find, h, h2, ih]

/-- In an ordered keyspace with canonical keys, `keys()` holds a key exactly when the
keyspace has a value for it. -/
theorem mem_do_keys_iff (cd : Codec) (st : impl) (db : DB) (k : data)
    (hdb : st.db = some db) (hord : db.ordered) (hcan : db.canonical cd)
    (hrk : cd.de_data (cd.ser_data k) = k) :
    k ∈ keys_loop cd (db.scan ['a']) [] ↔ (st.stored cd k).isSome = true := by
  rw [mem_keys_loop]
  simp only [List.not_mem_nil, false_or, impl.stored, hdb, Option.isSome_map']
  constructor
  · rintro ⟨e, he, hk⟩
    have := (scan_decode cd db 'a' k (Or.inl rfl) hord hcan hrk e).1 ⟨he, hk⟩
    rw [this.2]
    rfl
  · intro h
    cases hg : kv_get db.entries (to_serial_key cd k 'a') with
    | none => simp [hg] at h
    | some vb =>
      have := (scan_decode cd db 'a' k (Or.inl rfl) hord hcan hrk
        (to_serial_key cd k 'a', vb)).2 ⟨rfl, hg⟩
      exact ⟨_, this.1, this.2⟩

/-- Without an expiration left alone, a stored expiration comes with a stored value. -/
theorem stored_of_stored_expiry (cd : Codec) (st : impl) (k : data) (hno : st.no_orphan)
    (h : (st.stored_expiry cd k).isSome = true) : (st.stored cd k).isSome = true := by
  cases hdb : st.db with
  | none => simp [impl.stored_expiry, hdb] at h
  | some db =>
    simp only [impl.no_orphan, hdb] at hno
    simp only [impl.stored_expiry, impl.stored, hdb, Option.isSome_map'] at h ⊢
    cases hg : kv_get db.entries (to_serial_key cd k 'e') with
    | none => simp [hg] at h
    | some eb =>
      have := hno _ (kv_get_mem _ _ _ hg) (by rw [to_serial_key_eq, starts_with_cons]; simp)
      simpa [to_serial_key_eq, remove_first] using this

/-! # Facts about `clear` and `init` -/

/-- A successful `clear` leaves an open backend that holds the metadata record alone,
with the sequence number it had. -/
theorem do_clear_ok (cd : Codec) (st : impl) (env : ClearEnv)
    (hok : (do_clear cd st env).1 = true) :
    ∃ db, st.db = some db ∧
      (do_clear cd st env).2.db = some { name := db.name, entries := cleared_entries cd } ∧
      (do_clear cd st env).2.sn = st.sn ∧
      (do_clear cd st env).2.exact_size_threshold = st.exact_size_threshold := by
  obtain ⟨df, opf, pf⟩ := env
  unfold do_clear at hok ⊢
  cases hdb : st.db with
  | none => simp [hdb] at hok
  | some db =>
    refine ⟨db, rfl, ?_⟩
    simp only [hdb] at hok
    cases df with
    | some m => simp [DestroyDB, require_ok, Status.ok] at hok
    | none =>
      cases opf with
      | some m =>
        simp [DestroyDB, require_ok, Status.ok, rocksdb_backend_open, DB.Open] at hok
      | none =>
        cases hc : st.options.create_if_missing with
        | false =>
          simp [DestroyDB, require_ok, Status.ok, rocksdb_backend_open, DB.Open, hc] at hok
        | true =>
          cases pf with
          | some m =>
            simp [DestroyDB, require_ok, Status.ok, rocksdb_backend_open, DB.Open, hc,
              DB.Put] at hok
          | none =>
            simp [DestroyDB, require_ok, Status.ok, rocksdb_backend_open, DB.Open, hc,
              DB.Put, cleared_entries]

/-- A successful `init` leaves an open backend that holds the batch of the snapshot
written over the cleared keyspace, with the sequence number of the snapshot. -/
theorem do_init_ok (cd : Codec) (st : impl) (sss : snapshot) (env : ClearEnv)
    (wf : Option String) (hok : (do_init cd st sss env wf).1 = true) :
    ∃ db, st.db = some db ∧
      (do_init cd st sss env wf).2.db =
        some { name := db.name, entries := init_entries cd sss } ∧
      (do_init cd st sss env wf).2.sn = sss.sn := by
  unfold do_init at hok ⊢
  by_cases hc : (do_clear cd st env).1 = true
  · obtain ⟨db, hdb, hcdb, _, _⟩ := do_clear_ok cd st env hc
    refine ⟨db, hdb, ?_⟩
    simp only [hc, not_true_eq_false, if_false, hcdb] at hok ⊢
    cases wf with
    | some m => simp [DB.Write, require_ok, Status.ok] at hok
    | none => simp [DB.Write, require_ok, Status.ok, init_entries]
  · simp [hc] at hok

theorem mem_init_batch (cd : Codec) (m : List (data × value)) (key val : Bytes) :
    (key, val) ∈ init_batch cd m ↔
      ∃ k v, (k, v) ∈ m ∧
        ((key = to_serial_key cd k 'a' ∧ val = cd.ser_data v.item) ∨
         (key = to_serial_key cd k 'e' ∧ ∃ t, v.expiry = some t ∧ val = cd.ser_time t)) := by
  induction m with
  | nil => simp [init_batch]
  | cons kv rest ih =>
    obtain ⟨k0, v0⟩ := kv
    cases he : v0.expiry with
    | none =>
      simp only [init_batch, he, List.mem_cons, Prod.mk.injEq, ih, to_serial,
        List.nil_append]
      constructor
      · rintro (⟨h1, h2⟩ | ⟨k, v, hm, h⟩)
        · exact ⟨k0, v0, Or.inl ⟨rfl, rfl⟩, Or.inl ⟨h1, h2⟩⟩
        · exact ⟨k, v, Or.inr hm, h⟩
      · rintro ⟨k, v, (⟨hk, hv⟩ | hm), h⟩
        · subst hk hv
          rcases h with h | ⟨_, t, ht, _⟩
          · exact Or.inl h
          · rw [he] at ht; exact absurd ht (by simp)
        · exact Or.inr ⟨k, v, hm, h⟩
    | some t0 =>
      simp only [init_batch, he, List.mem_cons, Prod.mk.injEq, ih, to_serial,
        to_serial_time, List.nil_append, set_zero_to_serial_key]
      constructor
      · rintro (⟨h1, h2⟩ | ⟨h1, h2⟩ | ⟨k, v, hm, h⟩)
        · exact ⟨k0, v0, Or.inl ⟨rfl, rfl⟩, Or.inl ⟨h1, h2⟩⟩
        · exact ⟨k0, v0, Or.inl ⟨rfl, rfl⟩, Or.inr ⟨h1, t0, he, h2⟩⟩
        · exact ⟨k, v, Or.inr hm, h⟩
      · rintro ⟨k, v, (⟨hk, hv⟩ | hm), h⟩
        · subst hk hv
          rcases h with h | ⟨h1, t, ht, h2⟩
          · exact Or.inl h
          · rw [he] at ht
            simp only [Option.some.injEq] at ht
            subst ht
            exact Or.inr (Or.inl ⟨h1, h2⟩)
        · exact Or.inr (Or.inr ⟨k, v, hm, h⟩)

theorem mem_foldl_put (batch es : List (Bytes × Bytes)) (e : Bytes × Bytes)
    (h : e ∈ batch.foldl (fun es r => kv_put es r.1 r.2) es) : e ∈ batch ∨ e ∈ es := by
  induction batch generalizing es with
  | nil => exact Or.inr (by simpa using h)
  | cons r rest ih =>
    simp only [List.foldl_cons] at h
    rcases ih _ h with h1 | h1
    · exact Or.inl (List.mem_cons_of_mem _ h1)
    · rcases mem_kv_put _ _ _ _ h1 with h2 | h2
      · exact Or.inl (h2 ▸ List.mem_cons_self _ _)
      · exact Or.inr h2

theorem kv_get_foldl_put_other (batch es : List (Bytes × Bytes)) (key : Bytes)
    (h : ∀ r ∈ batch, r.1 ≠ key) :
    kv_get (batch.foldl (fun es r => kv_put es r.1 r.2) es) key = kv_get es key := by
  induction batch generalizing es with
  | nil => rfl
  | cons r rest ih =>
    simp only [List.foldl_cons]
    rw [ih _ (fun x hx => h x (List.mem_cons_of_mem _ hx)),
      kv_get_put_other _ _ _ _ (fun heq => h r (List.mem_cons_self _ _) heq.symm)]

theorem kv_get_foldl_put_mem (batch es : List (Bytes × Bytes)) (key val : Bytes)
    (hnd : batch.Pairwise (fun a b => a.1 ≠ b.1)) (h : (key, val) ∈ batch) :
    kv_get (batch.foldl (fun es r => kv_put es r.1 r.2) es) key = some val := by
  induction batch generalizing es with
  | nil => simp at h
  | cons r rest ih =>
    rw [List.pairwise_cons] at hnd
    simp only [List.foldl_cons]
    rcases List.mem_cons.1 h with h1 | h1
    · subst h1
      rw [kv_get_foldl_put_other _ _ _ (fun x hx heq => hnd.1 x hx heq.symm)]
      exact kv_get_put_same _ _ _
    · exact ih _ hnd.2 h1

theorem umap_find_mem (m : List (data × value)) (k : data) (v : value)
    (h : umap_find m k = some v) : (k, v) ∈ m := by
  induction m with
  | nil => simp [umap_find] at h
  | cons kv rest ih =>
    obtain ⟨k0, v0⟩ := kv
    simp only [umap_find] at h
    split at h
    · rename_i heq
      simp only [Option.some.injEq] at h
      subst heq h
      exact List.mem_cons_self _ _
    · exact List.mem_cons_of_mem _ (ih h)

theorem umap_find_of_mem (m : List (data × value)) (k : data) (v : value)
    (hnd : umap_nodup m) (h : (k, v) ∈ m) : umap_find m k = some v := by
  induction m with
  | nil => simp at h
  | cons kv rest ih =>
    obtain ⟨k0, v0⟩ := kv
    unfold umap_nodup at hnd
    rw [List.pairwise_cons] at hnd
    simp only [umap_find]
    rcases List.mem_cons.1 h with h1 | h1
    · simp only [Prod.mk.injEq] at h1
      simp [h1.1, h1.2]
    · have hne : ¬ k0 = k := fun heq => hnd.1 _ h1 heq
      simp only [hne, if_false]
      exact ih hnd.2 h1

theorem ser_inj (cd : Codec) (hrt : ∀ d : data, cd.de_data (cd.ser_data d) = d)
    (a b : data) (h : cd.ser_data a = cd.ser_data b) : a = b := by
  rw [← hrt a, ← hrt b, h]

theorem to_serial_key_inj (cd : Codec) (hrt : ∀ d : data, cd.de_data (cd.ser_data d) = d)
    (a b : data) (c d : Char) (h : to_serial_key cd a c = to_serial_key cd b d) :
    c = d ∧ a = b := by
  simp only [to_serial_key_eq, List.cons.injEq] at h
  exact ⟨h.1, ser_inj cd hrt a b h.2⟩

theorem init_batch_nodup (cd : Codec) (hrt : ∀ d : data, cd.de_data (cd.ser_data d) = d)
    (m : List (data × value)) (hnd : umap_nodup m) :
    (init_batch cd m).Pairwise (fun a b => a.1 ≠ b.1) := by
  induction m with
  | nil => simp [init_batch]
  | cons kv rest ih =>
    obtain ⟨k0, v0⟩ := kv
    unfold umap_nodup at hnd
    rw [List.pairwise_cons] at hnd
    have hrest : ∀ (c : Char) (x : Bytes × Bytes), x ∈ init_batch cd rest →
        to_serial_key cd k0 c ≠ x.1 := by
      intro c x hx heq
      obtain ⟨key, val⟩ := x
      rw [mem_init_batch] at hx
      obtain ⟨k, v, hm, h⟩ := hx
      simp only at heq
      rcases h with ⟨h1, _⟩ | ⟨h1, _⟩
      · rw [h1] at heq
        exact hnd.1 _ hm (to_serial_key_inj cd hrt _ _ _ _ heq).2
      · rw [h1] at heq
        exact hnd.1 _ hm (to_serial_key_inj cd hrt _ _ _ _ heq).2
    cases he : v0.expiry with
    | none =>
      simp only [init_batch, he]
      rw [List.pairwise_cons]
      exact ⟨fun x hx => hrest 'a' x hx, ih hnd.2⟩
    | some t0 =>
      simp only [init_batch, he, set_zero_to_serial_key]
      rw [List.pairwise_cons, List.pairwise_cons]
      refine ⟨?_, fun x hx => hrest 'e' x hx, ih hnd.2⟩
      intro x hx
      rcases List.mem_cons.1 hx with hx | hx
      · rw [hx]
        exact to_serial_key_ne cd k0 k0 'a' 'e' (by decide)
      · exact hrest 'a' x hx

theorem metadata_key_eq : metadata_key = 'm' :: "broker_version".toList := by
  decide

theorem metadata_key_ne (cd : Codec) (k : data) (c : Char) (hc : c = 'a' ∨ c = 'e') :
    to_serial_key cd k c ≠ metadata_key := by
  rw [metadata_key_eq, to_serial_key_eq]
  intro h
  simp only [List.cons.injEq] at h
  rcases hc with hc | hc <;> · rw [hc] at h; exact absurd h.1 (by decide)

theorem cleared_get (cd : Codec) (k : data) (c : Char) (hc : c = 'a' ∨ c = 'e') :
    kv_get (cleared_entries cd) (to_serial_key cd k c) = none := by
  unfold cleared_entries
  rw [kv_get_put_other _ _ _ _ (metadata_key_ne cd k c hc)]
  rfl

theorem cleared_ordered (cd : Codec) :
    (cleared_entries cd).Pairwise (fun a b => bytes_lt a.1 b.1 = true) :=
  kv_put_ordered _ _ _ List.Pairwise.nil

theorem init_entries_ordered (cd : Codec) (sss : snapshot) :
    (init_entries cd sss).Pairwise (fun a b => bytes_lt a.1 b.1 = true) :=
  kv_write_ordered _ _ (cleared_ordered cd)

theorem init_entries_canonical (cd : Codec) (sss : snapshot)
    (hrt : ∀ d : data, cd.de_data (cd.ser_data d) = d) :
    ∀ x ∈ init_entries cd sss, key_canonical cd x.1 = true := by
  intro x hx
  rcases mem_foldl_put _ _ _ hx with h | h
  · obtain ⟨key, val⟩ := x
    rw [mem_init_batch] at h
    obtain ⟨k, v, _, h⟩ := h
    rcases h with ⟨h1, _⟩ | ⟨h1, _⟩
    · simp only [h1]; exact key_canonical_to_serial_key cd k 'a' (hrt k)
    · simp only [h1]; exact key_canonical_to_serial_key cd k 'e' (hrt k)
  · rcases mem_kv_put _ _ _ _ h with h1 | h1
    · rw [h1, metadata_key_eq]
      simp [key_canonical]
    · simp at h1

/-- The `'a'` entry of a key after `init`: the encoded item the snapshot gives. -/
theorem init_get_a (cd : Codec) (sss : snapshot)
    (hrt : ∀ d : data, cd.de_data (cd.ser_data d) = d) (hnd : umap_nodup sss.datastore)
    (k : data) :
    kv_get (init_entries cd sss) (to_serial_key cd k 'a') =
      (umap_find sss.datastore k).map (fun v => cd.ser_data v.item) := by
  unfold init_entries
  cases hf : umap_find sss.datastore k with
  | some v =>
    apply kv_get_foldl_put_mem _ _ _ _ (init_batch_nodup cd hrt _ hnd)
    rw [mem_init_batch]
    exact ⟨k, v, umap_find_mem _ _ _ hf, Or.inl ⟨rfl, rfl⟩⟩
  | none =>
    rw [kv_get_foldl_put_other, cleared_get cd k 'a' (Or.inl rfl)]
    · rfl
    · intro r hr heq
      obtain ⟨key, val⟩ := r
      rw [mem_init_batch] at hr
      obtain ⟨k1, v1, hm, h⟩ := hr
      simp only at heq
      rcases h with ⟨h1, _⟩ | ⟨h1, _⟩
      · rw [h1] at heq
        have := (to_serial_key_inj cd hrt _ _ _ _ heq).2
        subst this
        rw [umap_find_of_mem _ _ _ hnd hm] at hf
        exact absurd hf (by simp)
      · rw [h1] at heq
        exact absurd (to_serial_key_inj cd hrt _ _ _ _ heq).1 (by decide)

/-- The `'e'` entry of a key after `init`: the encoded expiration the snapshot gives. -/
theorem init_get_e (cd : Codec) (sss : snapshot)
    (hrt : ∀ d : data, cd.de_data (cd.ser_data d) = d) (hnd : umap_nodup sss.datastore)
    (k : data) :
    kv_get (init_entries cd sss) (to_serial_key cd k 'e') =
      (umap_find sss.datastore k).bind (fun v => v.expiry.map cd.ser_time) := by
  unfold init_entries
  have hnone : (∀ v t, umap_find sss.datastore k = some v → v.expiry ≠ some t) →
      kv_get ((init_batch cd sss.datastore).foldl (fun es r => kv_put es r.1 r.2)
        (cleared_entries cd)) (to_serial_key cd k 'e') = none := by
    intro hno
    rw [kv_get_foldl_put_other, cleared_get cd k 'e' (Or.inr rfl)]
    intro r hr heq
    obtain ⟨key, val⟩ := r
    rw [mem_init_batch] at hr
    obtain ⟨k1, v1, hm, h⟩ := hr
    simp only at heq
    rcases h with ⟨h1, _⟩ | ⟨h1, t, ht, _⟩
    · rw [h1] at heq
      exact absurd (to_serial_key_inj cd hrt _ _ _ _ heq).1 (by decide)
    · rw [h1] at heq
      have := (to_serial_key_inj cd hrt _ _ _ _ heq).2
      subst this
      exact hno v1 t (umap_find_of_mem _ _ _ hnd hm) ht
  cases hf : umap_find sss.datastore k with
  | none =>
    rw [hnone (fun v t hv => by rw [hf] at hv; exact absurd hv (by simp))]
    rfl
  | some v =>
    cases he : v.expiry with
    | none =>
      rw [hnone (fun v1 t hv => by
        rw [hf] at hv
        simp only [Option.some.injEq] at hv
        subst hv
        rw [he]
        simp)]
      simp [he]
    | some t =>
      simp only [Option.some_bind, he, Option.map_some']
      apply kv_get_foldl_put_mem _ _ _ _ (init_batch_nodup cd hrt _ hnd)
      rw [mem_init_batch]
      exact ⟨k, v, umap_find_mem _ _ _ hf, Or.inr ⟨rfl, t, he, rfl⟩⟩

/-- An entry of the keyspace after `init` whose key is of category `'a'` or `'e'` comes
from the batch. -/
theorem init_entries_mem (cd : Codec) (sss : snapshot) (key val : Bytes) (c : Char)
    (hc : c = 'a' ∨ c = 'e') (hq : starts_with key [c] = true)
    (h : kv_get (init_entries cd sss) key = some val) :
    (key, val) ∈ init_batch cd sss.datastore := by
  have hm := kv_get_mem _ _ _ h
  rcases mem_foldl_put _ _ _ hm with h1 | h1
  · exact h1
  · exfalso
    unfold cleared_entries at h1
    rcases mem_kv_put _ _ _ _ h1 with h2 | h2
    · simp only [Prod.mk.injEq] at h2
      rw [h2.1, metadata_key_eq, starts_with_cons] at hq
      simp only [decide_eq_true_eq] at hq
      rcases hc with hc | hc <;> · rw [hc] at hq; exact absurd hq (by decide)
    · simp at h2

/-- After `init(snap())` on an ordered keyspace with canonical keys and no expiration
without a value, the `'a'` entries are those of before, re-encoded. -/
theorem init_snap_get_a (cd : Codec) (db : DB) (sss : snapshot) (hrt : cd.round_trips)
    (hord : db.ordered) (hcan : db.canonical cd) (hno : db.no_orphan)
    (hs : sss.datastore = snap_expiries cd (db.scan ['e']) (snap_items cd (db.scan ['a']) []))
    (key : Bytes) (hq : starts_with key ['a'] = true) :
    kv_get (init_entries cd sss) key =
      (kv_get db.entries key).map (fun v => cd.ser_data (cd.de_data v)) := by
  have hnd : umap_nodup sss.datastore := by
    rw [hs]
    exact snap_expiries_nodup cd _ _ (snap_items_nodup cd _ _ List.Pairwise.nil)
  obtain ⟨b, hb⟩ := (starts_with_single key 'a').1 hq
  cases hg : kv_get db.entries key with
  | some vb =>
    have hkey : key = to_serial_key cd (cd.de_data b) 'a' := by
      rw [hb]
      exact canonical_key_eq cd 'a' b _ (Or.inl rfl) (hb ▸ hcan _ (kv_get_mem _ _ _ hg)) rfl
    rw [hkey, init_get_a cd sss hrt.1 hnd, hs, snap_find cd db _ hord hcan (hrt.1 _), ← hkey, hg]
    simp [from_serial]
  | none =>
    cases hg2 : kv_get (init_entries cd sss) key with
    | none => rfl
    | some val =>
      exfalso
      have hm := init_entries_mem cd sss key val 'a' (Or.inl rfl) hq hg2
      rw [mem_init_batch] at hm
      obtain ⟨k, v, hkv, h⟩ := hm
      have hf := umap_find_of_mem _ _ _ hnd hkv
      rw [hs, snap_find cd db k hord hcan (hrt.1 k)] at hf
      rcases h with ⟨h1, _⟩ | ⟨h1, _⟩
      · rw [h1] at hg
        rw [hg] at hf
        cases hge : kv_get db.entries (to_serial_key cd k 'e') with
        | none => simp [hge] at hf
        | some eb =>
          have := hno _ (kv_get_mem _ _ _ hge)
            (by rw [to_serial_key_eq, starts_with_cons]; simp)
          simp only [to_serial_key_eq, remove_first, List.drop_succ_cons, List.drop_zero] at this
          rw [← to_serial_key_eq, hg] at this
          simp at this
      · rw [h1, to_serial_key_eq, starts_with_cons] at hq
        simp at hq

/-- After `init(snap())` on an ordered keyspace with canonical keys, the `'e'` entries are
those of before, re-encoded. -/
theorem init_snap_get_e (cd : Codec) (db : DB) (sss : snapshot) (hrt : cd.round_trips)
    (hord : db.ordered) (hcan : db.canonical cd) (hno : db.no_orphan)
    (hs : sss.datastore = snap_expiries cd (db.scan ['e']) (snap_items cd (db.scan ['a']) []))
    (key : Bytes) (hq : starts_with key ['e'] = true) :
    kv_get (init_entries cd sss) key =
      (kv_get db.entries key).map (fun v => cd.ser_time (cd.de_time v)) := by
  have hnd : umap_nodup sss.datastore := by
    rw [hs]
    exact snap_expiries_nodup cd _ _ (snap_items_nodup cd _ _ List.Pairwise.nil)
  obtain ⟨b, hb⟩ := (starts_with_single key 'e').1 hq
  cases hg : kv_get db.entries key with
  | some eb =>
    have hkey : key = to_serial_key cd (cd.de_data b) 'e' := by
      rw [hb]
      exact canonical_key_eq cd 'e' b _ (Or.inr rfl) (hb ▸ hcan _ (kv_get_mem _ _ _ hg)) rfl
    have hor := hno _ (kv_get_mem _ _ _ hg) hq
    rw [hb] at hor
    simp only [remove_first, List.drop_succ_cons, List.drop_zero] at hor
    have hb2 : b = cd.ser_data (cd.de_data b) := by
      have := hkey
      rw [hb, to_serial_key_eq] at this
      simpa using this
    rw [hb2, ← to_serial_key_eq] at hor
    rw [hkey, init_get_e cd sss hrt.1 hnd, hs, snap_find cd db _ hord hcan (hrt.1 _), ← hkey, hg]
    cases hga : kv_get db.entries (to_serial_key cd (cd.de_data b) 'a') with
    | none => simp [hga] at hor
    | some vb => simp [from_serial_time]
  | none =>
    cases hg2 : kv_get (init_entries cd sss) key with
    | none => rfl
    | some val =>
      exfalso
      have hm := init_entries_mem cd sss key val 'e' (Or.inr rfl) hq hg2
      rw [mem_init_batch] at hm
      obtain ⟨k, v, hkv, h⟩ := hm
      have hf := umap_find_of_mem _ _ _ hnd hkv
      rw [hs, snap_find cd db k hord hcan (hrt.1 k)] at hf
      rcases h with ⟨h1, _⟩ | ⟨h1, t, ht, _⟩
      · rw [h1, to_serial_key_eq, starts_with_cons] at hq
        simp at hq
      · rw [h1] at hg
        rw [hg] at hf
        cases hga : kv_get db.entries (to_serial_key cd k 'a') with
        | none => simp [hga] at hf
        | some vb =>
          simp only [hga, Option.map_none', Option.some.injEq] at hf
          rw [← hf] at ht
          simp at ht

theorem keys_loop_map (cd : Codec) (l : List (Bytes × Bytes)) (f : Bytes → Bytes → Bytes)
    (acc : List data) :
    keys_loop cd (l.map (fun e => (e.1, f e.1 e.2))) acc = keys_loop cd l acc := by
  simp [keys_loop, List.foldl_map]

theorem snap_items_map (cd : Codec) (l : List (Bytes × Bytes))
    (hrt : ∀ d : data, cd.de_data (cd.ser_data d) = d) (m : List (data × value)) :
    snap_items cd (l.map (fun e => (e.1, cd.ser_data (cd.de_data e.2)))) m =
      snap_items cd l m := by
  simp [snap_items, List.foldl_map, from_serial, hrt]

theorem snap_expiries_map (cd : Codec) (l : List (Bytes × Bytes))
    (hrt : ∀ t, cd.de_time (cd.ser_time t) = t) (m : List (data × value)) :
    snap_expiries cd (l.map (fun e => (e.1, cd.ser_time (cd.de_time e.2)))) m =
      snap_expiries cd l m := by
  simp [snap_expiries, List.foldl_map, from_serial_time, hrt]

/-! # The sequence number -/

theorem require_ok_sn (st : impl) (s : Status) : (require_ok st s).2.sn = st.sn := by
  unfold require_ok
  split <;> rfl

theorem require_db_sn (st : impl) : (require_db st).2.sn = st.sn := by
  unfold require_db
  split <;> rfl

theorem do_insert_sn (cd : Codec) (st : impl) (fault : Option String) (k v : data)
    (e : Option expiration_time) : (do_insert cd st fault k v e).2.sn = st.sn := by
  unfold do_insert
  split
  · exact require_db_sn st
  · rw [require_ok_sn]

theorem do_erase_sn (cd : Codec) (st : impl) (fa fe : Option String) (k : data) :
    (do_erase cd st fa fe k).2.sn = st.sn := by
  unfold do_erase
  split
  · exact require_db_sn st
  · simp only
    split
    · rw [require_ok_sn]
    · rw [require_ok_sn, require_ok_sn]

theorem rocksdb_backend_open_sn (cd : Codec) (st : impl) (db_path : String)
    (options : Options) (disk : Option (List (Bytes × Bytes)))
    (opf pf : Option String) :
    (rocksdb_backend_open cd st db_path options disk opf pf).2.sn = st.sn := by
  unfold rocksdb_backend_open
  simp only
  split
  · split <;> rfl
  · rfl

theorem do_clear_sn (cd : Codec) (st : impl) (env : ClearEnv) :
    (do_clear cd st env).2.sn = st.sn := by
  unfold do_clear
  split
  · exact require_db_sn st
  · simp only
    split
    · rw [require_ok_sn]
    · rw [require_ok_sn, rocksdb_backend_open_sn, require_ok_sn]

theorem do_lookup_sn (cd : Codec) (st : impl) (env : ReadEnv) (k : data) :
    (do_lookup cd st env k).2.sn = st.sn := by
  unfold do_lookup
  split
  · exact require_db_sn st
  · simp only
    repeat' split
    all_goals simp only [require_ok_sn]

theorem do_exists_sn (cd : Codec) (st : impl) (env : ReadEnv) (k : data) :
    (do_exists cd st env k).2.sn = st.sn := by
  unfold do_exists
  split
  · exact require_db_sn st
  · simp only
    repeat' split
    all_goals simp only [require_ok_sn]

theorem lookup_with_expiry_sn (cd : Codec) (st : impl) (env : LookupEnv) (k : data) :
    (lookup_with_expiry cd st env k).2.sn = st.sn := by
  unfold lookup_with_expiry
  split
  · exact require_db_sn st
  · simp only
    repeat' split
    all_goals simp only [require_ok_sn]

theorem do_keys_sn (cd : Codec) (st : impl) (f : Option String) :
    (do_keys cd st f).2.sn = st.sn := by
  unfold do_keys
  split
  · exact require_db_sn st
  · simp only
    split <;> rw [require_ok_sn]

theorem do_size_sn (st : impl) (estimate : Option Nat) (f : Option String) :
    (do_size st estimate f).2.sn = st.sn := by
  unfold do_size
  split
  · exact require_db_sn st
  · simp only
    repeat' split
    all_goals simp only [require_ok_sn]

theorem do_snap_sn (cd : Codec) (st : impl) (fa fe : Option String) :
    (do_snap cd st fa fe).2.sn = st.sn := by
  unfold do_snap
  split
  · exact require_db_sn st
  · simp only
    repeat' split
    all_goals simp only [require_ok_sn]

theorem do_expiries_sn (cd : Codec) (st : impl) (f : Option String) :
    (do_expiries cd st f).2.sn = st.sn := by
  unfold do_expiries
  split
  · exact require_db_sn st
  · simp only
    split <;> rw [require_ok_sn]

theorem do_increment_sn (cd : Codec) (st : impl) (env : LookupEnv) (wf : Option String)
    (k : data) (amount : Int) : (do_increment cd st env wf k amount).2.sn = st.sn := by
  unfold do_increment
  simp only
  repeat' split
  all_goals simp only [require_ok_sn, lookup_with_expiry_sn]

theorem do_add_to_set_sn (cd : Codec) (st : impl) (env : LookupEnv) (wf : Option String)
    (k x : data) : (do_add_to_set cd st env wf k x).2.sn = st.sn := by
  unfold do_add_to_set
  simp only
  repeat' split
  all_goals simp only [require_ok_sn, lookup_with_expiry_sn]

theorem do_remove_from_set_sn (cd : Codec) (st : impl) (env : LookupEnv)
    (wf : Option String) (k x : data) :
    (do_remove_from_set cd st env wf k x).2.sn = st.sn := by
  unfold do_remove_from_set
  simp only
  repeat' split
  all_goals simp only [require_ok_sn, lookup_with_expiry_sn]

theorem do_init_sn (cd : Codec) (st : impl) (sss : snapshot) (env : ClearEnv)
    (wf : Option String) :
    (do_init cd st sss env wf).2.sn = if (do_clear cd st env).1 = true then sss.sn else st.sn := by
  unfold do_init
  by_cases hc : (do_clear cd st env).1 = true
  · simp only [hc, not_true_eq_false, if_false, if_true]
    split
    · rfl
    · rw [require_ok_sn]
  · simp only [hc, not_false_eq_true, if_true, if_false]
    exact do_clear_sn cd st env

/-! # The keyspace invariants hold in every reachable state -/

theorem well_formed_closed (cd : Codec) (st : impl) (h : st.db = none) :
    st.well_formed cd := by
  simp [impl.well_formed, impl.ordered, impl.canonical, impl.no_orphan, h]

theorem well_formed_of_db (cd : Codec) (st : impl) (db : DB) (h : st.db = some db)
    (h1 : db.ordered) (h2 : db.canonical cd) (h3 : db.no_orphan) : st.well_formed cd := by
  simp only [impl.well_formed, impl.ordered, impl.canonical, impl.no_orphan, h]
  exact ⟨h1, h2, h3⟩

theorem well_formed_db (cd : Codec) (st : impl) (db : DB) (h : st.db = some db)
    (hwf : st.well_formed cd) : db.ordered ∧ db.canonical cd ∧ db.no_orphan := by
  simpa only [impl.well_formed, impl.ordered, impl.canonical, impl.no_orphan, h] using hwf

theorem cleared_canonical (cd : Codec) :
    ∀ x ∈ cleared_entries cd, key_canonical cd x.1 = true := by
  intro x hx
  rcases mem_kv_put _ _ _ _ hx with h1 | h1
  · rw [h1, metadata_key_eq]
    simp [key_canonical]
  · simp at h1

theorem cleared_no_orphan (cd : Codec) (name : String) :
    DB.no_orphan { name := name, entries := cleared_entries cd } := by
  intro x hx hq
  rcases mem_kv_put _ _ _ _ hx with h1 | h1
  · rw [h1, metadata_key_eq, starts_with_cons] at hq
    simp only [decide_eq_true_eq] at hq
    exact absurd hq (by decide)
  · simp at h1

theorem insert_entries_no_orphan (cd : Codec) (db : DB) (k v : data)
    (e : Option expiration_time) (h : db.no_orphan) :
    DB.no_orphan { db with entries := insert_entries cd db.entries k v e } := by
  intro x hx hq
  simp only at hx ⊢
  obtain ⟨b, hb⟩ := (starts_with_single x.1 'e').1 hq
  have hrf : ('a' :: remove_first x.1) = 'a' :: b := by simp [hb, remove_first]
  rw [hrf]
  by_cases hk : b = cd.ser_data k
  · rw [hk, ← to_serial_key_eq, insert_entries_get_a]
    rfl
  · have hne_a : ('a' :: b) ≠ to_serial_key cd k 'a' := by
      rw [to_serial_key_eq]; simpa using hk
    have hne_e : ('a' :: b) ≠ to_serial_key cd k 'e' := by
      rw [to_serial_key_eq]; simp
    have hxne : x.1 ≠ to_serial_key cd k 'e' := by
      rw [hb, to_serial_key_eq]; simpa using hk
    have hxne_a : x.1 ≠ to_serial_key cd k 'a' := by
      rw [hb, to_serial_key_eq]; simp
    have hold : x ∈ db.entries := by
      cases e with
      | none =>
        rcases mem_kv_put _ _ _ _ hx with h1 | h1
        · rw [h1] at hxne_a; exact absurd rfl hxne_a
        · exact h1
      | some t =>
        rcases mem_kv_put _ _ _ _ hx with h1 | h1
        · rw [h1] at hxne; exact absurd rfl hxne
        · rcases mem_kv_put _ _ _ _ h1 with h2 | h2
          · rw [h2] at hxne_a; exact absurd rfl hxne_a
          · exact h2
    have := h x hold hq
    rw [hrf] at this
    cases e with
    | none =>
      simp only [insert_entries]
      rw [kv_get_put_other _ _ _ _ hne_a]
      exact this
    | some t =>
      simp only [insert_entries]
      rw [kv_get_put_other _ _ _ _ hne_e, kv_get_put_other _ _ _ _ hne_a]
      exact this

theorem written_well_formed (cd : Codec) (st : impl) (k v : data)
    (e : Option expiration_time) (hrt : cd.round_trips) (h : st.well_formed cd) :
    (st.written cd k v e).well_formed cd := by
  cases hdb : st.db with
  | none =>
    apply well_formed_closed
    simp [impl.written, hdb]
  | some db =>
    obtain ⟨h1, h2, h3⟩ := well_formed_db cd st db hdb h
    apply well_formed_of_db cd _ { db with entries := insert_entries cd db.entries k v e }
    · simp [impl.written, hdb]
    · exact insert_entries_ordered cd db.entries k v e h1
    · exact insert_entries_canonical cd db.entries k v e (hrt.1 k) h2
    · exact insert_entries_no_orphan cd db k v e h3

theorem do_insert_well_formed (cd : Codec) (st : impl) (k v : data)
    (e : Option expiration_time) (hrt : cd.round_trips) (h : st.well_formed cd) :
    (do_insert cd st none k v e).2.well_formed cd := by
  cases hdb : st.db with
  | none =>
    apply well_formed_closed
    simp [do_insert, hdb, require_db]
  | some db =>
    have : (do_insert cd st none k v e).2 = st.written cd k v e := by
      simp [do_insert, hdb, insert_ok, require_ok, Status.ok, impl.written]
    rw [this]
    exact written_well_formed cd st k v e hrt h

theorem do_erase_well_formed (cd : Codec) (st : impl) (k : data)
    (h : st.well_formed cd) : (do_erase cd st none none k).2.well_formed cd := by
  cases hdb : st.db with
  | none =>
    apply well_formed_closed
    simp [do_erase, hdb, require_db]
  | some db =>
    obtain ⟨h1, h2, h3⟩ := well_formed_db cd st db hdb h
    obtain ⟨db0, hdb0, hst⟩ := do_erase_ok cd st none none k
      (do_erase_open cd st k (by simp [hdb]))
    rw [hdb] at hdb0
    simp only [Option.some.injEq] at hdb0
    subst hdb0
    rw [hst]
    apply well_formed_of_db cd _ _ rfl
    · exact kv_delete_ordered _ _ (kv_delete_ordered _ _ h1)
    · intro x hx
      simp only [mem_kv_delete] at hx
      exact h2 x hx.1.1
    · intro x hx hq
      simp only [mem_kv_delete] at hx
      obtain ⟨b, hb⟩ := (starts_with_single x.1 'e').1 hq
      have hrf : ('a' :: remove_first x.1) = 'a' :: b := by simp [hb, remove_first]
      have hbk : b ≠ cd.ser_data k := by
        intro hbk
        apply hx.2
        rw [hb, hbk, to_serial_key_eq]
      have := h3 x hx.1.1 hq
      simp only
      rw [hrf] at this ⊢
      rw [kv_get_delete_other _ _ _ (by rw [to_serial_key_eq]; simp),
        kv_get_delete_other _ _ _ (by rw [to_serial_key_eq]; simpa using hbk)]
      exact this

theorem do_clear_well_formed (cd : Codec) (st : impl) (env : ClearEnv) :
    (do_clear cd st env).2.well_formed cd := by
  by_cases hok : (do_clear cd st env).1 = true
  · obtain ⟨db, _, hdb2, _⟩ := do_clear_ok cd st env hok
    exact well_formed_of_db cd _ _ hdb2 (cleared_ordered cd) (cleared_canonical cd)
      (cleared_no_orphan cd db.name)
  · obtain ⟨df, opf, pf⟩ := env
    unfold do_clear at hok ⊢
    cases hdb : st.db with
    | none =>
      apply well_formed_closed
      simp [hdb, require_db]
    | some db =>
      simp only [hdb] at hok ⊢
      cases df with
      | some m =>
        apply well_formed_closed
        simp [DestroyDB, require_ok, Status.ok]
      | none =>
        cases opf with
        | some m =>
          apply well_formed_closed
          simp [DestroyDB, require_ok, Status.ok, rocksdb_backend_open, DB.Open]
        | none =>
          cases hc : st.options.create_if_missing with
          | false =>
            apply well_formed_closed
            simp [DestroyDB, require_ok, Status.ok, rocksdb_backend_open, DB.Open, hc]
          | true =>
            cases pf with
            | some m =>
              apply well_formed_of_db cd _ { name := db.name, entries := [] }
              · simp [DestroyDB, require_ok, Status.ok, rocksdb_backend_open, DB.Open, hc,
                  DB.Put]
              · exact List.Pairwise.nil
              · intro x hx; simp at hx
              · intro x hx; simp at hx
            | none =>
              simp [DestroyDB, require_ok, Status.ok, rocksdb_backend_open, DB.Open, hc,
                DB.Put] at hok

theorem init_entries_no_orphan (cd : Codec) (sss : snapshot) (name : String)
    (hrt : cd.round_trips) (hnd : umap_nodup sss.datastore) :
    DB.no_orphan { name := name, entries := init_entries cd sss } := by
  intro x hx hq
  simp only at hx ⊢
  have hg := (kv_get_eq_some_iff _ _ _ (init_entries_ordered cd sss)).2 hx
  have hm := init_entries_mem cd sss x.1 x.2 'e' (Or.inr rfl) hq hg
  rw [mem_init_batch] at hm
  obtain ⟨k, v, hkv, h⟩ := hm
  rcases h with ⟨h1, _⟩ | ⟨h1, _⟩
  · rw [h1, to_serial_key_eq, starts_with_cons] at hq
    simp at hq
  · have hrf : ('a' :: remove_first x.1) = to_serial_key cd k 'a' := by
      rw [h1]; simp [to_serial_key_eq, remove_first]
    rw [hrf, init_get_a cd sss hrt.1 hnd, umap_find_of_mem _ _ _ hnd hkv]
    rfl

theorem do_init_well_formed (cd : Codec) (st : impl) (sss : snapshot) (env : ClearEnv)
    (hrt : cd.round_trips) (hnd : umap_nodup sss.datastore) :
    (do_init cd st sss env none).2.well_formed cd := by
  by_cases hok : (do_init cd st sss env none).1 = true
  · obtain ⟨db, _, hdb2, _⟩ := do_init_ok cd st sss env none hok
    exact well_formed_of_db cd _ _ hdb2 (init_entries_ordered cd sss)
      (init_entries_canonical cd sss hrt.1) (init_entries_no_orphan cd sss db.name hrt hnd)
  · by_cases hc : (do_clear cd st env).1 = true
    · exfalso
      apply hok
      obtain ⟨db, _, hdb2, _⟩ := do_clear_ok cd st env hc
      simp [do_init, hc, hdb2, DB.Write, require_ok, Status.ok]
    · have : (do_init cd st sss env none).2 = (do_clear cd st env).2 := by
        simp [do_init, hc]
      rw [this]
      exact do_clear_well_formed cd st env

theorem opened_well_formed (cd : Codec) (st : impl) (db_path : String) (options : Options) :
    (rocksdb_backend_open cd st db_path options none none none).2.well_formed cd := by
  cases hc : options.create_if_missing with
  | false =>
    apply well_formed_closed
    simp [rocksdb_backend_open, DB.Open, hc, Status.ok]
  | true =>
    apply well_formed_of_db cd _ { name := db_path, entries := cleared_entries cd }
    · simp [rocksdb_backend_open, DB.Open, hc, Status.ok, DB.Put, cleared_entries]
    · exact cleared_ordered cd
    · exact cleared_canonical cd
    · exact cleared_no_orphan cd db_path

theorem last_error_well_formed (cd : Codec) (st : impl) (msg : String)
    (h : st.well_formed cd) : impl.well_formed cd { st with last_error := msg } := h

theorem lookup_with_expiry_closed (cd : Codec) (st : impl) (env : LookupEnv) (k : data)
    (h : st.db = none) :
    lookup_with_expiry cd st env k = (none, { st with last_error := "db not open" }) := by
  simp [lookup_with_expiry, h, require_db]

theorem do_increment_well_formed (cd : Codec) (st : impl) (env : LookupEnv) (k : data)
    (amount : Int) (hrt : cd.round_trips) (hreads : st.reads_ok cd k env)
    (h : st.well_formed cd) : (do_increment cd st env none k amount).2.well_formed cd := by
  cases hdb : st.db with
  | none =>
    apply well_formed_closed
    simp [do_increment, lookup_with_expiry_closed cd st env k hdb, hdb]
  | some db =>
    rw [do_increment_eq cd st env k amount (by simp [hdb]) hreads]
    cases st.stored cd k with
    | none => exact written_well_formed cd st k _ _ hrt h
    | some d =>
      simp only
      split
      · exact written_well_formed cd st k _ _ hrt h
      · exact h

theorem do_add_to_set_well_formed (cd : Codec) (st : impl) (env : LookupEnv) (k x : data)
    (hrt : cd.round_trips) (hreads : st.reads_ok cd k env)
    (h : st.well_formed cd) : (do_add_to_set cd st env none k x).2.well_formed cd := by
  cases hdb : st.db with
  | none =>
    apply well_formed_closed
    simp [do_add_to_set, lookup_with_expiry_closed cd st env k hdb, hdb]
  | some db =>
    rw [do_add_to_set_eq cd st env k x (by simp [hdb]) hreads]
    cases st.stored cd k with
    | none => exact written_well_formed cd st k _ _ hrt h
    | some d =>
      cases d with
      | set s => exact written_well_formed cd st k _ _ hrt h
      | _ => exact h

theorem do_remove_from_set_well_formed (cd : Codec) (st : impl) (env : LookupEnv)
    (k x : data) (hrt : cd.round_trips) (hreads : st.reads_ok cd k env)
    (h : st.well_formed cd) : (do_remove_from_set cd st env none k x).2.well_formed cd := by
  cases hdb : st.db with
  | none =>
    apply well_formed_closed
    simp [do_remove_from_set, lookup_with_expiry_closed cd st env k hdb, hdb]
  | some db =>
    rw [do_remove_from_set_eq cd st env k x (by simp [hdb]) hreads]
    cases st.stored cd k with
    | none => exact written_well_formed cd st k _ _ hrt h
    | some d =>
      cases d with
      | set s => exact written_well_formed cd st k _ _ hrt h
      | _ => exact h

/-- With a codec that round-trips, every state the backend reaches with the engine calls
succeeding satisfies the keyspace invariants. -/
theorem reachable_invariants (cd : Codec) (hrt : cd.round_trips) (st : impl)
    (h : Reachable cd st) : st.well_formed cd := by
  induction h with
  | opened threshold db_path options => exact opened_well_formed cd _ db_path options
  | increase_sequence st _ ih => exact ih
  | insert st k v e _ ih => exact do_insert_well_formed cd st k v e hrt ih
  | erase st k _ ih => exact do_erase_well_formed cd st k ih
  | clear st _ _ => exact do_clear_well_formed cd st _
  | init st sss _ hnd _ => exact do_init_well_formed cd st sss _ hrt hnd
  | increment st env k amount _ hreads ih =>
    exact do_increment_well_formed cd st env k amount hrt hreads ih
  | add_to_set st env k x _ hreads ih =>
    exact do_add_to_set_well_formed cd st env k x hrt hreads ih
  | remove_from_set st env k x _ hreads ih =>
    exact do_remove_from_set_well_formed cd st env k x hrt hreads ih

/-! # Facts about `size` and `keys` -/

theorem foldl_count (l : List (Bytes × Bytes)) (n : Nat) :
    l.foldl (fun m _ => m + 1) n = n + l.length := by
  induction l generalizing n with
  | nil => simp
  | cons e l ih => simp [ih]; omega

/-- An estimate above the threshold is returned as it is. -/
theorem do_size_estimate (st : impl) (n : Nat) (f : Option String)
    (hopen : st.db.isSome = true) (hn : st.exact_size_threshold < n) :
    do_size st (some n) f = (some n, st) := by
  cases hdb : st.db with
  | none => simp [hdb] at hopen
  | some db => simp [do_size, hdb, hn]

/-- Without an estimate above the threshold, `size` counts the entries of the scan. -/
theorem do_size_scan (st : impl) (estimate : Option Nat)
    (hopen : st.db.isSome = true)
    (hest : ∀ n, estimate = some n → n ≤ st.exact_size_threshold) :
    do_size st estimate none = (some st.exact_count, st) := by
  cases hdb : st.db with
  | none => simp [hdb] at hopen
  | some db =>
    cases estimate with
    | none =>
      simp [do_size, hdb, require_ok, iter_status, Status.ok, foldl_count, impl.exact_count]
    | some n =>
      have := hest n rfl
      have h2 : ¬ st.exact_size_threshold < n := by omega
      simp [do_size, hdb, h2, require_ok, iter_status, Status.ok, foldl_count,
        impl.exact_count]

theorem keys_loop_eq_append (cd : Codec) (l : List (Bytes × Bytes)) (acc : List data)
    (h : (acc ++ l.map (fun e => from_serial cd (remove_first e.1))).Nodup) :
    keys_loop cd l acc = acc ++ l.map (fun e => from_serial cd (remove_first e.1)) := by
  induction l generalizing acc with
  | nil => simp [keys_loop]
  | cons e rest ih =>
    have hstep : keys_loop cd (e :: rest) acc =
        keys_loop cd rest (uset_emplace acc (from_serial cd (remove_first e.1))) := by
      simp [keys_loop]
    have hnot : from_serial cd (remove_first e.1) ∉ acc := by
      intro hmem
      rw [List.nodup_append] at h
      exact h.2.2 hmem (by simp)
    have hu : uset_emplace acc (from_serial cd (remove_first e.1)) =
        acc ++ [from_serial cd (remove_first e.1)] := by
      simp [uset_emplace, hnot]
    rw [hstep, hu, ih]
    · simp
    · simpa using h

/-- In an ordered keyspace with canonical keys the entries of a scan decode to pairwise
different keys. -/
theorem scan_decode_nodup (cd : Codec) (db : DB) (c : Char) (hc : c = 'a' ∨ c = 'e')
    (hord : db.ordered) (hcan : db.canonical cd) :
    ((db.scan [c]).map (fun e => from_serial cd (remove_first e.1))).Nodup := by
  rw [List.Nodup, List.pairwise_map]
  have hp : (db.scan [c]).Pairwise (fun a b => bytes_lt a.1 b.1 = true) := by
    rw [scan_eq_filter db c hord]
    exact List.Pairwise.filter _ hord
  refine hp.imp_of_mem ?_
  intro a b ha hb hab heq
  have ha' := (mem_scan_iff db c hord a).1 ha
  have hb' := (mem_scan_iff db c hord b).1 hb
  obtain ⟨ra, hra⟩ := (starts_with_single a.1 c).1 ha'.2
  obtain ⟨rb, hrb⟩ := (starts_with_single b.1 c).1 hb'.2
  have hca := hcan a ha'.1
  have hcb := hcan b hb'.1
  rw [hra] at hca
  rw [hrb] at hcb
  have e1 := canonical_key_eq cd c ra _ hc hca rfl
  have e2 := canonical_key_eq cd c rb _ hc hcb rfl
  have hk : cd.de_data ra = cd.de_data rb := by
    simpa [hra, hrb, remove_first, from_serial] using heq
  rw [hra, hrb, e1, e2, hk, bytes_lt_irrefl] at hab
  exact absurd hab (by simp)

/-- In an ordered keyspace with canonical keys `keys()` lists each `'a'` entry once. -/
theorem do_keys_length (cd : Codec) (st : impl) (hopen : st.db.isSome = true)
    (hord : st.ordered) (hcan : st.canonical cd) :
    ∃ ks, (do_keys cd st none).1 = some ks ∧ ks.length = st.exact_count ∧ ks.Nodup := by
  cases hdb : st.db with
  | none => simp [hdb] at hopen
  | some db =>
    simp only [impl.ordered, impl.canonical, hdb] at hord hcan
    have hnd := scan_decode_nodup cd db 'a' (Or.inl rfl) hord hcan
    rw [do_keys_eq cd st db hdb]
    refine ⟨_, rfl, ?_, ?_⟩
    · rw [keys_loop_eq_append cd _ [] (by simpa using hnd)]
      simp [impl.exact_count, hdb]
    · rw [keys_loop_eq_append cd _ [] (by simpa using hnd)]
      simpa using hnd

theorem exact_count_eq_a_entries (st : impl) (hord : st.ordered) :
    st.exact_count = st.a_entries := by
  cases hdb : st.db with
  | none => simp [impl.exact_count, impl.a_entries, hdb]
  | some db =>
    simp only [impl.ordered, hdb] at hord
    simp [impl.exact_count, impl.a_entries, hdb, scan_eq_filter db 'a' hord]

/-! # Facts about the cleared keyspace -/

theorem cleared_entries_eq (cd : Codec) :
    cleared_entries cd = [(metadata_key, version_string cd)] := rfl

theorem cleared_scan (cd : Codec) (name : String) (c : Char) (hc : c = 'a' ∨ c = 'e') :
    DB.scan { name := name, entries := cleared_entries cd } [c] = [] := by
  rw [List.eq_nil_iff_forall_not_mem]
  intro x hx
  have h := mem_scan_imp _ _ _ hx
  simp only [cleared_entries_eq, List.mem_singleton] at h
  rw [h.1, metadata_key_eq, starts_with_cons] at h
  simp only [decide_eq_true_eq] at h
  rcases hc with hc | hc <;> · rw [hc] at h; exact absurd h.2 (by decide)

theorem cleared_get_none (cd : Codec) (key : Bytes)
    (hkey : starts_with key ['a'] = true ∨ starts_with key ['e'] = true) :
    kv_get (cleared_entries cd) key = none := by
  have hne : ¬ metadata_key = key := by
    intro h
    rw [← h, metadata_key_eq, starts_with_cons, starts_with_cons] at hkey
    simp only [decide_eq_true_eq] at hkey
    rcases hkey with h1 | h1 <;> exact absurd h1 (by decide)
  simp [cleared_entries_eq, kv_get, hne]

theorem cleared_get_metadata (cd : Codec) :
    kv_get (cleared_entries cd) metadata_key = some (version_string cd) := by
  simp [cleared_entries_eq, kv_get]

/-! # The layout of the keyspace in reachable states -/

theorem mem_kv_put_of_mem (es : List (Bytes × Bytes)) (k v : Bytes) (e : Bytes × Bytes)
    (h : e ∈ es) (hne : e.1 ≠ k) : e ∈ kv_put es k v := by
  induction es with
  | nil => simp at h
  | cons e0 es ih =>
    obtain ⟨k', v'⟩ := e0
    simp only [kv_put]
    split
    · exact List.mem_cons_of_mem _ h
    · split
      · rename_i heq
        rcases List.mem_cons.1 h with h1 | h1
        · rw [h1] at hne
          exact absurd heq hne
        · exact List.mem_cons_of_mem _ h1
      · rcases List.mem_cons.1 h with h1 | h1
        · rw [h1]; exact List.mem_cons_self _ _
        · exact List.mem_cons_of_mem _ (ih h1)

theorem mem_foldl_put_of_mem (batch es : List (Bytes × Bytes)) (e : Bytes × Bytes)
    (h : e ∈ es) (hne : ∀ r ∈ batch, e.1 ≠ r.1) :
    e ∈ batch.foldl (fun es r => kv_put es r.1 r.2) es := by
  induction batch generalizing es with
  | nil => simpa using h
  | cons r rest ih =>
    simp only [List.foldl_cons]
    exact ih _ (mem_kv_put_of_mem es r.1 r.2 e h (hne r (List.mem_cons_self _ _)))
      (fun x hx => hne x (List.mem_cons_of_mem _ hx))

theorem kv_get_foldl_put_isSome (batch es : List (Bytes × Bytes)) (key : Bytes)
    (h : ∃ r ∈ batch, r.1 = key) :
    (kv_get (batch.foldl (fun es r => kv_put es r.1 r.2) es) key).isSome = true := by
  induction batch generalizing es with
  | nil => simp at h
  | cons r rest ih =>
    simp only [List.foldl_cons]
    by_cases hrest : ∃ x ∈ rest, x.1 = key
    · exact ih _ hrest
    · have hr : r.1 = key := by
        obtain ⟨x, hx, hxk⟩ := h
        rcases List.mem_cons.1 hx with h1 | h1
        · rw [← h1]; exact hxk
        · exact absurd ⟨x, h1, hxk⟩ hrest
      rw [kv_get_foldl_put_other _ _ _ (fun x hx hxk => hrest ⟨x, hx, hxk⟩), ← hr,
        kv_get_put_same]
      rfl

theorem metadata_not_category (c : Char) (hc : c = 'a' ∨ c = 'e') :
    starts_with metadata_key [c] = false := by
  rw [metadata_key_eq, starts_with_cons]
  rcases hc with hc | hc <;> · rw [hc]; decide

theorem cleared_layout (cd : Codec) (name : String) :
    DB.layout cd { name := name, entries := cleared_entries cd } := by
  refine ⟨cleared_no_orphan cd name, ?_, ?_⟩
  · intro e he
    simp only [cleared_entries_eq, List.mem_singleton] at he
    exact Or.inr (Or.inr he)
  · simp [cleared_entries_eq]

theorem insert_entries_layout (cd : Codec) (db : DB) (k v : data)
    (e : Option expiration_time) (h : db.layout cd) :
    DB.layout cd { db with entries := insert_entries cd db.entries k v e } := by
  obtain ⟨h1, h2, h3⟩ := h
  have ha : starts_with (to_serial_key cd k 'a') ['a'] = true := by
    rw [to_serial_key_eq, starts_with_cons]; simp
  have he : starts_with (to_serial_key cd k 'e') ['e'] = true := by
    rw [to_serial_key_eq, starts_with_cons]; simp
  refine ⟨insert_entries_no_orphan cd db k v e h1, ?_, ?_⟩
  · intro x hx
    simp only at hx
    cases e with
    | none =>
      rcases mem_kv_put _ _ _ _ hx with hx | hx
      · rw [hx]; exact Or.inl ha
      · exact h2 x hx
    | some t =>
      rcases mem_kv_put _ _ _ _ hx with hx | hx
      · rw [hx]; exact Or.inr (Or.inl he)
      · rcases mem_kv_put _ _ _ _ hx with hx | hx
        · rw [hx]; exact Or.inl ha
        · exact h2 x hx
  · simp only
    cases e with
    | none =>
      exact mem_kv_put_of_mem _ _ _ _ h3 (fun h => (metadata_key_ne cd k 'a' (Or.inl rfl)) h.symm)
    | some t =>
      exact mem_kv_put_of_mem _ _ _ _
        (mem_kv_put_of_mem _ _ _ _ h3
          (fun h => (metadata_key_ne cd k 'a' (Or.inl rfl)) h.symm))
        (fun h => (metadata_key_ne cd k 'e' (Or.inr rfl)) h.symm)

theorem erase_entries_no_orphan (cd : Codec) (db : DB) (k : data) (h : db.no_orphan) :
    DB.no_orphan { db with entries :=
      (kv_delete (kv_delete db.entries (to_serial_key cd k 'a')) (to_serial_key cd k 'e')) } := by
  intro x hx hq
  simp only [mem_kv_delete] at hx
  obtain ⟨b, hb⟩ := (starts_with_single x.1 'e').1 hq
  have hrf : ('a' :: remove_first x.1) = 'a' :: b := by simp [hb, remove_first]
  have hbk : b ≠ cd.ser_data k := by
    intro hbk
    apply hx.2
    rw [hb, hbk, to_serial_key_eq]
  have := h x hx.1.1 hq
  simp only
  rw [hrf] at this ⊢
  rw [kv_get_delete_other _ _ _ (by rw [to_serial_key_eq]; simp),
    kv_get_delete_other _ _ _ (by rw [to_serial_key_eq]; simpa using hbk)]
  exact this

theorem erase_entries_layout (cd : Codec) (db : DB) (k : data) (h : db.layout cd) :
    DB.layout cd { db with entries :=
      (kv_delete (kv_delete db.entries (to_serial_key cd k 'a')) (to_serial_key cd k 'e')) } := by
  obtain ⟨h1, h2, h3⟩ := h
  refine ⟨erase_entries_no_orphan cd db k h1, ?_, ?_⟩
  · intro x hx
    simp only [mem_kv_delete] at hx
    exact h2 x hx.1.1
  · simp only [mem_kv_delete]
    exact ⟨⟨h3, fun h => (metadata_key_ne cd k 'a' (Or.inl rfl)) h.symm⟩,
      fun h => (metadata_key_ne cd k 'e' (Or.inr rfl)) h.symm⟩

theorem init_entries_layout (cd : Codec) (sss : snapshot) (name : String) :
    DB.layout cd { name := name, entries := init_entries cd sss } := by
  have hbatch : ∀ x ∈ init_batch cd sss.datastore, ∃ k,
      x.1 = to_serial_key cd k 'a' ∨
      (x.1 = to_serial_key cd k 'e' ∧ ∃ y ∈ init_batch cd sss.datastore,
        y.1 = to_serial_key cd k 'a') := by
    intro x hx
    obtain ⟨key, val⟩ := x
    have hx' := hx
    rw [mem_init_batch] at hx
    obtain ⟨k, v, hkv, h⟩ := hx
    refine ⟨k, ?_⟩
    rcases h with ⟨h1, _⟩ | ⟨h1, _⟩
    · exact Or.inl h1
    · refine Or.inr ⟨h1, (to_serial_key cd k 'a', cd.ser_data v.item), ?_, rfl⟩
      rw [mem_init_batch]
      exact ⟨k, v, hkv, Or.inl ⟨rfl, rfl⟩⟩
  refine ⟨?_, ?_, ?_⟩
  · intro x hx hq
    simp only at hx ⊢
    rcases mem_foldl_put _ _ _ hx with h1 | h1
    · obtain ⟨k, hk⟩ := hbatch x h1
      rcases hk with hk | ⟨hk, y, hy, hyk⟩
      · rw [hk, to_serial_key_eq, starts_with_cons] at hq
        simp at hq
      · have hrf : ('a' :: remove_first x.1) = to_serial_key cd k 'a' := by
          rw [hk]; simp [to_serial_key_eq, remove_first]
        rw [hrf]
        exact kv_get_foldl_put_isSome _ _ _ ⟨y, hy, hyk⟩
    · simp only [cleared_entries_eq, List.mem_singleton] at h1
      rw [h1, metadata_not_category 'e' (Or.inr rfl)] at hq
      exact absurd hq (by simp)
  · intro x hx
    simp only at hx
    rcases mem_foldl_put _ _ _ hx with h1 | h1
    · obtain ⟨k, hk⟩ := hbatch x h1
      rcases hk with hk | ⟨hk, _⟩
      · left; rw [hk, to_serial_key_eq, starts_with_cons]; simp
      · right; left; rw [hk, to_serial_key_eq, starts_with_cons]; simp
    · simp only [cleared_entries_eq, List.mem_singleton] at h1
      exact Or.inr (Or.inr h1)
  · simp only
    apply mem_foldl_put_of_mem
    · simp [cleared_entries_eq]
    · intro r hr heq
      obtain ⟨k, hk⟩ := hbatch r hr
      simp only at heq
      rcases hk with hk | ⟨hk, _⟩
      · exact metadata_key_ne cd k 'a' (Or.inl rfl) (hk ▸ heq.symm)
      · exact metadata_key_ne cd k 'e' (Or.inr rfl) (hk ▸ heq.symm)

theorem layout_closed (cd : Codec) (st : impl) (h : st.db = none) : st.layout cd := by
  simp [impl.layout, h]

theorem written_layout (cd : Codec) (st : impl) (k v : data) (e : Option expiration_time)
    (h : st.layout cd) : (st.written cd k v e).layout cd := by
  cases hdb : st.db with
  | none => simp [impl.written, impl.layout, hdb]
  | some db =>
    simp only [impl.layout, hdb] at h
    simp only [impl.written, impl.layout, hdb]
    exact insert_entries_layout cd db k v e h

theorem do_insert_layout (cd : Codec) (st : impl) (k v : data) (e : Option expiration_time)
    (h : st.layout cd) : (do_insert cd st none k v e).2.layout cd := by
  cases hdb : st.db with
  | none =>
    apply layout_closed
    simp [do_insert, hdb, require_db]
  | some db =>
    have : (do_insert cd st none k v e).2 = st.written cd k v e := by
      simp [do_insert, hdb, insert_ok, require_ok, Status.ok, impl.written]
    rw [this]
    exact written_layout cd st k v e h

theorem do_erase_layout (cd : Codec) (st : impl) (k : data) (h : st.layout cd) :
    (do_erase cd st none none k).2.layout cd := by
  cases hdb : st.db with
  | none =>
    apply layout_closed
    simp [do_erase, hdb, require_db]
  | some db =>
    obtain ⟨db0, hdb0, hst⟩ := do_erase_ok cd st none none k
      (do_erase_open cd st k (by simp [hdb]))
    rw [hdb] at hdb0
    simp only [Option.some.injEq] at hdb0
    subst hdb0
    rw [hst]
    simp only [impl.layout, hdb] at h ⊢
    exact erase_entries_layout cd db k h

theorem do_clear_layout (cd : Codec) (st : impl) :
    (do_clear cd st ⟨none, none, none⟩).2.layout cd := by
  by_cases hok : (do_clear cd st ⟨none, none, none⟩).1 = true
  · obtain ⟨db, _, hdb2, _⟩ := do_clear_ok cd st _ hok
    simp only [impl.layout, hdb2]
    exact cleared_layout cd db.name
  · apply layout_closed
    unfold do_clear at hok ⊢
    cases hdb : st.db with
    | none => simp [hdb, require_db]
    | some db =>
      simp only [hdb] at hok ⊢
      cases hc : st.options.create_if_missing with
      | false =>
        simp [DestroyDB, require_ok, Status.ok, rocksdb_backend_open, DB.Open, hc]
      | true =>
        simp [DestroyDB, require_ok, Status.ok, rocksdb_backend_open, DB.Open, hc,
          DB.Put] at hok

theorem do_init_layout (cd : Codec) (st : impl) (sss : snapshot) :
    (do_init cd st sss ⟨none, none, none⟩ none).2.layout cd := by
  by_cases hok : (do_init cd st sss ⟨none, none, none⟩ none).1 = true
  · obtain ⟨db, _, hdb2, _⟩ := do_init_ok cd st sss _ none hok
    simp only [impl.layout, hdb2]
    exact init_entries_layout cd sss db.name
  · by_cases hc : (do_clear cd st ⟨none, none, none⟩).1 = true
    · exfalso
      apply hok
      obtain ⟨db, _, hdb2, _⟩ := do_clear_ok cd st _ hc
      simp [do_init, hc, hdb2, DB.Write, require_ok, Status.ok]
    · have : (do_init cd st sss ⟨none, none, none⟩ none).2 =
          (do_clear cd st ⟨none, none, none⟩).2 := by
        simp [do_init, hc]
      rw [this]
      exact do_clear_layout cd st

theorem opened_layout (cd : Codec) (st : impl) (db_path : String) (options : Options) :
    (rocksdb_backend_open cd st db_path options none none none).2.layout cd := by
  cases hc : options.create_if_missing with
  | false =>
    apply layout_closed
    simp [rocksdb_backend_open, DB.Open, hc, Status.ok]
  | true =>
    have : (rocksdb_backend_open cd st db_path options none none none).2.db =
        some { name := db_path, entries := cleared_entries cd } := by
      simp [rocksdb_backend_open, DB.Open, hc, Status.ok, DB.Put, cleared_entries]
    simp only [impl.layout, this]
    exact cleared_layout cd db_path

theorem do_increment_layout (cd : Codec) (st : impl) (env : LookupEnv) (k : data)
    (amount : Int) (hreads : st.reads_ok cd k env) (h : st.layout cd) :
    (do_increment cd st env none k amount).2.layout cd := by
  cases hdb : st.db with
  | none =>
    apply layout_closed
    simp [do_increment, lookup_with_expiry_closed cd st env k hdb, hdb]
  | some db =>
    rw [do_increment_eq cd st env k amount (by simp [hdb]) hreads]
    cases st.stored cd k with
    | none => exact written_layout cd st k _ _ h
    | some d =>
      simp only
      split
      · exact written_layout cd st k _ _ h
      · exact h

theorem do_add_to_set_layout (cd : Codec) (st : impl) (env : LookupEnv) (k x : data)
    (hreads : st.reads_ok cd k env) (h : st.layout cd) :
    (do_add_to_set cd st env none k x).2.layout cd := by
  cases hdb : st.db with
  | none =>
    apply layout_closed
    simp [do_add_to_set, lookup_with_expiry_closed cd st env k hdb, hdb]
  | some db =>
    rw [do_add_to_set_eq cd st env k x (by simp [hdb]) hreads]
    cases st.stored cd k with
    | none => exact written_layout cd st k _ _ h
    | some d =>
      cases d with
      | set s => exact written_layout cd st k _ _ h
      | _ => exact h

theorem do_remove_from_set_layout (cd : Codec) (st : impl) (env : LookupEnv) (k x : data)
    (hreads : st.reads_ok cd k env) (h : st.layout cd) :
    (do_remove_from_set cd st env none k x).2.layout cd := by
  cases hdb : st.db with
  | none =>
    apply layout_closed
    simp [do_remove_from_set, lookup_with_expiry_closed cd st env k hdb, hdb]
  | some db =>
    rw [do_remove_from_set_eq cd st env k x (by simp [hdb]) hreads]
    cases st.stored cd k with
    | none => exact written_layout cd st k _ _ h
    | some d =>
      cases d with
      | set s => exact written_layout cd st k _ _ h
      | _ => exact h

/-! # The frame of the operations on one key -/

theorem same_but_of_db (cd : Codec) (st st2 : impl) (k : data) (h : st2.db = st.db) :
    same_but cd st st2 k := by
  intro key _ _
  simp [impl.raw, h]

theorem same_but_written (cd : Codec) (st st2 : impl) (k v : data)
    (e : Option expiration_time) (h : st2.db = (st.written cd k v e).db) :
    same_but cd st st2 k := by
  intro key h1 h2
  simp only [impl.raw, h]
  cases hdb : st.db with
  | none => simp [impl.written, hdb]
  | some db =>
    cases e with
    | none =>
      simp only [impl.written, hdb, insert_entries]
      rw [kv_get_put_other _ _ _ _ h1]
    | some t =>
      simp only [impl.written, hdb, insert_entries]
      rw [kv_get_put_other _ _ _ _ h2, kv_get_put_other _ _ _ _ h1]

theorem stored_eq_raw (cd : Codec) (st : impl) (k : data) :
    st.stored cd k = (st.raw (to_serial_key cd k 'a')).map (from_serial cd) := by
  cases hdb : st.db <;> simp [impl.stored, impl.raw, hdb]

theorem stored_expiry_eq_raw (cd : Codec) (st : impl) (k : data) :
    st.stored_expiry cd k = (st.raw (to_serial_key cd k 'e')).map (from_serial_time cd) := by
  cases hdb : st.db <;> simp [impl.stored_expiry, impl.raw, hdb]

/-- With an injective key encoding, a change confined to the entries of `k` keeps the
value and the expiration of every other key and the metadata record. -/
theorem frame_of_same_but (cd : Codec) (st st2 : impl) (k k2 : data)
    (hinj : Function.Injective cd.ser_data) (hne : k2 ≠ k) (h : same_but cd st st2 k) :
    frame_kept cd st st2 k k2 := by
  have hk : ∀ c d : Char, to_serial_key cd k2 c ≠ to_serial_key cd k d := by
    intro c d heq
    simp only [to_serial_key_eq, List.cons.injEq] at heq
    exact hne (hinj heq.2)
  refine ⟨h, ?_, ?_, ?_⟩
  · rw [stored_eq_raw, stored_eq_raw, h _ (hk 'a' 'a') (hk 'a' 'e')]
  · rw [stored_expiry_eq_raw, stored_expiry_eq_raw, h _ (hk 'e' 'a') (hk 'e' 'e')]
  · exact h metadata_key (fun heq => metadata_key_ne cd k 'a' (Or.inl rfl) heq.symm)
      (fun heq => metadata_key_ne cd k 'e' (Or.inr rfl) heq.symm)

theorem require_ok_db (st : impl) (s : Status) : (require_ok st s).2.db = st.db := by
  unfold require_ok
  split <;> rfl

theorem require_db_db (st : impl) : (require_db st).2.db = st.db := by
  unfold require_db
  split <;> rfl

theorem lookup_with_expiry_db (cd : Codec) (st : impl) (env : LookupEnv) (k : data) :
    (lookup_with_expiry cd st env k).2.db = st.db := by
  unfold lookup_with_expiry
  split
  · exact require_db_db st
  · simp only
    repeat' split
    all_goals simp only [require_ok_db]

/-- The state a write of `insert` through `require_ok` leaves: the old keyspace when the
engine fails, the keyspace with the entries of `insert` written otherwise. -/
theorem insert_step_db (cd : Codec) (st : impl) (db : DB) (wf : Option String)
    (k v : data) (e : Option expiration_time) (hdb : st.db = some db) :
    (require_ok { st with db := some (insert cd db wf k v e).2 }
        (insert cd db wf k v e).1).2.db = st.db ∨
    (require_ok { st with db := some (insert cd db wf k v e).2 }
        (insert cd db wf k v e).1).2.db = (st.written cd k v e).db := by
  cases wf with
  | some m =>
    left
    simp [insert_fail, require_ok, Status.ok, hdb]
  | none =>
    right
    simp [insert_ok, require_ok, Status.ok, impl.written, hdb]

theorem same_but_insert_step (cd : Codec) (st st1 : impl) (db : DB) (wf : Option String)
    (k v : data) (e : Option expiration_time) (h1 : st1.db = st.db) (hdb : st1.db = some db) :
    same_but cd st
      (require_ok { st1 with db := some (insert cd db wf k v e).2 }
        (insert cd db wf k v e).1).2 k := by
  have hdb0 : st.db = some db := h1 ▸ hdb
  have hw : (st1.written cd k v e).db = (st.written cd k v e).db := by
    simp [impl.written, hdb, hdb0]
  rcases insert_step_db cd st1 db wf k v e hdb with h | h
  · exact same_but_of_db cd st _ k (h.trans h1)
  · exact same_but_written cd st _ k v e (h.trans hw)

theorem do_insert_same_but (cd : Codec) (st : impl) (wf : Option String) (k v : data)
    (e : Option expiration_time) : same_but cd st (do_insert cd st wf k v e).2 k := by
  unfold do_insert
  cases hdb : st.db with
  | none => exact same_but_of_db cd st _ k (by simp [require_db, hdb])
  | some db => exact same_but_insert_step cd st st db wf k v e rfl hdb

theorem do_erase_same_but (cd : Codec) (st : impl) (fa fe : Option String) (k : data) :
    same_but cd st (do_erase cd st fa fe k).2 k := by
  intro key h1 h2
  unfold do_erase
  cases hdb : st.db with
  | none => simp [impl.raw, require_db, hdb]
  | some db =>
    cases fa with
    | some m => simp [impl.raw, DB.Delete, require_ok, Status.ok, hdb]
    | none =>
      cases fe with
      | some m =>
        simp only [impl.raw, DB.Delete, require_ok, Status.ok, hdb, if_true,
          set_zero_to_serial_key, not_true_eq_false, if_false, Bool.false_eq_true]
        exact kv_get_delete_other _ _ _ h1
      | none =>
        simp only [impl.raw, DB.Delete, require_ok, Status.ok, hdb, if_true,
          set_zero_to_serial_key, not_true_eq_false, if_false]
        rw [kv_get_delete_other _ _ _ h2, kv_get_delete_other _ _ _ h1]

theorem same_but_last_error (cd : Codec) (st st1 : impl) (k : data) (msg : String)
    (h1 : st1.db = st.db) : same_but cd st { st1 with last_error := msg } k :=
  same_but_of_db cd st _ k h1

theorem do_increment_same_but (cd : Codec) (st : impl) (env : LookupEnv)
    (wf : Option String) (k : data) (amount : Int) :
    same_but cd st (do_increment cd st env wf k amount).2 k := by
  unfold do_increment
  have hrdb := lookup_with_expiry_db cd st env k
  generalize lookup_with_expiry cd st env k = r at hrdb
  obtain ⟨r1, r2⟩ := r
  simp only at hrdb ⊢
  cases r1 with
  | none => exact same_but_of_db cd st _ k hrdb
  | some o =>
    cases o with
    | none =>
      cases hdb : r2.db with
      | none => exact same_but_of_db cd st _ k hrdb
      | some db =>
        simp only
        split
        · exact same_but_insert_step cd st r2 db wf k _ _ hrdb hdb
        · exact same_but_insert_step cd st r2 db wf k _ _ hrdb hdb
    | some val =>
      simp only
      split
      · exact same_but_last_error cd st r2 k _ hrdb
      · cases hdb : r2.db with
        | none => exact same_but_of_db cd st _ k hrdb
        | some db =>
          simp only
          split
          · exact same_but_insert_step cd st r2 db wf k _ _ hrdb hdb
          · exact same_but_insert_step cd st r2 db wf k _ _ hrdb hdb

theorem do_add_to_set_same_but (cd : Codec) (st : impl) (env : LookupEnv)
    (wf : Option String) (k x : data) :
    same_but cd st (do_add_to_set cd st env wf k x).2 k := by
  unfold do_add_to_set
  have hrdb := lookup_with_expiry_db cd st env k
  generalize lookup_with_expiry cd st env k = r at hrdb
  obtain ⟨r1, r2⟩ := r
  simp only at hrdb ⊢
  cases r1 with
  | none => exact same_but_of_db cd st _ k hrdb
  | some o =>
    cases o with
    | none =>
      cases hdb : r2.db with
      | none => exact same_but_of_db cd st _ k hrdb
      | some db =>
        simp only
        split
        · exact same_but_insert_step cd st r2 db wf k _ _ hrdb hdb
        · exact same_but_insert_step cd st r2 db wf k _ _ hrdb hdb
    | some val =>
      obtain ⟨item, expiry⟩ := val
      cases item with
      | set s =>
        cases hdb : r2.db with
        | none => exact same_but_of_db cd st _ k hrdb
        | some db =>
          simp only
          split
          · exact same_but_insert_step cd st r2 db wf k _ _ hrdb hdb
          · exact same_but_insert_step cd st r2 db wf k _ _ hrdb hdb
      | _ => exact same_but_last_error cd st r2 k _ hrdb

theorem do_remove_from_set_same_but (cd : Codec) (st : impl) (env : LookupEnv)
    (wf : Option String) (k x : data) :
    same_but cd st (do_remove_from_set cd st env wf k x).2 k := by
  unfold do_remove_from_set
  have hrdb := lookup_with_expiry_db cd st env k
  generalize lookup_with_expiry cd st env k = r at hrdb
  obtain ⟨r1, r2⟩ := r
  simp only at hrdb ⊢
  cases r1 with
  | none => exact same_but_of_db cd st _ k hrdb
  | some o =>
    cases o with
    | none =>
      cases hdb : r2.db with
      | none => exact same_but_of_db cd st _ k hrdb
      | some db =>
        simp only
        split
        · exact same_but_insert_step cd st r2 db wf k _ _ hrdb hdb
        · exact same_but_insert_step cd st r2 db wf k _ _ hrdb hdb
    | some val =>
      obtain ⟨item, expiry⟩ := val
      cases item with
      | set s =>
        cases hdb : r2.db with
        | none => exact same_but_of_db cd st _ k hrdb
        | some db =>
          simp only
          split
          · exact same_but_insert_step cd st r2 db wf k _ _ hrdb hdb
          · exact same_but_insert_step cd st r2 db wf k _ _ hrdb hdb
      | _ => exact same_but_last_error cd st r2 k _ hrdb

/-! # The claims -/

/-- C1: when `insert(k, v, none)` succeeds and the codec round-trips `v`, a following
`lookup(k)` returns `Some(Some(v))`, whatever the `KeyMayExist` probe answers within its
contract (the `Get` that may follow the probe reporting no engine failure). -/
theorem insert_then_lookup (cd : Codec) (st : impl) (fault : Option String) (k v : data)
    (env : ReadEnv)
    (hins : (do_insert cd st fault k v none).1 = true)
    (hrt : cd.de_data (cd.ser_data v) = v)
    (hread : (do_insert cd st fault k v none).2.read_ok (to_serial_key cd k 'a') env) :
    (do_lookup cd (do_insert cd st fault k v none).2 env k).1 = some (some v) := by
  obtain ⟨db, hdb, hst⟩ := do_insert_ok cd st fault k v none hins
  rw [hst] at hread ⊢
  simp only [impl.read_ok, impl.probe_ok] at hread
  rw [do_lookup_eq cd _ _ env k rfl hread.1 hread.2]
  simp [insert_entries_get_a, from_serial, hrt]

/-- Witness of C1: on a freshly opened store, `insert("x", 42)` succeeds and `lookup("x")`
returns `Some(Some(42))`. -/
theorem insert_then_lookup_witness :
    (do_insert codec0 fresh_store none key_x (data.integer 42) none).1 = true ∧
    (do_lookup codec0 (do_insert codec0 fresh_store none key_x (data.integer 42) none).2
      plain_read key_x).1 = some (some (data.integer 42)) :=
  ⟨by decide,
   insert_then_lookup codec0 fresh_store none key_x (data.integer 42) plain_read
    (by decide) (by decide) (by decide)⟩

/-- C2: when `erase(k)` succeeds on a backend whose keyspace has canonical keys, the `'a'`
and the `'e'` entry of `k` are gone: `lookup(k)` returns `Some(None)` and `exists(k)`
returns `Some(false)` (for every engine behaviour that serves the read: a probe answer
within the contract, `Get` not failing),
and `k` is in neither `keys()` nor `expiries()`.  On every open backend `erase` succeeds
when the two deletes report no failure, whether `k` has entries or not. -/
theorem erase_removes_key (cd : Codec) (st : impl) (fault_a fault_e : Option String)
    (k : data) (env : ReadEnv)
    (hcan : st.canonical cd)
    (hok : (do_erase cd st fault_a fault_e k).1 = true)
    (hread : (do_erase cd st fault_a fault_e k).2.read_ok (to_serial_key cd k 'a') env) :
    (∃ db, (do_erase cd st fault_a fault_e k).2.db = some db ∧
      kv_get db.entries (to_serial_key cd k 'a') = none ∧
      kv_get db.entries (to_serial_key cd k 'e') = none) ∧
    (do_lookup cd (do_erase cd st fault_a fault_e k).2 env k).1 = some none ∧
    (do_exists cd (do_erase cd st fault_a fault_e k).2 env k).1 = some false ∧
    (∃ ks, (do_keys cd (do_erase cd st fault_a fault_e k).2 none).1 = some ks ∧ k ∉ ks) ∧
    (∃ xs, (do_expiries cd (do_erase cd st fault_a fault_e k).2 none).1 = some xs ∧
      ∀ x ∈ xs, x.key ≠ k) ∧
    (∀ st0 : impl, st0.db.isSome = true → (do_erase cd st0 none none k).1 = true) := by
  obtain ⟨db, hdb, hst⟩ := do_erase_ok cd st fault_a fault_e k hok
  rw [hst] at hread ⊢
  simp only [impl.read_ok, impl.probe_ok] at hread
  obtain ⟨hp, hg⟩ := hread
  simp only [impl.canonical, hdb] at hcan
  have hae : to_serial_key cd k 'a' ≠ to_serial_key cd k 'e' :=
    to_serial_key_ne cd k k 'a' 'e' (by decide)
  have hga : kv_get (kv_delete (kv_delete db.entries (to_serial_key cd k 'a'))
      (to_serial_key cd k 'e')) (to_serial_key cd k 'a') = none := by
    rw [kv_get_delete_other _ _ _ hae, kv_get_delete_same]
  have hgone : ∀ (c : Char) (e : Bytes × Bytes), (c = 'a' ∨ c = 'e') →
      e ∈ kv_delete (kv_delete db.entries (to_serial_key cd k 'a')) (to_serial_key cd k 'e') →
      starts_with e.1 [c] = true → from_serial cd (remove_first e.1) ≠ k := by
    intro c e hc hmem hsw hk
    rw [mem_kv_delete, mem_kv_delete] at hmem
    obtain ⟨b, hb⟩ := (starts_with_single e.1 c).1 hsw
    have hcanon := hcan e hmem.1.1
    rw [hb] at hcanon
    have hkey := canonical_key_eq cd c b k hc hcanon (by simpa [hb, remove_first, from_serial] using hk)
    rw [← hb] at hkey
    rcases hc with hc | hc
    · exact hmem.1.2 (hc ▸ hkey)
    · exact hmem.2 (hc ▸ hkey)
  refine ⟨⟨_, rfl, hga, kv_get_delete_same _ _⟩, ?_, ?_, ?_, ?_, ?_⟩
  · rw [do_lookup_eq cd _ _ env k rfl hp hg]
    simp [hga]
  · rw [do_exists_eq cd _ _ env k rfl hp hg]
    simp [hga]
  · rw [do_keys_eq cd _ _ rfl]
    refine ⟨_, rfl, ?_⟩
    intro hmem
    rw [mem_keys_loop] at hmem
    rcases hmem with hmem | ⟨e, he, hk⟩
    · simp at hmem
    · have := mem_scan_imp _ _ _ he
      exact hgone 'a' e (Or.inl rfl) this.1 this.2 hk
  · rw [do_expiries_eq cd _ _ rfl]
    refine ⟨_, rfl, ?_⟩
    intro x hx hk
    rw [List.mem_map] at hx
    obtain ⟨e, he, rfl⟩ := hx
    have := mem_scan_imp _ _ _ he
    exact hgone 'e' e (Or.inr rfl) this.1 this.2 hk
  · exact fun st0 h => do_erase_open cd st0 k h

/-- Witness of C2: erasing `"x"` from the store that holds `"x"` with an expiration. -/
theorem erase_removes_key_witness :
    store_x.canonical codec0 ∧
    (do_erase codec0 store_x none none key_x).1 = true ∧
    (do_lookup codec0 (do_erase codec0 store_x none none key_x).2 plain_read key_x).1
      = some none ∧
    (do_exists codec0 (do_erase codec0 store_x none none key_x).2 plain_read key_x).1
      = some false :=
  have h := erase_removes_key codec0 store_x none none key_x plain_read
    (by decide) (by decide) (by decide)
  ⟨by decide, by decide, h.2.1, h.2.2.1⟩

/-- C3: after `insert(k, v, Some(t))` succeeds on a backend whose keyspace is ordered with
canonical keys (the codec round-tripping `k`, `v` and `t`, the engine serving the reads),
`lookup(k)` returns `Some(Some(v))`, `lookup_with_expiry(k)` returns the item
`{v, Some(t)}`, `expiries()` contains the pair `(k, t)` and `snap()` maps `k` to
`{v, Some(t)}`. -/
theorem insert_with_expiry_retrievable (cd : Codec) (st : impl) (fault : Option String)
    (k v : data) (t : expiration_time) (renv : ReadEnv) (lenv : LookupEnv)
    (hord : st.ordered) (hcan : st.canonical cd)
    (hrk : cd.de_data (cd.ser_data k) = k) (hrv : cd.de_data (cd.ser_data v) = v)
    (hrt : cd.de_time (cd.ser_time t) = t)
    (hins : (do_insert cd st fault k v (some t)).1 = true)
    (hread : (do_insert cd st fault k v (some t)).2.read_ok (to_serial_key cd k 'a') renv)
    (hreads : (do_insert cd st fault k v (some t)).2.reads_ok cd k lenv) :
    (do_lookup cd (do_insert cd st fault k v (some t)).2 renv k).1 = some (some v) ∧
    (lookup_with_expiry cd (do_insert cd st fault k v (some t)).2 lenv k).1 =
      some (some { item := v, expiry := some t }) ∧
    (∃ xs, (do_expiries cd (do_insert cd st fault k v (some t)).2 none).1 = some xs ∧
      expirable.mk k t ∈ xs) ∧
    (∃ s, (do_snap cd (do_insert cd st fault k v (some t)).2 none none).1 = some s ∧
      umap_find s.datastore k = some { item := v, expiry := some t }) := by
  obtain ⟨db, hdb, hst⟩ := do_insert_ok cd st fault k v (some t) hins
  rw [hst] at hread hreads ⊢
  simp only [impl.ordered, impl.canonical, hdb] at hord hcan
  simp only [impl.read_ok, impl.reads_ok, impl.probe_ok] at hread hreads
  have hga := insert_entries_get_a cd db.entries k v (some t)
  have hge := insert_entries_get_e cd db.entries k v (some t)
  simp only at hge
  have hord' : DB.ordered { db with entries := insert_entries cd db.entries k v (some t) } :=
    insert_entries_ordered cd db.entries k v (some t) hord
  have hcan' : DB.canonical cd
      { db with entries := insert_entries cd db.entries k v (some t) } :=
    insert_entries_canonical cd db.entries k v (some t) hrk hcan
  refine ⟨?_, ?_, ?_, ?_⟩
  · rw [do_lookup_eq cd _ _ renv k rfl hread.1 hread.2]
    simp [hga, from_serial, hrv]
  · rw [lookup_with_expiry_eq cd _ _ lenv k rfl hreads.1.1 hreads.2.1 hreads.1.2 hreads.2.2]
    simp [hga, hge, from_serial, from_serial_time, hrv, hrt]
  · rw [do_expiries_eq cd _ _ rfl]
    refine ⟨_, rfl, ?_⟩
    rw [List.mem_map]
    refine ⟨(to_serial_key cd k 'e', cd.ser_time t), ?_, ?_⟩
    · rw [mem_scan_iff _ _ hord']
      refine ⟨kv_get_mem _ _ _ hge, ?_⟩
      rw [to_serial_key_eq, starts_with_cons]
      simp
    · simp [to_serial_key_eq, remove_first, from_serial, from_serial_time, hrk, hrt]
  · rw [do_snap_eq cd _ _ rfl]
    refine ⟨_, rfl, ?_⟩
    simp only
    rw [snap_find cd _ k hord' hcan' hrk]
    simp [hga, hge, from_serial, from_serial_time, hrv, hrt]

/-- Witness of C3: `insert("x", 42, Some(7))` on the fresh store. -/
theorem insert_with_expiry_retrievable_witness :
    fresh_store.ordered ∧ fresh_store.canonical codec0 ∧
    (do_insert codec0 fresh_store none key_x (data.integer 42) (some ⟨7⟩)).1 = true ∧
    (lookup_with_expiry codec0
      (do_insert codec0 fresh_store none key_x (data.integer 42) (some ⟨7⟩)).2
      plain_lookup key_x).1 = some (some { item := data.integer 42, expiry := some ⟨7⟩ }) :=
  have h := insert_with_expiry_retrievable codec0 fresh_store none key_x (data.integer 42)
    ⟨7⟩ plain_read plain_lookup (by decide) (by decide) (by decide) (by decide) (by decide)
    (by decide) (by decide) (by decide)
  ⟨by decide, by decide, by decide, h.2.1⟩

/-- C4: on an open backend whose engine serves the reads and the write, `increment(k, by)`
on a key without a value returns 0 and leaves the integer `by` for `lookup(k)`; on a key
that holds the integer `n`, with `n + by` in the range of `int64_t`, it returns 0 and
leaves the integer `n + by` (the codec round-tripping the integer written). -/
theorem increment_semantics (cd : Codec) (st : impl) (lenv : LookupEnv) (renv : ReadEnv)
    (k : data) (amount : Int)
    (hopen : st.db.isSome = true)
    (hreads : st.reads_ok cd k lenv)
    (hread : (do_increment cd st lenv none k amount).2.read_ok (to_serial_key cd k 'a') renv) :
    (st.stored cd k = none →
      cd.de_data (cd.ser_data (data.integer amount)) = data.integer amount →
      (do_increment cd st lenv none k amount).1 = 0 ∧
      (do_lookup cd (do_increment cd st lenv none k amount).2 renv k).1 =
        some (some (data.integer amount))) ∧
    (∀ n : Int, st.stored cd k = some (data.integer n) →
      -2 ^ 63 ≤ n + amount → n + amount < 2 ^ 63 →
      cd.de_data (cd.ser_data (data.integer (n + amount))) = data.integer (n + amount) →
      (do_increment cd st lenv none k amount).1 = 0 ∧
      (do_lookup cd (do_increment cd st lenv none k amount).2 renv k).1 =
        some (some (data.integer (n + amount)))) := by
  have heq := do_increment_eq cd st lenv k amount hopen hreads
  constructor
  · intro habs hrt
    rw [heq, habs] at hread ⊢
    simp only at hread ⊢
    rw [do_lookup_stored cd _ renv k (written_open cd st k _ _ hopen) hread,
      written_stored cd st k _ _ hopen, hrt]
    exact ⟨trivial, rfl⟩
  · intro n hn h1 h2 hrt
    rw [heq, hn] at hread ⊢
    simp only [increment_visitor, if_true, wrap_int64_of_range _ h1 h2] at hread ⊢
    rw [do_lookup_stored cd _ renv k (written_open cd st k _ _ hopen) hread,
      written_stored cd st k _ _ hopen, hrt]
    exact ⟨trivial, rfl⟩

/-- Witness of C4: `insert("x", 42)` on the fresh store, then `increment("x", 8)` returns 0
and `lookup("x")` gives 50. -/
theorem increment_semantics_witness :
    store_42.db.isSome = true ∧ store_42.stored codec0 key_x = some (data.integer 42) ∧
    (do_increment codec0 store_42 plain_lookup none key_x 8).1 = 0 ∧
    (do_lookup codec0 (do_increment codec0 store_42 plain_lookup none key_x 8).2
      plain_read key_x).1 = some (some (data.integer 50)) :=
  ⟨by decide, by decide,
   (increment_semantics codec0 store_42 plain_lookup plain_read key_x 8
      (by decide) (by decide) (by decide)).2 42 (by decide) (by decide) (by decide)
      (by decide)⟩

/-- C5: on an open backend whose engine serves the reads and the write, with a codec that
round-trips values: `add_to_set(k, x)` returns 0 and leaves for `lookup(k)` the set `{x}`
when `k` had no value and the set `s` with `x` added when `k` held the set `s`;
`remove_from_set(k, x)` returns 0 and leaves the set `s` without `x` when `k` held `s`
(`s` itself when `x` is not in `s`) and the empty set when `k` had no value.  The
`lookup` afterwards is taken under every engine behaviour that serves the read in the
state the operation left: every probe answer within the contract, also a value found by
the probe. -/
theorem set_semantics (cd : Codec) (st : impl) (lenv : LookupEnv) (k x : data)
    (hopen : st.db.isSome = true)
    (hrt : ∀ d : data, cd.de_data (cd.ser_data d) = d)
    (hreads : st.reads_ok cd k lenv) :
    (st.stored cd k = none →
      (do_add_to_set cd st lenv none k x).1 = 0 ∧
      ∀ renv, (do_add_to_set cd st lenv none k x).2.read_ok (to_serial_key cd k 'a') renv →
        (do_lookup cd (do_add_to_set cd st lenv none k x).2 renv k).1 =
          some (some (data.set [x]))) ∧
    (∀ s, st.stored cd k = some (data.set s) →
      (do_add_to_set cd st lenv none k x).1 = 0 ∧
      (∀ renv, (do_add_to_set cd st lenv none k x).2.read_ok (to_serial_key cd k 'a') renv →
        (do_lookup cd (do_add_to_set cd st lenv none k x).2 renv k).1 =
          some (some (data.set (set_emplace s x)))) ∧
      (∀ y, y ∈ set_emplace s x ↔ y ∈ s ∨ y = x)) ∧
    (∀ s, st.stored cd k = some (data.set s) →
      (do_remove_from_set cd st lenv none k x).1 = 0 ∧
      (∀ renv,
        (do_remove_from_set cd st lenv none k x).2.read_ok (to_serial_key cd k 'a') renv →
        (do_lookup cd (do_remove_from_set cd st lenv none k x).2 renv k).1 =
          some (some (data.set (set_erase s x)))) ∧
      (x ∉ s → set_erase s x = s) ∧
      (s.Nodup → ∀ y, y ∈ set_erase s x ↔ y ∈ s ∧ y ≠ x)) ∧
    (st.stored cd k = none →
      (do_remove_from_set cd st lenv none k x).1 = 0 ∧
      ∀ renv,
        (do_remove_from_set cd st lenv none k x).2.read_ok (to_serial_key cd k 'a') renv →
        (do_lookup cd (do_remove_from_set cd st lenv none k x).2 renv k).1 =
          some (some (data.set []))) := by
  have hadd := do_add_to_set_eq cd st lenv k x hopen hreads
  have hrem := do_remove_from_set_eq cd st lenv k x hopen hreads
  have hlook : ∀ (v : data) (e : Option expiration_time) (renv : ReadEnv),
      (st.written cd k v e).read_ok (to_serial_key cd k 'a') renv →
      (do_lookup cd (st.written cd k v e) renv k).1 = some (some v) := by
    intro v e renv hread
    rw [do_lookup_stored cd _ renv k (written_open cd st k v e hopen) hread,
      written_stored cd st k v e hopen, hrt]
  refine ⟨?_, ?_, ?_, ?_⟩
  · intro habs
    rw [hadd, habs]
    exact ⟨rfl, fun renv hread => hlook _ _ renv hread⟩
  · intro s hs
    rw [hadd, hs]
    exact ⟨rfl, fun renv hread => hlook _ _ renv hread, mem_set_emplace s x⟩
  · intro s hs
    rw [hrem, hs]
    exact ⟨rfl, fun renv hread => hlook _ _ renv hread, set_erase_absent s x,
      fun hn y => mem_set_erase s x y hn⟩
  · intro habs
    rw [hrem, habs]
    exact ⟨rfl, fun renv hread => hlook _ _ renv hread⟩

/-- Witness of C5: adding 2 to the set `{1}` stored under `"x"`, then a `lookup` in which
the probe finds the new value in memory. -/
theorem set_semantics_witness :
    store_set.db.isSome = true ∧
    store_set.reads_ok codec0 key_x plain_lookup ∧
    store_set.stored codec0 key_x = some (data.set [data.integer 1]) ∧
    (do_add_to_set codec0 store_set plain_lookup none key_x (data.integer 2)).2.read_ok
      (to_serial_key codec0 key_x 'a') found_set_12 ∧
    (do_add_to_set codec0 store_set plain_lookup none key_x (data.integer 2)).1 = 0 ∧
    (do_lookup codec0
      (do_add_to_set codec0 store_set plain_lookup none key_x (data.integer 2)).2
      found_set_12 key_x).1 = some (some (data.set [data.integer 1, data.integer 2])) :=
  have h := (set_semantics codec0 store_set plain_lookup key_x (data.integer 2)
    (by decide) codec0_round_trips.1 (by decide)).2.1 [data.integer 1] (by decide)
  ⟨by decide, by decide, by decide, by decide, h.1, h.2.1 found_set_12 (by decide)⟩

/-- C6: on an open backend whose engine serves the reads, `increment` on a key whose
stored value is not integral, and `add_to_set` and `remove_from_set` on a key whose
stored value is not a set, return 1 and leave the backend as it was but for the
last-error message: the keyspace (every value and expiration), the sequence number and
the configuration are the same. -/
theorem mismatch_mutates_nothing (cd : Codec) (st : impl) (env : LookupEnv)
    (wf : Option String) (k x d : data) (amount : Int)
    (hopen : st.db.isSome = true)
    (hreads : st.reads_ok cd k env)
    (hs : st.stored cd k = some d) :
    (d.is_integral = false →
      (do_increment cd st env wf k amount).1 = 1 ∧
      (do_increment cd st env wf k amount).2 =
        { st with last_error := (do_increment cd st env wf k amount).2.last_error }) ∧
    (d.is_set = false →
      (do_add_to_set cd st env wf k x).1 = 1 ∧
      (do_add_to_set cd st env wf k x).2 =
        { st with last_error := (do_add_to_set cd st env wf k x).2.last_error } ∧
      (do_remove_from_set cd st env wf k x).1 = 1 ∧
      (do_remove_from_set cd st env wf k x).2 =
        { st with last_error := (do_remove_from_set cd st env wf k x).2.last_error }) := by
  constructor
  · intro hd
    rw [do_increment_mismatch cd st env wf k amount d hopen hreads hs hd]
    exact ⟨rfl, rfl⟩
  · intro hd
    rw [do_add_to_set_mismatch cd st env wf k x d hopen hreads hs hd,
      do_remove_from_set_mismatch cd st env wf k x d hopen hreads hs hd]
    exact ⟨rfl, rfl, rfl, rfl⟩

/-- Witness of C6: `increment("x", 1)` on the store that holds the set `{1}` under `"x"`
returns 1 and leaves the keyspace and the sequence number as they were. -/
theorem mismatch_mutates_nothing_witness :
    store_set.db.isSome = true ∧
    store_set.stored codec0 key_x = some (data.set [data.integer 1]) ∧
    (do_increment codec0 store_set plain_lookup none key_x 1).1 = 1 ∧
    (do_increment codec0 store_set plain_lookup none key_x 1).2 =
      { store_set with
        last_error := (do_increment codec0 store_set plain_lookup none key_x 1).2.last_error } :=
  ⟨by decide, by decide,
   (mismatch_mutates_nothing codec0 store_set plain_lookup none key_x (data.integer 2)
      (data.set [data.integer 1]) 1 (by decide) (by decide) (by decide)).1 (by decide)⟩

/-- C7: on an open backend with an ordered keyspace and canonical keys, a codec that
round-trips and an engine that serves the reads and the write: when `k` holds a value of
the variant the operation requires, `increment`, `add_to_set` and `remove_from_set`
succeed and the expiration of `k` afterwards is the one before (`Some(t)` stays
`Some(t)`, absent stays absent), as seen by `lookup_with_expiry`, `snap` and
`expiries`. -/
theorem mutation_keeps_expiry (cd : Codec) (st : impl) (lenv : LookupEnv)
    (k x d : data) (amount : Int)
    (hopen : st.db.isSome = true) (hord : st.ordered) (hcan : st.canonical cd)
    (hrt : cd.round_trips)
    (hreads : st.reads_ok cd k lenv)
    (hs : st.stored cd k = some d) :
    (d.is_integral = true →
      (do_increment cd st lenv none k amount).1 = 0 ∧
      expiry_kept cd st (do_increment cd st lenv none k amount).2 k) ∧
    (d.is_set = true →
      (do_add_to_set cd st lenv none k x).1 = 0 ∧
      expiry_kept cd st (do_add_to_set cd st lenv none k x).2 k ∧
      (do_remove_from_set cd st lenv none k x).1 = 0 ∧
      expiry_kept cd st (do_remove_from_set cd st lenv none k x).2 k) := by
  have hkept := fun v => written_expiry_kept cd st k v d hopen hord hcan (hrt.1 k) hrt.2 hs
  constructor
  · intro hd
    rw [do_increment_eq cd st lenv k amount hopen hreads, hs]
    simp only [increment_visitor_fst, hd, if_true]
    exact ⟨trivial, hkept _⟩
  · intro hd
    rw [do_add_to_set_eq cd st lenv k x hopen hreads,
      do_remove_from_set_eq cd st lenv k x hopen hreads, hs]
    cases d with
    | set s => exact ⟨rfl, hkept _, rfl, hkept _⟩
    | _ => simp [data.is_set] at hd

/-- Witness of C7: `increment("x", 8)` on the store that holds 42 under `"x"` with
expiration 7. -/
theorem mutation_keeps_expiry_witness :
    store_x.db.isSome = true ∧ store_x.ordered ∧ store_x.canonical codec0 ∧
    store_x.stored codec0 key_x = some (data.integer 42) ∧
    (do_increment codec0 store_x plain_lookup none key_x 8).1 = 0 ∧
    expiry_kept codec0 store_x (do_increment codec0 store_x plain_lookup none key_x 8).2
      key_x :=
  ⟨by decide, by decide, by decide, by decide,
   (mutation_keeps_expiry codec0 store_x plain_lookup key_x (data.integer 0)
      (data.integer 42) 8 (by decide) (by decide) (by decide) codec0_round_trips
      (by decide) (by decide)).1 (by decide)⟩

/-- C9: for every backend state and every snapshot `s` (a map without repeated keys),
with a codec that round-trips: after `init(s)` returns true, `sequence()` is `s.sn` and
`snap()` returns a snapshot with the sequence number of `s` and the mapping of `s`:
every key has in it what it has in `s`, and no key has anything else. -/
theorem init_installs_snapshot (cd : Codec) (st : impl) (s : snapshot) (env : ClearEnv)
    (wf : Option String)
    (hrt : cd.round_trips) (hnd : umap_nodup s.datastore)
    (hok : (do_init cd st s env wf).1 = true) :
    do_sequence (do_init cd st s env wf).2 = s.sn ∧
    ∃ s2, (do_snap cd (do_init cd st s env wf).2 none none).1 = some s2 ∧
      s2.sn = s.sn ∧ umap_nodup s2.datastore ∧
      ∀ k, umap_find s2.datastore k = umap_find s.datastore k := by
  obtain ⟨db, hdb, hdb2, hsn⟩ := do_init_ok cd st s env wf hok
  refine ⟨hsn, ?_⟩
  have hopen : (do_init cd st s env wf).2.db.isSome = true := by simp [hdb2]
  have hord : (do_init cd st s env wf).2.ordered := by
    simp only [impl.ordered, hdb2]
    exact init_entries_ordered cd s
  have hcan : (do_init cd st s env wf).2.canonical cd := by
    simp only [impl.canonical, hdb2]
    exact init_entries_canonical cd s hrt.1
  obtain ⟨s0, hs0, _⟩ := snap_find_stored cd _ (default : data) hopen hord hcan (hrt.1 _)
  refine ⟨s0, hs0, ?_, do_snap_nodup cd _ _ _ s0 hs0, ?_⟩
  · obtain ⟨s1, hs1, hsn1, _⟩ := snap_find_stored cd _ (default : data) hopen hord hcan
      (hrt.1 _)
    rw [hs0] at hs1
    simp only [Option.some.injEq] at hs1
    rw [hs1, hsn1, hsn]
  · intro k
    obtain ⟨s1, hs1, _, hfind⟩ := snap_find_stored cd _ k hopen hord hcan (hrt.1 k)
    rw [hs0] at hs1
    simp only [Option.some.injEq] at hs1
    rw [hs1, hfind]
    simp only [impl.stored, impl.stored_expiry, hdb2, init_get_a cd s hrt.1 hnd,
      init_get_e cd s hrt.1 hnd]
    cases hf : umap_find s.datastore k with
    | none => rfl
    | some v =>
      obtain ⟨item, expiry⟩ := v
      cases expiry <;> simp [from_serial, from_serial_time, hrt.1, hrt.2]

/-- Counterexample to C8: in the state left by an `erase("x")` whose second delete failed,
`snap()` returns a snapshot that holds `"x"`, `init` with it returns true, and afterwards
`keys()` holds `"x"`, which it did not before, and `lookup("x")` is no longer
`Some(None)`. -/
theorem round_trip_adds_lone_expiry_key :
    orphan_store.db.isSome = true ∧
    (do_snap codec0 orphan_store none none).1 = some orphan_snap ∧
    (do_init codec0 orphan_store orphan_snap plain_clear none).1 = true ∧
    (do_keys codec0 orphan_store none).1 = some [] ∧
    (do_keys codec0 (do_init codec0 orphan_store orphan_snap plain_clear none).2 none).1 =
      some [key_x] ∧
    (do_lookup codec0 orphan_store plain_read key_x).1 = some none ∧
    (do_lookup codec0 (do_init codec0 orphan_store orphan_snap plain_clear none).2
      plain_read key_x).1 ≠ some none := by
  decide

/-- C8, amended: snapshot idempotence.  On a backend whose keyspace satisfies the
invariants of the backend (in key order, canonical keys, no expiration without a value:
the invariants of every state reached with the engine calls succeeding, see
`reachable_invariants`), with a codec that round-trips: if `s = snap()` and `init(s)` returns true, then `keys()`,
`lookup(k)` for every key (under every engine behaviour that serves the reads),
`expiries()` and `sequence()` are what they were, and `snap()` returns `s` again. -/
theorem snapshot_round_trip (cd : Codec) (st : impl) (s : snapshot) (env : ClearEnv)
    (wf : Option String)
    (hrt : cd.round_trips)
    (hwf : st.well_formed cd)
    (hsnap : (do_snap cd st none none).1 = some s)
    (hok : (do_init cd st s env wf).1 = true) :
    (do_keys cd (do_init cd st s env wf).2 none).1 = (do_keys cd st none).1 ∧
    (∀ k renv renv2, st.read_ok (to_serial_key cd k 'a') renv →
      (do_init cd st s env wf).2.read_ok (to_serial_key cd k 'a') renv2 →
      (do_lookup cd (do_init cd st s env wf).2 renv2 k).1 = (do_lookup cd st renv k).1) ∧
    (do_expiries cd (do_init cd st s env wf).2 none).1 = (do_expiries cd st none).1 ∧
    do_sequence (do_init cd st s env wf).2 = do_sequence st ∧
    (do_snap cd (do_init cd st s env wf).2 none none).1 = some s := by
  obtain ⟨db, hdb, hdb2, hsn⟩ := do_init_ok cd st s env wf hok
  obtain ⟨hord, hcan, hno⟩ := well_formed_db cd st db hdb hwf
  rw [do_snap_eq cd st db hdb] at hsnap
  simp only [Option.some.injEq] at hsnap
  have hs : s.datastore =
      snap_expiries cd (db.scan ['e']) (snap_items cd (db.scan ['a']) []) := by
    rw [← hsnap]
  have hssn : s.sn = st.sn := by rw [← hsnap]
  have hord2 : DB.ordered { name := db.name, entries := init_entries cd s } :=
    init_entries_ordered cd s
  have hscan_a := scan_ext db { name := db.name, entries := init_entries cd s } 'a'
    (fun _ v => cd.ser_data (cd.de_data v)) hord hord2
    (fun key hq => init_snap_get_a cd db s hrt hord hcan hno hs key hq)
  have hscan_e := scan_ext db { name := db.name, entries := init_entries cd s } 'e'
    (fun _ v => cd.ser_time (cd.de_time v)) hord hord2
    (fun key hq => init_snap_get_e cd db s hrt hord hcan hno hs key hq)
  have hopen : st.db.isSome = true := by simp [hdb]
  have hopen2 : (do_init cd st s env wf).2.db.isSome = true := by simp [hdb2]
  refine ⟨?_, ?_, ?_, ?_, ?_⟩
  · rw [do_keys_eq cd _ _ hdb2, do_keys_eq cd st db hdb]
    rw [hscan_a]
    exact congrArg some (keys_loop_map cd _ (fun _ v => cd.ser_data (cd.de_data v)) [])
  · intro k renv renv2 hr hr2
    rw [do_lookup_stored cd _ renv2 k hopen2 hr2, do_lookup_stored cd st renv k hopen hr]
    simp only [impl.stored, hdb, hdb2, Option.some.injEq]
    rw [init_snap_get_a cd db s hrt hord hcan hno hs _
      (by rw [to_serial_key_eq, starts_with_cons]; simp)]
    cases kv_get db.entries (to_serial_key cd k 'a') <;> simp [from_serial, hrt.1]
  · rw [do_expiries_eq cd _ _ hdb2, do_expiries_eq cd st db hdb]
    simp only [hscan_e, List.map_map, Option.some.injEq]
    apply List.map_congr_left
    intro e _
    simp [from_serial_time, hrt.2]
  · simp only [do_sequence]
    rw [hsn, hssn]
  · rw [do_snap_eq cd _ _ hdb2]
    simp only [hscan_a, hscan_e, snap_items_map cd _ hrt.1, snap_expiries_map cd _ hrt.2, hsn]
    rw [← hs]

/-- Witness of C8: `snap()` of the store that holds 42 under `"x"` with expiration 7, then
`init` with it. -/
theorem snapshot_round_trip_witness :
    store_x.well_formed codec0 ∧
    (do_snap codec0 store_x none none).1 = some snap_x ∧
    (do_init codec0 store_x snap_x plain_clear none).1 = true ∧
    (do_snap codec0 (do_init codec0 store_x snap_x plain_clear none).2 none none).1 =
      some snap_x :=
  ⟨by decide, by decide, by decide,
   (snapshot_round_trip codec0 store_x snap_x plain_clear none codec0_round_trips
      (by decide) (by decide) (by decide)).2.2.2.2⟩

/-- Witness of C9: `init` of the store that holds a set under `"x"` with a snapshot of two
keys and sequence number 5. -/
theorem init_installs_snapshot_witness :
    umap_nodup snap_two.datastore ∧
    (do_init codec0 store_set snap_two plain_clear none).1 = true ∧
    do_sequence (do_init codec0 store_set snap_two plain_clear none).2 = ⟨5⟩ :=
  ⟨by decide, by decide,
   (init_installs_snapshot codec0 store_set snap_two plain_clear none codec0_round_trips
      (by decide) (by decide)).1⟩

/-- C10: `increase_sequence()` replaces the sequence number by its successor and leaves
the rest of the backend as it was; `insert`, `erase`, `clear`, `increment`, `add_to_set`,
`remove_from_set`, `lookup`, `exists`, `keys`, `size`, `snap` and `expiries` leave the
sequence number as it was, whatever the engine does. -/
theorem sequence_changes_only_by_increase (cd : Codec) (st : impl)
    (f1 f2 : Option String) (k v : data) (e : Option expiration_time) (cenv : ClearEnv)
    (lenv : LookupEnv) (renv : ReadEnv) (amount : Int) (estimate : Option Nat) :
    do_sequence (do_increase_sequence st) = ⟨(do_sequence st).n + 1⟩ ∧
    do_increase_sequence st = { st with sn := ⟨st.sn.n + 1⟩ } ∧
    do_sequence (do_insert cd st f1 k v e).2 = do_sequence st ∧
    do_sequence (do_erase cd st f1 f2 k).2 = do_sequence st ∧
    do_sequence (do_clear cd st cenv).2 = do_sequence st ∧
    do_sequence (do_increment cd st lenv f1 k amount).2 = do_sequence st ∧
    do_sequence (do_add_to_set cd st lenv f1 k v).2 = do_sequence st ∧
    do_sequence (do_remove_from_set cd st lenv f1 k v).2 = do_sequence st ∧
    do_sequence (do_lookup cd st renv k).2 = do_sequence st ∧
    do_sequence (do_exists cd st renv k).2 = do_sequence st ∧
    do_sequence (do_keys cd st f1).2 = do_sequence st ∧
    do_sequence (do_size st estimate f1).2 = do_sequence st ∧
    do_sequence (do_snap cd st f1 f2).2 = do_sequence st ∧
    do_sequence (do_expiries cd st f1).2 = do_sequence st :=
  ⟨rfl, rfl, do_insert_sn cd st f1 k v e, do_erase_sn cd st f1 f2 k, do_clear_sn cd st cenv,
   do_increment_sn cd st lenv f1 k amount, do_add_to_set_sn cd st lenv f1 k v,
   do_remove_from_set_sn cd st lenv f1 k v, do_lookup_sn cd st renv k,
   do_exists_sn cd st renv k, do_keys_sn cd st f1, do_size_sn st estimate f1,
   do_snap_sn cd st f1 f2, do_expiries_sn cd st f1⟩

/-- Counterexample to C11: on the store with sequence number 1, `init` with a snapshot of
sequence number 0 returns true and leaves the sequence number 0, below the one before. -/
theorem init_lowers_sequence :
    (do_sequence store_x_seq1).n = 1 ∧
    (do_init codec0 store_x_seq1 snap_x plain_clear none).1 = true ∧
    (do_sequence (do_init codec0 store_x_seq1 snap_x plain_clear none).2).n = 0 ∧
    ¬ ((do_sequence store_x_seq1).n ≤
        (do_sequence (do_init codec0 store_x_seq1 snap_x plain_clear none).2).n) := by
  decide

/-- C11, amended: the sequence number after `increase_sequence`, `clear`, `insert`,
`erase`, `increment`, `add_to_set`, `remove_from_set`, `lookup`, `exists`, `keys`, `size`,
`snap` and `expiries` is greater than or equal to the one before, whatever the engine
does; `init` adopts the number of the snapshot, so after `init` it is greater than or
equal to the one before when the number of the snapshot is. -/
theorem sequence_monotone_but_init (cd : Codec) (st : impl) (sss : snapshot)
    (f1 f2 : Option String) (k v : data) (e : Option expiration_time) (cenv : ClearEnv)
    (lenv : LookupEnv) (renv : ReadEnv) (amount : Int) (estimate : Option Nat)
    (hsn : (do_sequence st).n ≤ sss.sn.n) :
    (do_sequence st).n ≤ (do_sequence (do_increase_sequence st)).n ∧
    (do_sequence st).n ≤ (do_sequence (do_clear cd st cenv).2).n ∧
    (do_sequence st).n ≤ (do_sequence (do_insert cd st f1 k v e).2).n ∧
    (do_sequence st).n ≤ (do_sequence (do_erase cd st f1 f2 k).2).n ∧
    (do_sequence st).n ≤ (do_sequence (do_increment cd st lenv f1 k amount).2).n ∧
    (do_sequence st).n ≤ (do_sequence (do_add_to_set cd st lenv f1 k v).2).n ∧
    (do_sequence st).n ≤ (do_sequence (do_remove_from_set cd st lenv f1 k v).2).n ∧
    (do_sequence st).n ≤ (do_sequence (do_lookup cd st renv k).2).n ∧
    (do_sequence st).n ≤ (do_sequence (do_exists cd st renv k).2).n ∧
    (do_sequence st).n ≤ (do_sequence (do_keys cd st f1).2).n ∧
    (do_sequence st).n ≤ (do_sequence (do_size st estimate f1).2).n ∧
    (do_sequence st).n ≤ (do_sequence (do_snap cd st f1 f2).2).n ∧
    (do_sequence st).n ≤ (do_sequence (do_expiries cd st f1).2).n ∧
    (do_sequence st).n ≤ (do_sequence (do_init cd st sss cenv f1).2).n := by
  simp only [do_sequence] at hsn ⊢
  refine ⟨by simp [do_increase_sequence, sequence_num.incr], ?_, ?_, ?_, ?_, ?_, ?_, ?_, ?_,
    ?_, ?_, ?_, ?_, ?_⟩
  · rw [do_clear_sn]
  · rw [do_insert_sn]
  · rw [do_erase_sn]
  · rw [do_increment_sn]
  · rw [do_add_to_set_sn]
  · rw [do_remove_from_set_sn]
  · rw [do_lookup_sn]
  · rw [do_exists_sn]
  · rw [do_keys_sn]
  · rw [do_size_sn]
  · rw [do_snap_sn]
  · rw [do_expiries_sn]
  · rw [do_init_sn]
    split
    · exact hsn
    · exact Nat.le_refl _

/-- Witness of C11 (amended): `init` of the store `store_x` (sequence number 0) with the
snapshot of sequence number 5. -/
theorem sequence_monotone_but_init_witness :
    (do_sequence store_x).n ≤ snap_two.sn.n ∧
    (do_sequence store_x).n ≤
      (do_sequence (do_init codec0 store_x snap_two plain_clear none).2).n :=
  ⟨by decide,
   (sequence_monotone_but_init codec0 store_x snap_two none none key_x key_y none plain_clear
      plain_lookup plain_read 0 none (by decide)).2.2.2.2.2.2.2.2.2.2.2.2.2⟩

/-- Counterexample to C12: with threshold 0, on the store that holds the one key `"x"`,
an estimate of 0 is not returned: `size()` scans and returns 1. -/
theorem size_zero_estimate_not_returned :
    store_42.exact_size_threshold = 0 ∧ store_42.db.isSome = true ∧
    (do_size store_42 (some 0) none).1 = some 1 ∧
    (do_size store_42 (some 0) none).1 ≠ some 0 := by
  decide

/-- C12, amended: with `exact_size_threshold = 0`, `size()` on an open backend returns the
engine's estimate whenever the engine gives one and it is greater than 0; for an estimate
of 0, and when the engine gives no estimate, it returns the exact scanned count (the
iteration not failing). -/
theorem size_threshold_zero (st : impl) (f : Option String)
    (hopen : st.db.isSome = true) (hthr : st.exact_size_threshold = 0) :
    (∀ n, 0 < n → (do_size st (some n) f).1 = some n) ∧
    (do_size st (some 0) none).1 = some st.exact_count ∧
    (do_size st none none).1 = some st.exact_count := by
  refine ⟨?_, ?_, ?_⟩
  · intro n hn
    rw [do_size_estimate st n f hopen (by omega)]
  · rw [do_size_scan st (some 0) hopen (by intro n h; simp at h; omega)]
  · rw [do_size_scan st none hopen (by intro n h; simp at h)]

/-- Witness of C12 (amended): with threshold 0 the estimate 3 is returned. -/
theorem size_threshold_zero_witness :
    store_42.db.isSome = true ∧ store_42.exact_size_threshold = 0 ∧
    (do_size store_42 (some 3) none).1 = some 3 :=
  ⟨by decide, by decide,
   (size_threshold_zero store_42 none (by decide) (by decide)).1 3 (by decide)⟩

/-- Counterexample to C13: with threshold 5 and one stored key, an estimate of 9 is
returned as it is, not the exact count 1. -/
theorem size_large_estimate_returned :
    store_thr5.exact_size_threshold = 5 ∧ store_thr5.exact_count = 1 ∧
    (do_keys codec0 store_thr5 none).1 = some [key_x] ∧
    (do_size store_thr5 (some 9) none).1 = some 9 ∧
    (do_size store_thr5 (some 9) none).1 ≠ some store_thr5.exact_count := by
  decide

/-- C13, amended: on an open backend with an ordered keyspace and canonical keys, when the
engine gives no estimate or one that does not exceed `exact_size_threshold` (the iteration
not failing), `size()` returns the exact scanned count, which is the number of entries of
the `'a'` category and the number of keys `keys()` returns.  This holds for every
threshold, so also for one larger than the number of stored keys. -/
theorem size_exact_below_threshold (cd : Codec) (st : impl) (estimate : Option Nat)
    (hopen : st.db.isSome = true) (hord : st.ordered) (hcan : st.canonical cd)
    (hest : ∀ n, estimate = some n → n ≤ st.exact_size_threshold) :
    (do_size st estimate none).1 = some st.exact_count ∧
    st.exact_count = st.a_entries ∧
    ∃ ks, (do_keys cd st none).1 = some ks ∧ ks.Nodup ∧ ks.length = st.exact_count := by
  refine ⟨?_, exact_count_eq_a_entries st hord, ?_⟩
  · rw [do_size_scan st estimate hopen hest]
  · obtain ⟨ks, h1, h2, h3⟩ := do_keys_length cd st hopen hord hcan
    exact ⟨ks, h1, h3, h2⟩

/-- Witness of C13 (amended): with threshold 5, one stored key and an estimate of 4,
`size()` returns 1. -/
theorem size_exact_below_threshold_witness :
    store_thr5.db.isSome = true ∧ store_thr5.ordered ∧ store_thr5.canonical codec0 ∧
    store_thr5.exact_size_threshold = 5 ∧
    (do_size store_thr5 (some 4) none).1 = some 1 :=
  ⟨by decide, by decide, by decide, by decide,
   (size_exact_below_threshold codec0 store_thr5 (some 4) (by decide) (by decide)
      (by decide) (by decide)).1⟩

/-- C14: after `clear()` returns true, the keyspace has no entry of the `'a'` or the `'e'`
category: `keys()` and `expiries()` are empty, `lookup` of every key returns `Some(None)`
(the engine serving the read) and the exact scanned size is 0; the metadata record under
`"mbroker_version"` holds the version string; and the sequence number is the one before
`clear`. -/
theorem clear_resets_keyspace (cd : Codec) (st : impl) (env : ClearEnv)
    (hok : (do_clear cd st env).1 = true) :
    (∀ key, starts_with key ['a'] = true ∨ starts_with key ['e'] = true →
      (do_clear cd st env).2.raw key = none) ∧
    (do_keys cd (do_clear cd st env).2 none).1 = some [] ∧
    (do_expiries cd (do_clear cd st env).2 none).1 = some [] ∧
    (∀ k renv, (do_clear cd st env).2.read_ok (to_serial_key cd k 'a') renv →
      (do_lookup cd (do_clear cd st env).2 renv k).1 = some none) ∧
    (∀ estimate, (∀ n, estimate = some n → n ≤ st.exact_size_threshold) →
      (do_size (do_clear cd st env).2 estimate none).1 = some 0) ∧
    (do_clear cd st env).2.raw metadata_key = some (version_string cd) ∧
    do_sequence (do_clear cd st env).2 = do_sequence st := by
  obtain ⟨db, hdb, hdb2, hsn, hthr⟩ := do_clear_ok cd st env hok
  have hopen2 : (do_clear cd st env).2.db.isSome = true := by simp [hdb2]
  refine ⟨?_, ?_, ?_, ?_, ?_, ?_, hsn⟩
  · intro key hkey
    simp only [impl.raw, hdb2]
    exact cleared_get_none cd key hkey
  · rw [do_keys_eq cd _ _ hdb2, cleared_scan cd db.name 'a' (Or.inl rfl)]
    rfl
  · rw [do_expiries_eq cd _ _ hdb2, cleared_scan cd db.name 'e' (Or.inr rfl)]
    rfl
  · intro k renv hread
    rw [do_lookup_stored cd _ renv k hopen2 hread]
    simp only [impl.stored, hdb2]
    rw [cleared_get_none cd _ (Or.inl (by rw [to_serial_key_eq, starts_with_cons]; simp))]
    rfl
  · intro estimate hest
    rw [do_size_scan _ estimate hopen2 (by rw [hthr]; exact hest)]
    simp [impl.exact_count, hdb2, cleared_scan cd db.name 'a' (Or.inl rfl)]
  · simp only [impl.raw, hdb2]
    exact cleared_get_metadata cd

/-- Witness of C14: `clear()` of the store that holds `"x"` with an expiration. -/
theorem clear_resets_keyspace_witness :
    (do_clear codec0 store_x plain_clear).1 = true ∧
    (do_keys codec0 (do_clear codec0 store_x plain_clear).2 none).1 = some [] ∧
    (do_clear codec0 store_x plain_clear).2.raw metadata_key = some "0.4.0".toList :=
  have h := clear_resets_keyspace codec0 store_x plain_clear (by decide)
  ⟨by decide, h.2.1, h.2.2.2.2.2.1⟩

/-- C15: on a closed backend (no engine handle) every operation fails at once, whatever
the engine would answer: `insert`, `erase`, `clear` and `init` return false; `lookup`,
`exists`, `keys`, `size`, `snap` and `expiries` return the failure optional; `increment`,
`add_to_set` and `remove_from_set` return -1.  The state afterwards is the one
`require_db` leaves: still without a handle, with the sequence number of before, only the
last error set. -/
theorem closed_fails_fast (cd : Codec) (st : impl) (sss : snapshot)
    (f1 f2 : Option String) (k v : data) (e : Option expiration_time) (cenv : ClearEnv)
    (lenv : LookupEnv) (renv : ReadEnv) (amount : Int) (estimate : Option Nat)
    (hclosed : st.db = none) :
    ((require_db st).2.db = none ∧ (require_db st).2.sn = st.sn ∧
      (require_db st).2 = { st with last_error := (require_db st).2.last_error }) ∧
    do_insert cd st f1 k v e = (false, (require_db st).2) ∧
    do_erase cd st f1 f2 k = (false, (require_db st).2) ∧
    do_clear cd st cenv = (false, (require_db st).2) ∧
    do_init cd st sss cenv f1 = (false, (require_db st).2) ∧
    do_lookup cd st renv k = (none, (require_db st).2) ∧
    do_exists cd st renv k = (none, (require_db st).2) ∧
    do_keys cd st f1 = (none, (require_db st).2) ∧
    do_size st estimate f1 = (none, (require_db st).2) ∧
    do_snap cd st f1 f2 = (none, (require_db st).2) ∧
    do_expiries cd st f1 = (none, (require_db st).2) ∧
    do_increment cd st lenv f1 k amount = (-1, (require_db st).2) ∧
    do_add_to_set cd st lenv f1 k v = (-1, (require_db st).2) ∧
    do_remove_from_set cd st lenv f1 k v = (-1, (require_db st).2) := by
  have hl : lookup_with_expiry cd st lenv k = (none, (require_db st).2) := by
    simp [lookup_with_expiry, hclosed]
  have hc : do_clear cd st cenv = (false, (require_db st).2) := by
    simp [do_clear, hclosed]
  refine ⟨⟨?_, ?_, ?_⟩, ?_, ?_, hc, ?_, ?_, ?_, ?_, ?_, ?_, ?_, ?_, ?_, ?_⟩
  · simp [require_db, hclosed]
  · simp [require_db, hclosed]
  · simp [require_db, hclosed]
  · simp [do_insert, hclosed]
  · simp [do_erase, hclosed]
  · simp [do_init, hc]
  · simp [do_lookup, hclosed]
  · simp [do_exists, hclosed]
  · simp [do_keys, hclosed]
  · simp [do_size, hclosed]
  · simp [do_snap, hclosed]
  · simp [do_expiries, hclosed]
  · simp [do_increment, hl]
  · simp [do_add_to_set, hl]
  · simp [do_remove_from_set, hl]

/-- Witness of C15: `insert` on a backend that was never opened. -/
theorem closed_fails_fast_witness :
    (rocksdb_backend 0).db = none ∧
    (do_insert codec0 (rocksdb_backend 0) none key_x (data.integer 42) none).1 = false :=
  ⟨rfl,
   congrArg Prod.fst
    (closed_fails_fast codec0 (rocksdb_backend 0) snap_x none none key_x (data.integer 42)
      none plain_clear plain_lookup plain_read 0 none rfl).2.1⟩

/-- Counterexample to C16: the key `"x"` is stored, the probe answers within its contract
with the value found, and `Get` fails: `lookup` returns the found value without a `Get`,
`exists` issues the `Get` and returns the failure optional. -/
theorem exists_fails_where_lookup_succeeds :
    store_42.probe_ok (to_serial_key codec0 key_x 'a') found_get_fails.probe ∧
    (do_lookup codec0 store_42 found_get_fails key_x).1 = some (some (data.integer 42)) ∧
    (do_exists codec0 store_42 found_get_fails key_x).1 = none := by
  decide

/-- C16, amended: for every state, key and engine behaviour with the probe within its
contract: when `lookup(k)` is the failure optional so is `exists(k)`; `exists(k)` is the
failure optional while `lookup(k)` is not only when the probe reported the value as found
and the `Get` that `exists` still issues failed; when the probe did not report a found
value, or `Get` does not fail, `exists(k)` is the failure optional exactly when `lookup(k)`
is; and whenever `exists(k)` is not the failure optional, it is `Some(true)` if and only
if `lookup(k)` is `Some(Some(v))` for some `v`. -/
theorem exists_follows_lookup (cd : Codec) (st : impl) (env : ReadEnv) (k : data)
    (hp : st.probe_ok (to_serial_key cd k 'a') env.probe) :
    ((do_lookup cd st env k).1 = none → (do_exists cd st env k).1 = none) ∧
    ((do_exists cd st env k).1 = none → (do_lookup cd st env k).1 ≠ none →
      env.probe.value_found = true ∧ env.get_fault ≠ none) ∧
    (env.probe.value_found = false ∨ env.get_fault = none →
      ((do_exists cd st env k).1 = none ↔ (do_lookup cd st env k).1 = none)) ∧
    ((do_exists cd st env k).1 ≠ none →
      ((do_exists cd st env k).1 = some true ↔
        ∃ v, (do_lookup cd st env k).1 = some (some v))) := by
  obtain ⟨probe, gf⟩ := env
  cases hdb : st.db with
  | none => simp [do_lookup, do_exists, hdb]
  | some db =>
    simp only [impl.probe_ok, hdb] at hp
    cases probe with
    | absent => simp [do_lookup, do_exists, hdb, Probe.may, Probe.value_found]
    | may_exist =>
      cases gf with
      | some m =>
        simp [do_lookup, do_exists, hdb, Probe.may, Probe.value_found, Probe.value, DB.Get,
          Status.IsNotFound, require_ok, Status.ok]
      | none =>
        cases hg : kv_get db.entries (to_serial_key cd k 'a') <;>
          simp [do_lookup, do_exists, hdb, Probe.may, Probe.value_found, Probe.value, DB.Get,
            hg, Status.IsNotFound, require_ok, Status.ok]
    | found w =>
      simp only [Probe.within_contract] at hp
      cases gf with
      | some m =>
        simp [do_lookup, do_exists, hdb, Probe.may, Probe.value_found, Probe.value, DB.Get,
          Status.IsNotFound, require_ok, Status.ok]
      | none =>
        simp [do_lookup, do_exists, hdb, Probe.may, Probe.value_found, Probe.value, DB.Get,
          hp, Status.IsNotFound, require_ok, Status.ok]

/-- Witness of C16 (amended): the key `"x"` stored, the probe undecided, `Get` working:
`exists` returns `Some(true)` and `lookup` the value. -/
theorem exists_follows_lookup_witness :
    store_42.probe_ok (to_serial_key codec0 key_x 'a') plain_read.probe ∧
    (do_exists codec0 store_42 plain_read key_x).1 = some true ∧
    ∃ v, (do_lookup codec0 store_42 plain_read key_x).1 = some (some v) :=
  have h := exists_follows_lookup codec0 store_42 plain_read key_x (by decide)
  ⟨by decide, by decide, (h.2.2.2 (by decide)).1 (by decide)⟩

/-- C17: a plain insert writes the `'a'` entry only.  After `insert(k, v, Some(t))` and
then `insert(k, v2, none)`, both succeeding, on a backend whose keyspace is ordered with
canonical keys (the codec round-tripping `k`, `v2` and `t`, the engine serving the read):
every engine key but the `'a'` key of `k` holds what it held before the second insert,
`lookup(k)` returns `Some(Some(v2))`, and the expiration of `k` is still `t`: `expiries()`
contains `(k, t)` and `snap()` maps `k` to `{v2, Some(t)}`. -/
theorem plain_insert_keeps_expiry (cd : Codec) (st : impl) (f1 f2 : Option String)
    (k v v2 : data) (t : expiration_time) (renv : ReadEnv)
    (hord : st.ordered) (hcan : st.canonical cd)
    (hrk : cd.de_data (cd.ser_data k) = k) (hrv : cd.de_data (cd.ser_data v2) = v2)
    (hrt : cd.de_time (cd.ser_time t) = t)
    (hins1 : (do_insert cd st f1 k v (some t)).1 = true)
    (hins2 : (do_insert cd (do_insert cd st f1 k v (some t)).2 f2 k v2 none).1 = true)
    (hread : (do_insert cd (do_insert cd st f1 k v (some t)).2 f2 k v2 none).2.read_ok
      (to_serial_key cd k 'a') renv) :
    (∀ key, key ≠ to_serial_key cd k 'a' →
      (do_insert cd (do_insert cd st f1 k v (some t)).2 f2 k v2 none).2.raw key =
        (do_insert cd st f1 k v (some t)).2.raw key) ∧
    (do_lookup cd (do_insert cd (do_insert cd st f1 k v (some t)).2 f2 k v2 none).2
      renv k).1 = some (some v2) ∧
    (do_insert cd (do_insert cd st f1 k v (some t)).2 f2 k v2 none).2.stored_expiry cd k =
      some t ∧
    (∃ xs, (do_expiries cd
        (do_insert cd (do_insert cd st f1 k v (some t)).2 f2 k v2 none).2 none).1 = some xs ∧
      expirable.mk k t ∈ xs) ∧
    (∃ s, (do_snap cd
        (do_insert cd (do_insert cd st f1 k v (some t)).2 f2 k v2 none).2 none none).1 =
          some s ∧
      umap_find s.datastore k = some { item := v2, expiry := some t }) := by
  obtain ⟨db, hdb, hst1⟩ := do_insert_ok cd st f1 k v (some t) hins1
  rw [hst1] at hins2 hread ⊢
  obtain ⟨db1, hdb1, hst2⟩ := do_insert_ok cd _ f2 k v2 none hins2
  simp only [Option.some.injEq] at hdb1
  subst hdb1
  rw [hst2] at hread ⊢
  simp only [impl.ordered, impl.canonical, hdb] at hord hcan
  simp only [impl.read_ok, impl.probe_ok] at hread
  have hga := insert_entries_get_a cd (insert_entries cd db.entries k v (some t)) k v2 none
  have hge : kv_get (insert_entries cd (insert_entries cd db.entries k v (some t)) k v2 none)
      (to_serial_key cd k 'e') = some (cd.ser_time t) := by
    rw [insert_entries_get_e, insert_entries_get_e]
  have hord1 := insert_entries_ordered cd db.entries k v (some t) hord
  have hcan1 := insert_entries_canonical cd db.entries k v (some t) hrk hcan
  have hord2 : DB.ordered { name := db.name, entries :=
      (insert_entries cd (insert_entries cd db.entries k v (some t)) k v2 none) } :=
    insert_entries_ordered cd (insert_entries cd db.entries k v (some t)) k v2 none hord1
  have hcan2 : DB.canonical cd { name := db.name, entries :=
      (insert_entries cd (insert_entries cd db.entries k v (some t)) k v2 none) } :=
    insert_entries_canonical cd (insert_entries cd db.entries k v (some t)) k v2 none hrk hcan1
  refine ⟨?_, ?_, ?_, ?_, ?_⟩
  · intro key hkey
    simp only [impl.raw, insert_entries]
    rw [kv_get_put_other _ _ _ _ hkey]
  · rw [do_lookup_eq cd _ _ renv k rfl hread.1 hread.2]
    simp [hga, from_serial, hrv]
  · simp [impl.stored_expiry, hge, from_serial_time, hrt]
  · rw [do_expiries_eq cd _ _ rfl]
    refine ⟨_, rfl, ?_⟩
    rw [List.mem_map]
    refine ⟨(to_serial_key cd k 'e', cd.ser_time t), ?_, ?_⟩
    · rw [mem_scan_iff _ _ hord2]
      refine ⟨kv_get_mem _ _ _ hge, ?_⟩
      rw [to_serial_key_eq, starts_with_cons]
      simp
    · simp [to_serial_key_eq, remove_first, from_serial, from_serial_time, hrk, hrt]
  · rw [do_snap_eq cd _ _ rfl]
    refine ⟨_, rfl, ?_⟩
    simp only
    rw [snap_find cd _ k hord2 hcan2 hrk]
    simp [hga, hge, from_serial, from_serial_time, hrv, hrt]

/-- Witness of C17: `insert("x", 42, Some(7))` on the fresh store, which gives `store_x`,
then `insert("x", {1}, none)`. -/
theorem plain_insert_keeps_expiry_witness :
    fresh_store.ordered ∧ fresh_store.canonical codec0 ∧
    (do_insert codec0 fresh_store none key_x (data.integer 42) (some ⟨7⟩)).1 = true ∧
    (do_insert codec0 (do_insert codec0 fresh_store none key_x (data.integer 42)
      (some ⟨7⟩)).2 none key_x (data.set [data.integer 1]) none).1 = true ∧
    (do_insert codec0 (do_insert codec0 fresh_store none key_x (data.integer 42)
      (some ⟨7⟩)).2 none key_x (data.set [data.integer 1]) none).2.stored_expiry codec0 key_x
      = some ⟨7⟩ :=
  have h := plain_insert_keeps_expiry codec0 fresh_store none none key_x (data.integer 42)
    (data.set [data.integer 1]) ⟨7⟩ plain_read (by decide) (by decide) (by decide)
    (by decide) (by decide) (by decide) (by decide) (by decide)
  ⟨by decide, by decide, by decide, by decide, h.2.2.1⟩

/-- Counterexample to C18: in the keyspace that holds the `'e'` entry of `"x"` without its
`'a'` entry, `keys()` is empty while the mapping of `snap()` has the key `"x"`, created by
the second pass with a default item. -/
theorem snap_materialises_lone_expiry :
    orphan_store.db.isSome = true ∧
    (do_keys codec0 orphan_store none).1 = some [] ∧
    (do_snap codec0 orphan_store none none).1.map (fun s => s.datastore.map Prod.fst) =
      some [key_x] ∧
    (do_lookup codec0 orphan_store plain_read key_x).1 = some none := by
  decide

/-- C18, amended: on an open backend whose keyspace satisfies the invariants of the
backend (in key order, canonical keys, every `'e'` entry with its `'a'` entry), with a
codec that round-trips, the keys of the mapping that `snap()` returns are the keys that
`keys()` returns, the item of each key is the value `lookup(k)` returns (the engine serving
the read), and the sequence number of the snapshot is `sequence()`. -/
theorem snap_agrees_with_keys (cd : Codec) (st : impl)
    (hopen : st.db.isSome = true) (hwf : st.well_formed cd) (hrt : cd.round_trips) :
    ∃ s ks, (do_snap cd st none none).1 = some s ∧ (do_keys cd st none).1 = some ks ∧
      (∀ k, k ∈ s.datastore.map Prod.fst ↔ k ∈ ks) ∧
      (∀ k v, umap_find s.datastore k = some v →
        ∀ renv, st.read_ok (to_serial_key cd k 'a') renv →
          (do_lookup cd st renv k).1 = some (some v.item)) ∧
      s.sn = do_sequence st := by
  cases hdb : st.db with
  | none => simp [hdb] at hopen
  | some db =>
    obtain ⟨hord, hcan, hno⟩ := well_formed_db cd st db hdb hwf
    obtain ⟨s, hs, hsn, _⟩ := snap_find_stored cd st default hopen hwf.1 hwf.2.1 (hrt.1 _)
    have hfind : ∀ k, umap_find s.datastore k =
        match st.stored cd k, st.stored_expiry cd k with
        | some d, e => some { item := d, expiry := e }
        | none, some t => some { item := default, expiry := some t }
        | none, none => none := by
      intro k
      obtain ⟨s1, hs1, _, hf⟩ := snap_find_stored cd st k hopen hwf.1 hwf.2.1 (hrt.1 k)
      rw [hs] at hs1
      simp only [Option.some.injEq] at hs1
      rw [hs1]
      exact hf
    refine ⟨s, _, hs, congrArg Prod.fst (do_keys_eq cd st db hdb), ?_, ?_, hsn⟩
    · intro k
      rw [← umap_find_isSome_iff, mem_do_keys_iff cd st db k hdb hord hcan (hrt.1 k), hfind k]
      cases h1 : st.stored cd k with
      | some d => simp
      | none =>
        cases h2 : st.stored_expiry cd k with
        | none => simp
        | some t =>
          have := stored_of_stored_expiry cd st k hwf.2.2 (by simp [h2])
          simp [h1] at this
    · intro k v hv renv hread
      rw [do_lookup_stored cd st renv k hopen hread]
      rw [hfind k] at hv
      cases h1 : st.stored cd k with
      | some d =>
        simp only [h1, Option.some.injEq] at hv
        rw [← hv]
      | none =>
        cases h2 : st.stored_expiry cd k with
        | none => simp [h1, h2] at hv
        | some t =>
          have := stored_of_stored_expiry cd st k hwf.2.2 (by simp [h2])
          simp [h1] at this

/-- Witness of C18 (amended): the store that holds 42 under `"x"` with expiration 7. -/
theorem snap_agrees_with_keys_witness :
    store_x.db.isSome = true ∧ store_x.well_formed codec0 ∧
    ∃ s ks, (do_snap codec0 store_x none none).1 = some s ∧
      (do_keys codec0 store_x none).1 = some ks ∧
      (∀ k, k ∈ s.datastore.map Prod.fst ↔ k ∈ ks) :=
  have h := snap_agrees_with_keys codec0 store_x (by decide) (by decide) codec0_round_trips
  ⟨by decide, by decide,
   h.elim fun s hs => hs.elim fun ks hks => ⟨s, ks, hks.1, hks.2.1, hks.2.2.1⟩⟩

/-- C19: in every state reached from a store opened on an empty path by `insert`, `erase`,
`clear`, `init`, `increment`, `add_to_set` and `remove_from_set` (and `increase_sequence`)
with every engine call succeeding, the keyspace of the open backend has each `'e'` entry
together with an `'a'` entry of the same key suffix, and apart from the `'a'` and `'e'`
entries it holds the metadata record `"mbroker_version"` and nothing else. -/
theorem reachable_layout (cd : Codec) (st : impl) (h : Reachable cd st) :
    ∀ db, st.db = some db →
      (∀ e ∈ db.entries, starts_with e.1 ['e'] = true →
        (kv_get db.entries ('a' :: remove_first e.1)).isSome = true) ∧
      (∀ e ∈ db.entries, starts_with e.1 ['a'] = true ∨ starts_with e.1 ['e'] = true ∨
        e = (metadata_key, version_string cd)) ∧
      (metadata_key, version_string cd) ∈ db.entries := by
  have hl : st.layout cd := by
    induction h with
    | opened threshold db_path options => exact opened_layout cd _ db_path options
    | increase_sequence st _ ih => exact ih
    | insert st k v e _ ih => exact do_insert_layout cd st k v e ih
    | erase st k _ ih => exact do_erase_layout cd st k ih
    | clear st _ _ => exact do_clear_layout cd st
    | init st sss _ _ _ => exact do_init_layout cd st sss
    | increment st env k amount _ hreads ih =>
      exact do_increment_layout cd st env k amount hreads ih
    | add_to_set st env k x _ hreads ih => exact do_add_to_set_layout cd st env k x hreads ih
    | remove_from_set st env k x _ hreads ih =>
      exact do_remove_from_set_layout cd st env k x hreads ih
  intro db hdb
  simpa only [impl.layout, hdb, DB.layout, DB.no_orphan] using hl

/-- Witness of C19: the store `store_x` is reached by one `insert` from the store opened
on an empty path, and its keyspace has the metadata record. -/
theorem reachable_layout_witness :
    Reachable codec0 store_x ∧
    ∃ db, store_x.db = some db ∧ (metadata_key, version_string codec0) ∈ db.entries :=
  have hr : Reachable codec0 store_x :=
    Reachable.insert _ key_x (data.integer 42) (some ⟨7⟩) (Reachable.opened 0 "store" ⟨true⟩)
  ⟨hr, _, rfl, (reachable_layout codec0 store_x hr _ rfl).2.2⟩

/-- C20: with an injective key encoding, `insert`, `erase`, `increment`, `add_to_set` and
`remove_from_set` on the key `k` leave every engine key that is not the `'a'` key or the
`'e'` key of `k` as it was, whatever the engine does; so the value and the expiration of
every other key `k2` and the metadata record are the same afterwards. -/
theorem operations_touch_one_key (cd : Codec) (st : impl) (f1 f2 : Option String)
    (lenv : LookupEnv) (k k2 v : data) (e : Option expiration_time) (amount : Int)
    (hinj : Function.Injective cd.ser_data) (hne : k2 ≠ k) :
    frame_kept cd st (do_insert cd st f1 k v e).2 k k2 ∧
    frame_kept cd st (do_erase cd st f1 f2 k).2 k k2 ∧
    frame_kept cd st (do_increment cd st lenv f1 k amount).2 k k2 ∧
    frame_kept cd st (do_add_to_set cd st lenv f1 k v).2 k k2 ∧
    frame_kept cd st (do_remove_from_set cd st lenv f1 k v).2 k k2 :=
  ⟨frame_of_same_but cd st _ k k2 hinj hne (do_insert_same_but cd st f1 k v e),
   frame_of_same_but cd st _ k k2 hinj hne (do_erase_same_but cd st f1 f2 k),
   frame_of_same_but cd st _ k k2 hinj hne (do_increment_same_but cd st lenv f1 k amount),
   frame_of_same_but cd st _ k k2 hinj hne (do_add_to_set_same_but cd st lenv f1 k v),
   frame_of_same_but cd st _ k k2 hinj hne (do_remove_from_set_same_but cd st lenv f1 k v)⟩

/-- Witness of C20: erasing `"y"` from the store that holds `"x"` with an expiration keeps
the value and the expiration of `"x"`. -/
theorem operations_touch_one_key_witness :
    key_x ≠ key_y ∧
    (do_erase codec0 store_x none none key_y).2.stored codec0 key_x =
      some (data.integer 42) ∧
    (do_erase codec0 store_x none none key_y).2.stored_expiry codec0 key_x = some ⟨7⟩ :=
  have h := (operations_touch_one_key codec0 store_x none none plain_lookup key_y key_x
    (data.integer 0) none 0 codec0_injective (by decide)).2.1
  ⟨by decide, h.2.1.trans (by decide), h.2.2.1.trans (by decide)⟩

end broker
